import Mathlib

/-!
# Trickster: time-series envelopes of the IRONdb origin and the delta-proxy engine

A shallow embedding of

* `internal/proxy/origins/irondb/model.go`      (`SeriesEnvelope`, sparse samples),
* `internal/proxy/origins/irondb/model_df4.go`  (`DF4SeriesEnvelope`, dense frames),
* `internal/proxy/deltaproxycache.go`           (`DeltaProxyCacheRequest`),
* `internal/proxy/engines/cache.go`             (`QueryCache`, `WriteCache`),
* `internal/config/defaults.go`                 (the TTL defaults),

together with the properties claimed about them.

Conventions of the embedding.

* `time.Time` is an instant counted in nanoseconds since the Unix epoch (`Int`);
  `t.Unix()` is the floor of `t / 10^9` and `time.Unix(s, 0)` is `s * 10^9`.
* `time.Duration` is a number of nanoseconds (`Int`).
* `int64` values are unbounded integers: timestamps in seconds, periods and counts
  stay far from the 64-bit bounds.  Go's `/` and `%` truncate towards zero
  (`Int.tdiv`, `Int.tmod`).
* `interface{}` payloads decoded from JSON are values of `Value`; `nil` is `Value.null`.
* A Go `map` is an association list; a run-time panic (index out of range, integer
  division by zero) is the result `none`.
-/

namespace Trickster

/-! ## Instants, extents -/

/-- Instants of `time.Time`, in nanoseconds since the Unix epoch. -/
abbrev Time := Int

/-- Nanoseconds per second. -/
def nanosPerSecond : Int := 1000000000

/-- The method `t.Unix()`: whole seconds since the epoch (rounded down). -/
def Time.Unix (t : Time) : Int := t / nanosPerSecond

/-- The function `time.Unix(sec, 0)`. -/
def Time.ofUnix (sec : Int) : Time := sec * nanosPerSecond

/-- The method `t.After(u)`. -/
@[reducible] def Time.After (t u : Time) : Prop := u < t

/-- The method `t.Before(u)`. -/
@[reducible] def Time.Before (t u : Time) : Prop := t < u

/-- The method `t.Equal(u)`. -/
@[reducible] def Time.Equal (t u : Time) : Prop := t = u

/-- The type `timeseries.Extent`: the closed interval `[Start, End]`. -/
structure Extent where
  Start : Time
  End : Time
  deriving DecidableEq, Repr

/-- The type `timeseries.ExtentList`. -/
abbrev ExtentList := List Extent

/-- Two closed intervals share an instant. -/
@[reducible] def Extent.intersects (x e : Extent) : Prop :=
  x.Start ≤ e.End ∧ e.Start ≤ x.End

/-- Modelled from the spec: `ExtentList.Crop` of package `timeseries` (not among the
sources).  "Restricts every extent to intersection with `e`; drops empty ones." -/
def ExtentList.Crop (el : ExtentList) (e : Extent) : ExtentList :=
  el.filterMap fun x =>
    if max x.Start e.Start ≤ min x.End e.End then
      some { Start := max x.Start e.Start, End := min x.End e.End }
    else none

/-- Modelled from the spec: `ExtentList.OutsideOf` of package `timeseries` (not among
the sources).  "True iff no element intersects `e`." -/
def ExtentList.OutsideOf (el : ExtentList) (e : Extent) : Bool :=
  el.all fun x => !decide (x.intersects e)

/-- One pass of `Compress` over a list sorted by start: `a` is the extent being grown. -/
def ExtentList.compressFold (step : Int) : Extent → List Extent → List Extent
  | a, [] => [a]
  | a, b :: rest =>
    if b.Start ≤ a.End + step then
      compressFold step { Start := a.Start, End := max a.End b.End } rest
    else a :: compressFold step b rest

/-- Modelled from the spec: `ExtentList.Compress` of package `timeseries` (not among
the sources).  "Sorts by start; folds neighbors where `b.start ≤ a.end + step`;
`a.end := max(a.end, b.end)`." -/
def ExtentList.Compress (el : ExtentList) (step : Int) : ExtentList :=
  match el.insertionSort (fun a b => a.Start ≤ b.Start) with
  | [] => []
  | a :: rest => ExtentList.compressFold step a rest

/-! ## JSON payloads -/

/-- Values of Go's `interface{}` as decoded from JSON; numbers are kept as integers,
the algorithms never compute with them. -/
inductive Value where
  | null
  | num (n : Int)
  | str (s : String)
  | bool (b : Bool)
  deriving DecidableEq, Repr

/-! ## Sparse envelopes: `model.go` -/

/-- The type `DataPoint`. -/
structure DataPoint where
  Time : Time
  Step : Nat
  Value : Value
  deriving DecidableEq, Repr

/-- The type `DataPoints`. -/
abbrev DataPoints := List DataPoint

/-- The type `SeriesEnvelope`. -/
structure SeriesEnvelope where
  Data : DataPoints
  ExtentList : ExtentList
  StepDuration : Int
  deriving DecidableEq, Repr

/-! ## Dense frames: `model_df4.go` -/

/-- The type `DF4Info`. -/
structure DF4Info where
  Count : Int
  Start : Int
  Period : Int
  deriving DecidableEq, Repr

/-- One entry of `Meta`: a `map[string]interface{}`. -/
abbrev MetaEntry := List (String × Value)

/-- The type `DF4SeriesEnvelope`. -/
structure DF4SeriesEnvelope where
  Data : List (List Value)
  Meta : List MetaEntry
  Ver : String
  Head : DF4Info
  StepDuration : Int
  ExtentList : ExtentList
  deriving DecidableEq, Repr

/-- The interface `timeseries.Timeseries`, as the variant over its two implementations
in this package. -/
inductive Timeseries where
  | series (se : SeriesEnvelope)
  | df4 (se : DF4SeriesEnvelope)
  deriving DecidableEq, Repr

/-- The method `Step()` through the interface. -/
def Timeseries.Step : Timeseries → Int
  | .series se => se.StepDuration
  | .df4 se => se.StepDuration

/-- The method `Extents()` through the interface. -/
def Timeseries.Extents : Timeseries → ExtentList
  | .series se => se.ExtentList
  | .df4 se => se.ExtentList

/-! ### `SeriesEnvelope` operations -/

/-- The order `DataPoints.Less` sorts by: `Less(i, j)` is `dps[i].Time.Before(dps[j].Time)`;
a slice is sorted when no later element is `Less` than an earlier one. -/
@[reducible] def DataPoints.notAfter (a b : DataPoint) : Prop := a.Time ≤ b.Time

/-- The method `SeriesEnvelope.Sort`: `sort.Sort(se.Data)`.  The library sort is the
insertion sort below on short slices; on longer ones it returns some permutation ordered
by `Less`, of which this is one. -/
def SeriesEnvelope.Sort (se : SeriesEnvelope) : SeriesEnvelope :=
  { se with Data := se.Data.insertionSort DataPoints.notAfter }

/-- The method `SeriesEnvelope.ValueCount`. -/
def SeriesEnvelope.ValueCount (se : SeriesEnvelope) : Nat := se.Data.length

/-- The body of the loop of `SeriesEnvelope.Merge` for one member of the collection. -/
def SeriesEnvelope.mergeOne (se : SeriesEnvelope) : Option Timeseries → SeriesEnvelope
  | some (.series se2) =>
    { se with Data := se.Data ++ se2.Data, ExtentList := se.ExtentList ++ se2.ExtentList }
  | some (.df4 _) => se
  | none => se

/-- The method `SeriesEnvelope.Merge`. -/
def SeriesEnvelope.Merge (se : SeriesEnvelope) (sort : Bool)
    (collection : List (Option Timeseries)) : SeriesEnvelope :=
  let se1 := collection.foldl SeriesEnvelope.mergeOne se
  let se2 := { se1 with ExtentList := se1.ExtentList.Compress se1.StepDuration }
  if sort then se2.Sort else se2

/-- The method `SeriesEnvelope.CropToRange`. -/
def SeriesEnvelope.CropToRange (se : SeriesEnvelope) (e : Extent) : SeriesEnvelope :=
  let newData : DataPoints := se.Data.foldl
    (fun newData dv =>
      if (Time.After dv.Time e.Start ∨ Time.Equal dv.Time e.Start) ∧
          (Time.Before dv.Time e.End ∨ Time.Equal dv.Time e.End) then
        newData ++ [dv]
      else newData) []
  { se with Data := newData, ExtentList := se.ExtentList.Crop e }

/-! ### `DF4SeriesEnvelope` operations -/

/-- A `map[int64]interface{}`: the binding written last stands first. -/
abbrev DataMap := List (Int × Value)

/-- The assignment `m[ts] = dv`. -/
def DataMap.set (m : DataMap) (ts : Int) (dv : Value) : DataMap := (ts, dv) :: m

/-- The read `m[ts]`; a missing key reads as `nil`. -/
def DataMap.get (m : DataMap) (ts : Int) : Value :=
  match m with
  | [] => Value.null
  | (k, v) :: rest => if k = ts then v else DataMap.get rest ts

/-- The type `metricData`. -/
structure metricData where
  name : String
  meta : MetaEntry
  data : DataMap
  deriving DecidableEq, Repr

/-- A `map[string]*metricData`, keyed by `name`; `range` visits the keys in no
particular order, here in the order of their first insertion. -/
abbrev Metrics := List metricData

/-- The read `metrics[name]` with its `ok` flag. -/
def Metrics.get : Metrics → String → Option metricData
  | [], _ => none
  | x :: xs, name => if x.name = name then some x else Metrics.get xs name

/-- The assignment `metrics[md.name] = md`. -/
def Metrics.set : Metrics → metricData → Metrics
  | [], md => [md]
  | x :: xs, md => if x.name = md.name then md :: xs else x :: Metrics.set xs md

/-- The type assertion `mv["label"].(string)` with its `ok` flag. -/
def MetaEntry.label (mv : MetaEntry) : Option String :=
  match mv.lookup "label" with
  | some (Value.str s) => some s
  | _ => none

/-- The loop `for j, dv := range row { ts := start + j*period; data[ts] = dv }`,
from index `j` on. -/
def writeRow (start period : Int) : Nat → List Value → DataMap → DataMap
  | _, [], m => m
  | j, dv :: rest, m => writeRow start period (j + 1) rest (m.set (start + (j : Int) * period) dv)

/-- The loop of `CropToRange` over one row: only timestamps within `[lo, hi]` are stored. -/
def writeRowWithin (start period lo hi : Int) : Nat → List Value → DataMap → DataMap
  | _, [], m => m
  | j, dv :: rest, m =>
    let ts := start + (j : Int) * period
    writeRowWithin start period lo hi (j + 1) rest (if ts ≥ lo ∧ ts ≤ hi then m.set ts dv else m)

/-- The loop `for i := 0; i < head.Count; i++ { d = append(d, data[head.Start + i*head.Period]) }`. -/
def buildRow (head : DF4Info) (data : DataMap) : List Value :=
  (List.range head.Count.toNat).map fun (i : Nat) => data.get (head.Start + (i : Int) * head.Period)

/-- First loop of `Merge`: one fresh `metricData` per labelled entry of `se.Meta`, filled
from row `i` of `se.Data`.  Indexing a missing row panics. -/
def mergeLoadBase (se : DF4SeriesEnvelope) : List MetaEntry → Nat → Metrics → Option Metrics
  | [], _, metrics => some metrics
  | mv :: rest, i, metrics =>
    match mv.label with
    | some name =>
      match se.Data[i]? with
      | none => none
      | some row =>
        mergeLoadBase se rest (i + 1)
          (metrics.set { name := name, meta := mv,
                         data := writeRow se.Head.Start se.Head.Period 0 row [] })
    | none => mergeLoadBase se rest (i + 1) metrics

/-- Second loop of `Merge`: the rows of `se2` are written into the metric of the same
label, created when absent. -/
def mergeLoadOther (se2 : DF4SeriesEnvelope) : List MetaEntry → Nat → Metrics → Option Metrics
  | [], _, metrics => some metrics
  | mv :: rest, i, metrics =>
    match mv.label with
    | some name =>
      let md : metricData :=
        match metrics.get name with
        | some md => md
        | none => { name := name, meta := mv, data := [] }
      match se2.Data[i]? with
      | none => none
      | some row =>
        mergeLoadOther se2 rest (i + 1)
          (metrics.set { md with data := writeRow se2.Head.Start se2.Head.Period 0 row md.data })
    | none => mergeLoadOther se2 rest (i + 1) metrics

/-- The frame end `Head.Start + (Head.Count - 1) * Head.Period`. -/
def DF4Info.frameEnd (h : DF4Info) : Int := h.Start + (h.Count - 1) * h.Period

/-- The header `newHead` computed by `Merge`. -/
def mergeHead (h h2 : DF4Info) : DF4Info :=
  let min := if h2.Start < h.Start then h2.Start else h.Start
  let max := if h2.frameEnd > h.frameEnd then h2.frameEnd else h.frameEnd
  { Count := Int.tdiv (max - min) h.Period + 1, Start := min, Period := h.Period }

/-- The body of the loop of `DF4SeriesEnvelope.Merge` for one member of the collection. -/
def DF4SeriesEnvelope.mergeOne (se : DF4SeriesEnvelope) : Option Timeseries → Option DF4SeriesEnvelope
  | none => some se
  | some (.series _) => some se
  | some (.df4 se2) =>
    if se2.StepDuration = se.StepDuration then
      match mergeLoadBase se se.Meta 0 [] with
      | none => none
      | some metrics0 =>
        match mergeLoadOther se2 se2.Meta 0 metrics0 with
        | none => none
        | some metrics =>
          if se.Head.Period = 0 then none
          else
            let newHead := mergeHead se.Head se2.Head
            some { se with
              Data := metrics.map fun m => buildRow newHead m.data
              Meta := metrics.map fun m => m.meta
              Head := newHead
              ExtentList := se.ExtentList ++ se2.ExtentList }
    else some se

/-- The loop of `DF4SeriesEnvelope.Merge` over the collection. -/
def DF4SeriesEnvelope.mergeAll (se : DF4SeriesEnvelope) : List (Option Timeseries) → Option DF4SeriesEnvelope
  | [] => some se
  | ts :: rest =>
    match se.mergeOne ts with
    | none => none
    | some se1 => mergeAll se1 rest

/-- The method `DF4SeriesEnvelope.Sort`: nothing to do. -/
def DF4SeriesEnvelope.Sort (se : DF4SeriesEnvelope) : DF4SeriesEnvelope := se

/-- The method `DF4SeriesEnvelope.Merge`. -/
def DF4SeriesEnvelope.Merge (se : DF4SeriesEnvelope) (sort : Bool)
    (collection : List (Option Timeseries)) : Option DF4SeriesEnvelope :=
  match se.mergeAll collection with
  | none => none
  | some se1 =>
    let se2 := { se1 with ExtentList := se1.ExtentList.Compress se1.StepDuration }
    some (if sort then se2.Sort else se2)

/-- The loop of `CropToRange` that fills the metrics map from the labelled rows. -/
def cropLoad (se : DF4SeriesEnvelope) (lo hi : Int) : List MetaEntry → Nat → Metrics → Option Metrics
  | [], _, metrics => some metrics
  | mv :: rest, i, metrics =>
    match mv.label with
    | some name =>
      match se.Data[i]? with
      | none => none
      | some row =>
        cropLoad se lo hi rest (i + 1)
          (metrics.set { name := name, meta := mv,
                         data := writeRowWithin se.Head.Start se.Head.Period lo hi 0 row [] })
    | none => cropLoad se lo hi rest (i + 1) metrics

/-- The alignment `time.Unix(t.Unix() - (t.Unix() % period), 0)` of `CropToRange`. -/
def alignDown (t : Time) (period : Int) : Time :=
  Time.ofUnix (t.Unix - Int.tmod t.Unix period)

/-- The method `DF4SeriesEnvelope.CropToRange`. -/
def DF4SeriesEnvelope.CropToRange (se : DF4SeriesEnvelope) (e : Extent) : Option DF4SeriesEnvelope :=
  if se.Head.Period = 0 then none
  else
    let e : Extent := { Start := alignDown e.Start se.Head.Period, End := alignDown e.End se.Head.Period }
    if se.ExtentList.length < 1 ∨ se.ExtentList.OutsideOf e = true then
      some { se with
        Data := []
        Meta := []
        Head := { se.Head with Start := e.Start.Unix, Count := 0 }
        ExtentList := [] }
    else
      match cropLoad se e.Start.Unix e.End.Unix se.Meta 0 [] with
      | none => none
      | some metrics =>
        let newHead : DF4Info :=
          { Count := Int.tdiv (e.End.Unix - e.Start.Unix) se.Head.Period
            Start := e.Start.Unix
            Period := se.Head.Period }
        some { se with
          Data := metrics.map fun m => buildRow newHead m.data
          Meta := metrics.map fun m => m.meta
          Head := newHead
          ExtentList := se.ExtentList.Crop e }

/-- The method `DF4SeriesEnvelope.TimestampCount`. -/
def DF4SeriesEnvelope.TimestampCount (se : DF4SeriesEnvelope) : Int := se.Head.Count

/-- The slice expression `data[rc:]`; it panics unless `0 ≤ rc ≤ len(data)`. -/
def sliceFrom (data : List Value) (rc : Int) : Option (List Value) :=
  if 0 ≤ rc ∧ rc ≤ data.length then some (data.drop rc.toNat) else none

/-- The loop `for _, data := range se.Data { newData = append(newData, data[rc:]) }`. -/
def sliceAll (rc : Int) : List (List Value) → Option (List (List Value))
  | [] => some []
  | data :: rest =>
    match sliceFrom data rc with
    | none => none
    | some d => (sliceAll rc rest).map fun newData => d :: newData

/-- The method `DF4SeriesEnvelope.CropToSize`. -/
def DF4SeriesEnvelope.CropToSize (se : DF4SeriesEnvelope) (sz : Int) (t : Time) (_lur : Extent) :
    Option DF4SeriesEnvelope :=
  match se.ExtentList.getLast?, se.ExtentList.head? with
  | some last, some first =>
    let cropped : Option DF4SeriesEnvelope :=
      if Time.After last.End t then se.CropToRange { Start := first.Start, End := t } else some se
    match cropped with
    | none => none
    | some se =>
      let tc := se.TimestampCount
      if se.Data.length = 0 ∨ tc ≤ sz then some se
      else
        let rc := tc - sz
        match sliceAll rc se.Data with
        | none => none
        | some newData =>
          let head : DF4Info :=
            { se.Head with Start := se.Head.Start + rc * se.Head.Period, Count := se.Head.Count - rc }
          some { se with
            Head := head
            Data := newData
            ExtentList := [{ Start := Time.ofUnix head.Start, End := Time.ofUnix head.frameEnd }] }
  | _, _ =>
    some { se with
      Data := []
      Meta := []
      Head := { se.Head with Start := 0, Count := 0 }
      ExtentList := [] }

/-! ### The interface `timeseries.Timeseries`, dispatched -/

/-- The method `SetStep` through the interface. -/
def Timeseries.SetStep : Timeseries → Int → Timeseries
  | .series se, step => .series { se with StepDuration := step }
  | .df4 se, step => .df4 { se with StepDuration := step }

/-- The method `SetExtents` through the interface. -/
def Timeseries.SetExtents : Timeseries → ExtentList → Timeseries
  | .series se, extents => .series { se with ExtentList := extents }
  | .df4 se, extents => .df4 { se with ExtentList := extents }

/-- The method `Merge` through the interface. -/
def Timeseries.Merge : Timeseries → Bool → List (Option Timeseries) → Option Timeseries
  | .series se, sort, collection => some (.series (se.Merge sort collection))
  | .df4 se, sort, collection => (se.Merge sort collection).map .df4

/-- The method `CropToRange` through the interface (`Crop` in the handler). -/
def Timeseries.CropToRange : Timeseries → Extent → Option Timeseries
  | .series se, e => some (.series (se.CropToRange e))
  | .df4 se, e => (se.CropToRange e).map .df4

/-! ## The delta-proxy handler: `deltaproxycache.go` -/

namespace Proxy

/-- A byte slice. -/
abbrev Bytes := List Nat

/-- The type `http.Header`. -/
abbrev Header := List (String × String)

/-- The cached document `cacheData` as far as the handler reads it. -/
structure HTTPDocument where
  StatusCode : Nat
  Headers : Header
  Body : Bytes
  deriving DecidableEq, Repr

/-- The type `timeseries.TimeRangeQuery` as far as the handler reads it; `Step` in seconds. -/
structure TimeRangeQuery where
  Extent : Extent
  Step : Int
  deriving DecidableEq, Repr

/-- The collaborators of `DeltaProxyCacheRequest` whose code lies outside the sources, each
given by what it answers during the call: the origin client, the time-range algebra of
package `timeseries`, the cache lookup, the upstream fetch and the wall clock. -/
structure Collaborators where
  /-- Result of `client.ParseTimeRangeQuery(r.ClientRequest)`; `none` is the error result. -/
  ParseTimeRangeQuery : Option TimeRangeQuery
  /-- The method `trq.NormalizeExtent()`. -/
  NormalizeExtent : TimeRangeQuery → TimeRangeQuery
  /-- Result of `QueryCache(cache, key)`; `none` is the error result. -/
  QueryCache : Option HTTPDocument
  /-- The method `client.UnmarshalTimeseries`; `none` is the error result. -/
  UnmarshalTimeseries : Bytes → Option Timeseries
  /-- The method `client.MarshalTimeseries`; `none` is the error result. -/
  MarshalTimeseries : Timeseries → Option Bytes
  /-- The method `trq.CalculateDeltas(extents)`. -/
  CalculateDeltas : TimeRangeQuery → ExtentList → ExtentList
  /-- Result of `Fetch(req)` after `client.SetExtent(req, e)`: body, status code and headers. -/
  Fetch : Extent → Bytes × Nat × Header
  /-- The setting `client.Configuration().MaxValueAgeSecs`. -/
  MaxValueAgeSecs : Int
  /-- The wall clock `time.Now()`. -/
  now : Time

/-- What the handler does with the response writer. -/
inductive Response where
  /-- The call `ProxyRequest(r, w)`. -/
  | proxied
  /-- The call `ObjectProxyCacheRequest(r, w, client, cache, ttl, true, true)`. -/
  | objectProxy
  /-- The call `Respond(w, status, headers, body)`; a `nil` header or body is `none`. -/
  | responded (status : Nat) (headers : Option Header) (body : Option Bytes)
  deriving DecidableEq, Repr

/-- The observable result of one call of the handler. -/
structure Outcome where
  response : Response
  /-- The body handed to `WriteCache`, if the handler wrote back. -/
  stored : Option Bytes
  /-- The calls of `wg.Add(1)` and of `wg.Done()` over the whole call. -/
  added : Nat
  done : Nat
  deriving DecidableEq, Repr

/-- The fetch goroutines, run in the order of `missRanges`: the merge list `mts`, the
header `rh` of the first contribution. -/
def fetchAll (c : Collaborators) : ExtentList → List (Option Timeseries) × Option Header
  | [] => ([], none)
  | e :: rest =>
    let (mts, rh) := fetchAll c rest
    let (body, status, header) := c.Fetch e
    if status = 200 ∧ body.length > 0 then
      match c.UnmarshalTimeseries body with
      | none => (mts, rh)
      | some nts => (some (nts.SetExtents [e]) :: mts, some header)
    else (mts, rh)

/-- The function `DeltaProxyCacheRequest`; `none` is a panic inside a timeseries method.
The goroutines are run one after the other in program order.  The handler calls the
interface methods as `cts.Merge(mts...)` and `cts.Crop(e)`: they are `Merge` with sorting
and `CropToRange` of the envelopes. -/
def DeltaProxyCacheRequest (c : Collaborators) (refresh : Bool) : Option Outcome :=
  match c.ParseTimeRangeQuery with
  | none => some { response := .proxied, stored := none, added := 0, done := 0 }
  | some trq0 =>
    let trq := c.NormalizeExtent trq0
    if refresh then some { response := .objectProxy, stored := none, added := 0, done := 0 }
    else
      match c.QueryCache with
      | none => some { response := .objectProxy, stored := none, added := 0, done := 0 }
      | some cacheData =>
        match c.UnmarshalTimeseries cacheData.Body with
        | none => some { response := .objectProxy, stored := none, added := 0, done := 0 }
        | some cts0 =>
          let cts := if cts0.Step = 0 then cts0.SetStep (trq.Step * nanosPerSecond) else cts0
          let missRanges := c.CalculateDeltas trq cts.Extents
          if missRanges.length = 0 then
            some { response := .responded cacheData.StatusCode (some cacheData.Headers) (some cacheData.Body)
                   stored := none, added := 0, done := 0 }
          else
            let (mts, rh) := fetchAll c missRanges
            match cts.Merge true mts with
            | none => none
            | some merged =>
              match merged.CropToRange trq.Extent with
              | none => none
              | some cropped =>
                let rdata := c.MarshalTimeseries cropped
                let re : Extent :=
                  { End := c.now, Start := c.now - c.MaxValueAgeSecs * nanosPerSecond }
                match cropped.CropToRange re with
                | none => none
                | some aged =>
                  let n := missRanges.length
                  match c.MarshalTimeseries aged with
                  | none =>
                    some { response := .responded cacheData.StatusCode rh rdata
                           stored := none, added := n + 2, done := n + 1 }
                  | some cdata =>
                    some { response := .responded cacheData.StatusCode rh rdata
                           stored := some cdata, added := n + 2, done := n + 2 }

end Proxy

/-! ## Definitions used to state the properties -/

/-- The samples a member of a merge collection contributes to a `SeriesEnvelope`. -/
def memberData : Option Timeseries → DataPoints
  | some (.series se2) => se2.Data
  | some (.df4 _) => []
  | none => []

/-- The extents a member of a merge collection contributes to a `SeriesEnvelope`. -/
def memberExtents : Option Timeseries → ExtentList
  | some (.series se2) => se2.ExtentList
  | some (.df4 _) => []
  | none => []

instance : IsTotal DataPoint DataPoints.notAfter := ⟨fun a b => Int.le_total a.Time b.Time⟩

instance : IsTrans DataPoint DataPoints.notAfter := ⟨fun _ _ _ h1 h2 => Int.le_trans h1 h2⟩

/-- The envelope `[(10s, 1)]` with extent `[10s, 10s]`. -/
def dupBase : SeriesEnvelope :=
  { Data := [{ Time := Time.ofUnix 10, Step := 0, Value := .num 1 }]
    ExtentList := [{ Start := Time.ofUnix 10, End := Time.ofUnix 10 }]
    StepDuration := 10 * nanosPerSecond }

/-- The envelope `[(10s, 2)]` with extent `[10s, 10s]`: a later fetch of the same instant. -/
def dupFetched : SeriesEnvelope :=
  { Data := [{ Time := Time.ofUnix 10, Step := 0, Value := .num 2 }]
    ExtentList := [{ Start := Time.ofUnix 10, End := Time.ofUnix 10 }]
    StepDuration := 10 * nanosPerSecond }

/-- The samples of `dps` at instant `t`. -/
def DataPoints.at (dps : DataPoints) (t : Time) : DataPoints :=
  dps.filter fun dp => decide (dp.Time = t)

namespace Proxy

/-- Samples of a toy wire format: one byte of Unix seconds and one byte of value each. -/
def decodeSamples : Bytes → Option DataPoints
  | [] => some []
  | [_] => none
  | t :: v :: rest =>
    (decodeSamples rest).map fun l => { Time := Time.ofUnix t, Step := 0, Value := .num v } :: l

/-- The toy wire format of a cached series: extent start, extent end and step (one byte of
seconds each), then the samples. -/
def decodeSeries : Bytes → Option Timeseries
  | s :: e :: step :: rest =>
    (decodeSamples rest).map fun l =>
      .series { Data := l
                ExtentList := [{ Start := Time.ofUnix s, End := Time.ofUnix e }]
                StepDuration := step * nanosPerSecond }
  | _ => none

/-- Inverse of `decodeSamples` on the samples it produces. -/
def encodeSamples : DataPoints → Bytes
  | [] => []
  | dp :: rest =>
    dp.Time.Unix.toNat :: (match dp.Value with | .num v => v.toNat | _ => 0) :: encodeSamples rest

/-- Inverse of `decodeSeries` on the series it produces. -/
def encodeSeries : Timeseries → Option Bytes
  | .series se =>
    match se.ExtentList with
    | [x] =>
      some (x.Start.Unix.toNat :: x.End.Unix.toNat :: (se.StepDuration / nanosPerSecond).toNat ::
        encodeSamples se.Data)
    | _ => none
  | .df4 _ => none

/-- The cached body: extent `[100, 200]`, step 50, samples at 100, 150 and 200 seconds. -/
def hitBody : Bytes := [100, 200, 50, 100, 1, 150, 2, 200, 3]

/-- A request for `[140, 160]` answered from a cache that holds `[100, 200]`: the delta
is empty. -/
def hitCall : Collaborators :=
  { ParseTimeRangeQuery :=
      some { Extent := { Start := Time.ofUnix 140, End := Time.ofUnix 160 }, Step := 50 }
    NormalizeExtent := fun trq => trq
    QueryCache := some { StatusCode := 200, Headers := [("Content-Type", "application/json")],
                         Body := hitBody }
    UnmarshalTimeseries := decodeSeries
    MarshalTimeseries := encodeSeries
    CalculateDeltas := fun trq el =>
      if el.any (fun x => decide (x.Start ≤ trq.Extent.Start ∧ trq.Extent.End ≤ x.End)) then []
      else [trq.Extent]
    Fetch := fun _ => ([], 502, [])
    MaxValueAgeSecs := 86400
    now := Time.ofUnix 250 }

end Proxy

/-- The dense frame of period 10 with slots 0, 10, ..., 100 holding the values 0, ..., 10 of
the metric `a`, and the extent `[0, 100]`. -/
def frame0to100 : DF4SeriesEnvelope :=
  { Data := [[.num 0, .num 1, .num 2, .num 3, .num 4, .num 5, .num 6, .num 7, .num 8, .num 9,
              .num 10]]
    Meta := [[("label", .str "a")]]
    Ver := "DF4"
    Head := { Count := 11, Start := 0, Period := 10 }
    StepDuration := 10 * nanosPerSecond
    ExtentList := [{ Start := Time.ofUnix 0, End := Time.ofUnix 100 }] }

/-- The Unix second at which the last extent of a list ends. -/
def ExtentList.lastEndUnix (el : ExtentList) : Option Int :=
  el.getLast?.map fun x => x.End.Unix

/-- The frame `se` holds the value `v` for the metric labelled `name` in the slot of
timestamp `ts`: some row `a` whose `Meta` entry carries the label has `v` at an index `j`
with `ts = Head.Start + j * Head.Period`. -/
def DF4SeriesEnvelope.holds (se : DF4SeriesEnvelope) (name : String) (ts : Int) (v : Value) : Prop :=
  ∃ (a : Nat) (mv : MetaEntry) (row : List Value) (j : Nat),
    se.Meta[a]? = some mv ∧ mv.label = some name ∧ se.Data[a]? = some row ∧
    row[j]? = some v ∧ ts = se.Head.Start + (j : Int) * se.Head.Period

/-- Every metric of `ms` is named by the label of its `Meta` entry, and every timestamp
its data map binds to a non-nil value is a slot that `se` or `se2` holds for that label. -/
def metricsFrom (se se2 : DF4SeriesEnvelope) (ms : Metrics) : Prop :=
  ∀ md ∈ ms, md.meta.label = some md.name ∧
    ∀ ts, md.data.get ts ≠ Value.null →
      (∃ v, se.holds md.name ts v) ∨ (∃ v, se2.holds md.name ts v)

/-- The envelope `Merge` builds from the final metrics map `ms` when merging `se2` into `se`. -/
def mergedEnvelope (se se2 : DF4SeriesEnvelope) (ms : Metrics) : DF4SeriesEnvelope :=
  { se with
    Data := ms.map fun m => buildRow (mergeHead se.Head se2.Head) m.data
    Meta := ms.map fun m => m.meta
    Head := mergeHead se.Head se2.Head
    ExtentList := (se.ExtentList ++ se2.ExtentList).Compress se.StepDuration }

/-- The labels carried by the entries of a `Meta` list, in order. -/
def labels (metas : List MetaEntry) : List String := metas.filterMap MetaEntry.label

/-- The metric `Merge` holds for a label after its second loop has met an entry `mv` of
`se2.Meta` with that label and its row: the metric already there with the row written over
its data, or a fresh one. -/
def mergedMetric (se2 : DF4SeriesEnvelope) (name : String) (mv : MetaEntry) (row : List Value) :
    Option metricData → metricData
  | some md => { md with data := writeRow se2.Head.Start se2.Head.Period 0 row md.data }
  | none => { name := name, meta := mv, data := writeRow se2.Head.Start se2.Head.Period 0 row [] }

/-- The value `x` that merging `se2` into `se` assigns to the metric `name` at timestamp
`ts`: the sample of `se2` if it holds one there, else the sample of `se`, else nil. -/
def mergedValue (se se2 : DF4SeriesEnvelope) (name : String) (ts : Int) (x : Value) : Prop :=
  se2.holds name ts x ∨
  ((∀ v2, ¬ se2.holds name ts v2) ∧ se.holds name ts x) ∨
  ((∀ v2, ¬ se2.holds name ts v2) ∧ (∀ v, ¬ se.holds name ts v) ∧ x = Value.null)

/-- A dense frame of period 10 with slots 50, 60 and 70 for the metrics `a` and `b`, and the
extent `[50, 70]`. -/
def frame50to70 : DF4SeriesEnvelope :=
  { Data := [[.num 105, .num 106, .num 107], [.num 205, .num 206, .num 207]]
    Meta := [[("label", .str "a")], [("label", .str "b")]]
    Ver := "DF4"
    Head := { Count := 3, Start := 50, Period := 10 }
    StepDuration := 10 * nanosPerSecond
    ExtentList := [{ Start := Time.ofUnix 50, End := Time.ofUnix 70 }] }

/-- A dense frame of period 10 with slots 40, 50 and 60 for the metric `a` and for a row
whose `Meta` entry carries no label, and the extent `[40, 60]`. -/
def frameUnlabelled : DF4SeriesEnvelope :=
  { Data := [[.num 4, .num 5, .num 6], [.num 14, .num 15, .num 16]]
    Meta := [[("label", .str "a")], [("kind", .str "numeric")]]
    Ver := "DF4"
    Head := { Count := 3, Start := 40, Period := 10 }
    StepDuration := 10 * nanosPerSecond
    ExtentList := [{ Start := Time.ofUnix 40, End := Time.ofUnix 60 }] }

/-- The row of the merged frame `r` at index `k` is the row of the metric `name`: it has
`Head.Count` slots, and each slot holds the merged value of `se` and `se2` for `name` at
the slot's timestamp. -/
def isMergedRow (se se2 r : DF4SeriesEnvelope) (name : String) (row : List Value) : Prop :=
  row.length = r.Head.Count.toNat ∧
  ∀ (i : Nat) (x : Value), row[i]? = some x →
    mergedValue se se2 name (r.Head.Start + (i : Int) * r.Head.Period) x

/-! ### `SeriesEnvelope`: `TimestampCount`, `CropToSize`, `Clone` -/

/-- The assignment `ts[k] = struct{}{}` on a `map[int64]struct{}`, kept as the list of its
keys in the order of their first insertion. -/
def insertKey (ts : List Int) (k : Int) : List Int :=
  if k ∈ ts then ts else ts ++ [k]

/-- The loop `for _, dp := range se.Data { ts[dp.Time.Unix()] = struct{}{} }`. -/
def timestampSet (dps : DataPoints) : List Int :=
  dps.foldl (fun ts dp => insertKey ts dp.Time.Unix) []

/-- The method `SeriesEnvelope.TimestampCount`. -/
def SeriesEnvelope.TimestampCount (se : SeriesEnvelope) : Nat := (timestampSet se.Data).length

/-- The final loop of `SeriesEnvelope.CropToSize`, on the triple `(newData, min, max)`: the
samples whose Unix second is in `tsm` are kept, and `min` and `max` (starting at
`time.Now().Unix()` and `0`) follow the kept seconds. -/
def retainLoop (tsm : List Int) : DataPoints → DataPoints × Int × Int → DataPoints × Int × Int
  | [], acc => acc
  | dp :: rest, (newData, min, max) =>
    let t := dp.Time.Unix
    if t ∈ tsm then
      retainLoop tsm rest (newData ++ [dp], if t < min then t else min, if t > max then t else max)
    else retainLoop tsm rest (newData, min, max)

/-- The step "crop to the backfill tolerance value if needed" of `CropToSize`, on an
envelope with extents: when the last extent ends after `t`, the envelope is cropped to
`[ExtentList[0].Start, t]`. -/
def SeriesEnvelope.backfillCrop (se : SeriesEnvelope) (t : Time) : SeriesEnvelope :=
  match se.ExtentList.getLast?, se.ExtentList.head? with
  | some last, some first =>
    if Time.After last.End t then se.CropToRange { Start := first.Start, End := t } else se
  | _, _ => se

/-- The method `SeriesEnvelope.CropToSize`; `now` is the wall clock `time.Now()`, and
`none` is the panic of `tsl[rc:]` out of range. -/
def SeriesEnvelope.CropToSize (se : SeriesEnvelope) (sz : Int) (t : Time) (_lur : Extent)
    (now : Time) : Option SeriesEnvelope :=
  if se.ExtentList.length < 1 then some { se with Data := [], ExtentList := [] }
  else
    let se := se.backfillCrop t
    let ts := timestampSet se.Data
    if se.Data.length = 0 ∨ (ts.length : Int) ≤ sz then some se
    else
      let rc : Int := ts.length - sz
      let tsl := ts.insertionSort (fun a b => a ≤ b)
      if rc ≤ tsl.length then
        let tsm := tsl.drop rc.toNat
        let kept := retainLoop tsm se.Data ([], now.Unix, 0)
        some ({ se with
          Data := kept.1
          ExtentList := [{ Start := Time.ofUnix kept.2.1, End := Time.ofUnix kept.2.2 }] }).Sort
      else none

/-- The built-in `copy(dst, src)`: the first `min(len(dst), len(src))` elements of `dst`
are overwritten with those of `src`. -/
def goCopy {α : Type} (dst src : List α) : List α :=
  src.take dst.length ++ dst.drop src.length

/-- The zero value of `DataPoint`. -/
def DataPoint.zero : DataPoint := { Time := 0, Step := 0, Value := Value.null }

/-- The zero value of `timeseries.Extent`. -/
def Extent.zero : Extent := { Start := 0, End := 0 }

/-- The method `SeriesEnvelope.Clone`. -/
def SeriesEnvelope.Clone (se : SeriesEnvelope) : SeriesEnvelope :=
  let b : SeriesEnvelope :=
    { Data := List.replicate se.Data.length DataPoint.zero
      StepDuration := se.StepDuration
      ExtentList := List.replicate 0 Extent.zero }
  let b := { b with ExtentList := goCopy b.ExtentList se.ExtentList }
  if se.Data.length > 0 then
    { b with Data := goCopy (List.replicate se.Data.length DataPoint.zero) se.Data }
  else b

/-- The number of distinct Unix-second timestamps among the samples. -/
def distinctSeconds (dps : DataPoints) : Nat :=
  (dps.map fun dp => dp.Time.Unix).dedup.length

/-- The number of distinct Unix-second timestamps among the samples that are newer than
the second `s`. -/
def newerSeconds (dps : DataPoints) (s : Int) : Nat :=
  ((dps.map fun dp => dp.Time.Unix).dedup.filter fun u => decide (s < u)).length

/-- A sparse envelope with samples at 300 s, 100 s, 200 s and 300.000000005 s and the extent
`[100 s, 301 s]`. -/
def sparse100to300 : SeriesEnvelope :=
  { Data := [{ Time := Time.ofUnix 300, Step := 0, Value := .num 3 },
             { Time := Time.ofUnix 100, Step := 0, Value := .num 1 },
             { Time := Time.ofUnix 200, Step := 0, Value := .num 2 },
             { Time := Time.ofUnix 300 + 5, Step := 0, Value := .num 4 }]
    ExtentList := [{ Start := Time.ofUnix 100, End := Time.ofUnix 301 }]
    StepDuration := 100 * nanosPerSecond }

/-- A sparse envelope whose extent list `[0 s, 50 s]` ends before its only sample, at 100 s. -/
def sparseBeyondExtent : SeriesEnvelope :=
  { Data := [{ Time := Time.ofUnix 100, Step := 0, Value := .num 1 }]
    ExtentList := [{ Start := Time.ofUnix 0, End := Time.ofUnix 50 }]
    StepDuration := 50 * nanosPerSecond }

/-- A dense frame without rows: `Head.Count = 5` slots of period 10 from 0, no metric, and
the extent `[0, 40]`. -/
def frameNoRows : DF4SeriesEnvelope :=
  { Data := []
    Meta := []
    Ver := "DF4"
    Head := { Count := 5, Start := 0, Period := 10 }
    StepDuration := 10 * nanosPerSecond
    ExtentList := [{ Start := Time.ofUnix 0, End := Time.ofUnix 40 }] }

/-! ### `SeriesEnvelope`: `MarshalJSON`, `UnmarshalJSON` -/

/-- The anonymous struct `se2` of `MarshalJSON` and `UnmarshalJSON`, with the JSON keys
`data`, `extents,omitempty` and `step,omitempty`. -/
structure envelopeFields where
  Data : DataPoints
  ExtentList : ExtentList
  StepDuration : String
  deriving DecidableEq, Repr

/-- The JSON text written by `SeriesEnvelope.MarshalJSON`, given by the value it encodes:
the bare array of samples, or the object of `envelopeFields`. -/
inductive EnvelopeJSON where
  | samples (data : DataPoints)
  | object (fields : envelopeFields)
  deriving DecidableEq, Repr

/-- The library functions under the JSON codec of the envelope, each given by what it
answers: the text of a duration, its parser, and the decoding by `json.Unmarshal` of the
sample array and of the extent array that `json.Marshal` wrote (`none` is an error). -/
structure JSONLibrary where
  /-- The method `time.Duration.String`. -/
  durationString : Int → String
  /-- The function `time.ParseDuration` on a non-empty string. -/
  parseNonEmpty : String → Option Int
  /-- The decoding of an encoded sample array. -/
  decodeSamples : DataPoints → Option DataPoints
  /-- The decoding of an encoded extent array. -/
  decodeExtents : ExtentList → Option ExtentList

/-- The library function `time.ParseDuration`: the empty string is rejected
(`time: invalid duration ""`). -/
def JSONLibrary.ParseDuration (lib : JSONLibrary) (s : String) : Option Int :=
  if s = "" then none else lib.parseNonEmpty s

/-- The method `SeriesEnvelope.MarshalJSON`. -/
def SeriesEnvelope.MarshalJSON (lib : JSONLibrary) (se : SeriesEnvelope) : EnvelopeJSON :=
  if se.StepDuration = 0 ∧ se.ExtentList.length = 0 then .samples se.Data
  else
    .object { Data := se.Data
              ExtentList := se.ExtentList
              StepDuration := if se.StepDuration ≠ 0 then lib.durationString se.StepDuration else "" }

/-- A string value `s` puts the quoted text `"key"` into the JSON text: the value is `key`
itself, or ends with a quote (written `\"`) followed by `key`. -/
def quotes (s key : String) : Bool :=
  decide (s = key) || ('"' :: key.toList).isSuffixOf s.toList

/-- The test `strings.Contains(string(b), "\"key\"")` on the text of an `EnvelopeJSON`: the
quoted key is an emitted object key (`data` always, `extents` and `step` unless empty) or
comes from a string value. -/
def EnvelopeJSON.mentions : EnvelopeJSON → String → Bool
  | .samples data, key =>
    data.any fun dp => match dp.Value with | .str s => quotes s key | _ => false
  | .object f, key =>
    decide (key = "data") || (decide (key = "extents") && !f.ExtentList.isEmpty) ||
    (decide (key = "step") && decide (f.StepDuration ≠ "")) || quotes f.StepDuration key ||
    f.Data.any fun dp => match dp.Value with | .str s => quotes s key | _ => false

/-- The method `SeriesEnvelope.UnmarshalJSON` on the receiver `se`; `none` is a non-nil
error. -/
def SeriesEnvelope.UnmarshalJSON (lib : JSONLibrary) (se : SeriesEnvelope) (b : EnvelopeJSON) :
    Option SeriesEnvelope :=
  if b.mentions "data" ∧ (b.mentions "extents" ∨ b.mentions "step") then
    match b with
    | .samples _ => none
    | .object se2 =>
      match lib.decodeSamples se2.Data, lib.decodeExtents se2.ExtentList with
      | some data, some extents =>
        match lib.ParseDuration se2.StepDuration with
        | none => none
        | some d => some { Data := data, ExtentList := extents, StepDuration := d }
      | _, _ => none
  else
    match b with
    | .samples data => (lib.decodeSamples data).map fun data => { se with Data := data }
    | .object _ => none

/-- The zero value `&SeriesEnvelope{}`. -/
def SeriesEnvelope.zero : SeriesEnvelope := { Data := [], ExtentList := [], StepDuration := 0 }

/-- An envelope with the extent `[100 s, 200 s]` and no step. -/
def sparseStepless : SeriesEnvelope :=
  { Data := [{ Time := Time.ofUnix 100, Step := 0, Value := .num 1 }]
    ExtentList := [{ Start := Time.ofUnix 100, End := Time.ofUnix 200 }]
    StepDuration := 0 }

/-- The JSON text `MarshalJSON` writes for `sparseStepless`: the object with the keys `data`
and `extents`, the key `step` omitted. -/
def sparseSteplessJSON : EnvelopeJSON :=
  .object { Data := sparseStepless.Data, ExtentList := sparseStepless.ExtentList, StepDuration := "" }

/-! ## The object-proxy cache lookup: `engines/cache.go` -/

namespace Engines

/-- A byte slice. -/
abbrev Bytes := List Nat

/-- The type `byterange.Range`: the bytes `Start` to `End`, both included. -/
structure Range where
  Start : Int
  End : Int
  deriving DecidableEq, Repr

/-- The type `byterange.Ranges`; a nil slice is the empty list. -/
abbrev Ranges := List Range

/-- The part of the range `r` that the range `stored` does not cover: what lies
before it and what lies after it. -/
def Range.minus (r stored : Range) : Ranges :=
  (if r.Start ≤ min r.End (stored.Start - 1) then
    [{ Start := r.Start, End := min r.End (stored.Start - 1) }] else []) ++
  (if max r.Start (stored.End + 1) ≤ r.End then
    [{ Start := max r.Start (stored.End + 1), End := r.End }] else [])

/-- Modelled from the spec: `Ranges.CalculateDelta` of package `byterange` (not among the
sources).  "Returns the byte sub-ranges of the request absent from cached." -/
def Ranges.CalculateDelta (rs haves : Ranges) (_fullContentLength : Int) : Ranges :=
  haves.foldl (fun missing stored => missing.flatMap fun r => r.minus stored) rs

/-- Modelled from the spec: `Ranges.Equal` of package `byterange` (not among the sources),
the test "`delta == request_ranges`": the same ranges in the same order. -/
def Ranges.Equal (rs rs2 : Ranges) : Bool := decide (rs = rs2)

/-- Modelled from the spec: `status.LookupStatus` (not among the sources).  "One of `Hit`,
`PartialHit`, `RangeMiss`, `KeyMiss`, `RevalidatedOk`, `Error`." -/
inductive LookupStatus where
  | Hit
  | PartialHit
  | RangeMiss
  | KeyMiss
  | RevalidatedOk
  | Error
  deriving DecidableEq, Repr

/-- Values of Go's `error` as `QueryCache` tells them apart: the sentinel `cache.ErrKNF`,
or another error with the text of its `Error()`. -/
inductive CacheError where
  | ErrKNF
  | other (text : String)
  deriving DecidableEq, Repr

/-- Modelled from the spec: the caching policy of a document (type `CachingPolicy`, not
among the sources).  "`caching_policy: { etag, last_modified, must_revalidate, no_cache,
no_transform, fresh_until }`." -/
structure CachingPolicy where
  ETag : String
  LastModified : Int
  MustRevalidate : Bool
  NoCache : Bool
  NoTransform : Bool
  FreshUntil : Int
  deriving DecidableEq, Repr

/-- Modelled from the spec: the type `HTTPDocument` (not among the sources), with the fields
`cache.go` reads and writes.  "`{ status_code, status_text, headers, body, content_type,
content_length, caching_policy, ranges, range_parts, is_fulfillment, is_loaded }`", and
the transient `range_parts_loaded`. -/
structure HTTPDocument where
  StatusCode : Int
  Status : String
  Headers : List (String × List String)
  Body : Bytes
  ContentType : String
  ContentLength : Int
  CachingPolicy : Option CachingPolicy
  Ranges : Ranges
  RangeParts : List (Range × Bytes)
  isFulfillment : Bool
  isLoaded : Bool
  rangePartsLoaded : Bool
  deriving DecidableEq, Repr

/-- The zero value `&HTTPDocument{}`. -/
def HTTPDocument.zero : HTTPDocument :=
  { StatusCode := 0, Status := "", Headers := [], Body := [], ContentType := "",
    ContentLength := 0, CachingPolicy := none, Ranges := [], RangeParts := [],
    isFulfillment := false, isLoaded := false, rangePartsLoaded := false }

/-- What `mc.RetrieveReference` hands back as `interface{}`: nil, a `*HTTPDocument`, or a
value of another type. -/
inductive Reference where
  | nil
  | document (d : HTTPDocument)
  | other
  deriving DecidableEq, Repr

/-- The collaborators of `QueryCache` whose code lies outside the sources, each given by
what it answers for the key at hand: the cache backend and the two decoders. -/
structure Lookup where
  /-- The setting `c.Configuration().CacheType`. -/
  CacheType : String
  /-- Result of `mc.RetrieveReference(key, true)`. -/
  RetrieveReference : Reference × LookupStatus × Option CacheError
  /-- Result of `c.Retrieve(key, true)`. -/
  Retrieve : Bytes × LookupStatus × Option CacheError
  /-- The function `snappy.Decode(nil, bytes)`; `none` is the error result. -/
  snappyDecode : Bytes → Option Bytes
  /-- The method `d.UnmarshalMsg(bytes)` on a fresh document; the error carries its text. -/
  UnmarshalMsg : Bytes → Except String HTTPDocument

/-- The normalisation of cache-miss errors: an error other than `cache.ErrKNF` whose text
ends in `not in cache` becomes `cache.ErrKNF`. -/
def normalizeError : Option CacheError → Option CacheError
  | some (.other text) =>
    if "not in cache".toList.isSuffixOf text.toList then some .ErrKNF else some (.other text)
  | err => err

/-- The removal of the compression byte and the decompression of `QueryCache`. -/
def inflateStored (l : Lookup) (bytes : Bytes) : Bytes :=
  let inflate : Bool := decide (bytes.length > 0) && decide (bytes.head? = some 1)
  let bytes := if bytes.length > 0 then bytes.drop 1 else bytes
  if inflate then
    match l.snappyDecode bytes with
    | some b => b
    | none => bytes
  else bytes

/-- What `QueryCache` returns. -/
structure QueryResult where
  document : HTTPDocument
  status : LookupStatus
  ranges : Ranges
  err : Option CacheError
  deriving DecidableEq, Repr

/-- The early return of `QueryCache` when the backend reports an error or no hit. -/
def missResult (lookupStatus : LookupStatus) (ranges : Ranges) (err : Option CacheError) :
    QueryResult :=
  { document := HTTPDocument.zero
    status := lookupStatus
    ranges := if lookupStatus = .KeyMiss ∧ ranges.length > 0 then ranges else []
    err := err }

/-- The end of `QueryCache`, once the document `d` is loaded: fulfillment and delta. -/
def deltaResult (d : HTTPDocument) (lookupStatus : LookupStatus) (ranges : Ranges) :
    QueryResult :=
  let isFulfillment : Bool := decide (d.Ranges.length > 0) && decide (ranges.length = 0)
  let d := { d with isFulfillment := isFulfillment }
  let ranges : Ranges :=
    if isFulfillment then [{ Start := 0, End := d.ContentLength - 1 }] else ranges
  if ranges.length > 0 ∧ d.Ranges.length > 0 then
    let delta := Ranges.CalculateDelta ranges d.Ranges d.ContentLength
    let lookupStatus :=
      if delta.length > 0 then
        if delta.Equal ranges then LookupStatus.RangeMiss else LookupStatus.PartialHit
      else lookupStatus
    { document := d, status := lookupStatus, ranges := delta, err := none }
  else { document := d, status := lookupStatus, ranges := [], err := none }

/-- The function `QueryCache`; `none` is the panic on a reference that is no
`*HTTPDocument`. -/
def QueryCache (l : Lookup) (ranges : Ranges) : Option QueryResult :=
  if l.CacheType = "memory" then
    let ifc := l.RetrieveReference.1
    let lookupStatus := l.RetrieveReference.2.1
    let err := normalizeError l.RetrieveReference.2.2
    if err ≠ none ∨ lookupStatus ≠ .Hit then some (missResult lookupStatus ranges err)
    else
      match ifc with
      | .document d => some (deltaResult d lookupStatus ranges)
      | .other => none
      | .nil =>
        some { document := HTTPDocument.zero, status := .KeyMiss, ranges := ranges, err := err }
  else
    let bytes := l.Retrieve.1
    let lookupStatus := l.Retrieve.2.1
    let err := normalizeError l.Retrieve.2.2
    if err ≠ none ∨ lookupStatus ≠ .Hit then some (missResult lookupStatus ranges err)
    else
      match l.UnmarshalMsg (inflateStored l bytes) with
      | .error text =>
        some { document := HTTPDocument.zero, status := .KeyMiss, ranges := ranges,
               err := some (.other text) }
      | .ok d => some (deltaResult d lookupStatus ranges)

/-- The document `d` is what `QueryCache` loads on a backend hit: by reference from a
memory cache, or decoded from the stored bytes of a serialized one. -/
def loadsOnHit (l : Lookup) (d : HTTPDocument) : Prop :=
  (l.CacheType = "memory" ∧ l.RetrieveReference = (.document d, .Hit, none)) ∨
  (l.CacheType ≠ "memory" ∧ l.Retrieve.2 = (.Hit, none) ∧
    l.UnmarshalMsg (inflateStored l l.Retrieve.1) = .ok d)

/-- The effective request ranges of `QueryCache`: the whole body `[0, ContentLength - 1]`
on a fulfillment, else the request ranges. -/
def effectiveRanges (d : HTTPDocument) (ranges : Ranges) : Ranges :=
  if d.Ranges ≠ [] ∧ ranges = [] then [{ Start := 0, End := d.ContentLength - 1 }] else ranges

/-- A document of 500 bytes of which the bytes `[0, 99]` are stored. -/
def partialDocument : HTTPDocument :=
  { HTTPDocument.zero with
    StatusCode := 206, Status := "206 Partial Content", ContentLength := 500,
    Ranges := [{ Start := 0, End := 99 }] }

/-- A memory cache that holds `partialDocument` under the key. -/
def memoryHit : Lookup :=
  { CacheType := "memory"
    RetrieveReference := (.document partialDocument, .Hit, none)
    Retrieve := ([], .KeyMiss, some .ErrKNF)
    snappyDecode := fun _ => none
    UnmarshalMsg := fun _ => .error "not used" }

end Engines

/-! ## Storing a document: `WriteCache` of `engines/cache.go` -/

namespace Engines

/-- The type `http.Header`, a map from a header name in canonical form to its values. -/
abbrev Header := List (String × List String)

/-- The method `Del` of `http.Header`, for a name in canonical form. -/
def Header.Del (h : Header) (key : String) : Header := h.filter fun kv => kv.1 ≠ key

/-- The method `Get` of `http.Header`, for a name in canonical form: the first value stored
under the name, or the empty string. -/
def Header.Get (h : Header) (key : String) : String :=
  match h.lookup key with
  | some (v :: _) => v
  | _ => ""

/-- Modelled from the spec: the constant `headers.NameDate` (package `headers` is not among
the sources).  "Strip `Date`, `Transfer-Encoding`, `Content-Range`, and any proxy-result
header before persisting." -/
def NameDate : String := "Date"

/-- Modelled from the spec: the constant `headers.NameTransferEncoding`. -/
def NameTransferEncoding : String := "Transfer-Encoding"

/-- Modelled from the spec: the constant `headers.NameContentRange`. -/
def NameContentRange : String := "Content-Range"

/-- Modelled from the spec: the constant `headers.NameTricksterResult`, the name of the
proxy-result header. -/
def NameTricksterResult : String := "X-Trickster-Result"

/-- Modelled from the spec: the constant `headers.NameContentEncoding`.  "`Content-Encoding`
is empty or `identity`." -/
def NameContentEncoding : String := "Content-Encoding"

/-- The collaborators of `WriteCache` whose code lies outside the sources: the cache
backend, the two encoders, the media-type reader and the reset of the caching policy. -/
structure Storage where
  /-- The setting `c.Configuration().CacheType`. -/
  CacheType : String
  /-- The function `mime.ParseMediaType`: the media type; `none` is the error result. -/
  ParseMediaType : String → Option String
  /-- The method `d.MarshalMsg(nil)`; its error is dropped by the caller. -/
  MarshalMsg : HTTPDocument → Bytes
  /-- The function `snappy.Encode(nil, bytes)`. -/
  snappyEncode : Bytes → Bytes
  /-- The method `ResetClientConditionals` of the caching policy. -/
  ResetClientConditionals : CachingPolicy → CachingPolicy
  /-- The error returned by `mc.StoreReference(key, d, ttl)`. -/
  StoreReference : HTTPDocument → Int → Option CacheError
  /-- The error returned by `c.Store(key, bytes, ttl)`. -/
  Store : Bytes → Int → Option CacheError

/-- What `WriteCache` hands to the backend: a document to `StoreReference` or a byte slice
to `Store`, each with a TTL (a `time.Duration`). -/
inductive Stored where
  | reference (d : HTTPDocument) (ttl : Int)
  | bytes (b : Bytes) (ttl : Int)
  deriving DecidableEq, Repr

/-- The TTL handed to the backend. -/
def Stored.ttl : Stored → Int
  | .reference _ ttl => ttl
  | .bytes _ ttl => ttl

/-- The observable result of `WriteCache`: the call made on the backend, the document `d`
as the call leaves it (it is changed in place), and the returned error. -/
structure WriteResult where
  call : Stored
  document : HTTPDocument
  err : Option CacheError
  deriving DecidableEq, Repr

/-- The decision `compress` of `WriteCache`. -/
def compressible (s : Storage) (d : HTTPDocument) (compressTypes : List (String × Bool)) : Bool :=
  let ce := Header.Get d.Headers NameContentEncoding
  if (ce = "" ∨ ce = "identity") ∧
      (match d.CachingPolicy with
       | none => true
       | some cp => !cp.NoTransform) = true then
    match s.ParseMediaType d.ContentType with
    | some mt => (compressTypes.lookup mt).isSome
    | none => false
  else false

/-- The function `WriteCache` for a non-nil document `d` (a nil `d` panics on `d.Headers`
before anything is written).  The map `compressTypes` is an association list. -/
def WriteCache (s : Storage) (d : HTTPDocument) (ttl : Int)
    (compressTypes : List (String × Bool)) : WriteResult :=
  let d := { d with
    Headers := Header.Del (Header.Del (Header.Del (Header.Del d.Headers NameDate)
      NameTransferEncoding) NameContentRange) NameTricksterResult }
  let compress := compressible s d compressTypes
  if s.CacheType = "memory" then
    let d := { d with
      rangePartsLoaded := false, isFulfillment := false, isLoaded := false, RangeParts := []
      CachingPolicy := d.CachingPolicy.map s.ResetClientConditionals }
    { call := .reference d ttl, document := d, err := s.StoreReference d ttl }
  else
    let bytes := s.MarshalMsg d
    let bytes := if compress then 1 :: s.snappyEncode bytes else 0 :: bytes
    { call := .bytes bytes ttl, document := d, err := s.Store bytes ttl }

/-- The lookup status reported by the backend that `QueryCache` asks. -/
def Lookup.backendStatus (l : Lookup) : LookupStatus :=
  if l.CacheType = "memory" then l.RetrieveReference.2.1 else l.Retrieve.2.1

/-- The error reported by the backend that `QueryCache` asks. -/
def Lookup.backendError (l : Lookup) : Option CacheError :=
  if l.CacheType = "memory" then l.RetrieveReference.2.2 else l.Retrieve.2.2

/-- The condition of the specification for compressing a stored document: the
`Content-Encoding` header is empty or `identity`, the caching policy is absent or does not
set `NoTransform`, and the media type parsed from `ContentType` is a key of
`compressTypes`. -/
def compressionCondition (s : Storage) (d : HTTPDocument) (compressTypes : List (String × Bool)) :
    Prop :=
  (Header.Get d.Headers NameContentEncoding = "" ∨
    Header.Get d.Headers NameContentEncoding = "identity") ∧
  (d.CachingPolicy = none ∨ ∃ cp, d.CachingPolicy = some cp ∧ cp.NoTransform = false) ∧
  ∃ mt, s.ParseMediaType d.ContentType = some mt ∧ mt ∈ compressTypes.map Prod.fst

/-- An error of the kind `KeyNotFound`: the sentinel `cache.ErrKNF`, or one of its textual
variants, an error whose text ends in `not in cache`. -/
def isKeyNotFound : Option CacheError → Bool
  | some .ErrKNF => true
  | some (.other text) => "not in cache".toList.isSuffixOf text.toList
  | none => false

/-- Modelled from the spec: the contract of a cache backend (the backends are not among the
sources), for the answer of the backend that `QueryCache` asks.  "Returned `error` of kind
`KeyNotFound` must coincide with `LookupStatus = KeyMiss`." -/
def Lookup.keepsContract (l : Lookup) : Prop :=
  isKeyNotFound l.backendError = true → l.backendStatus = .KeyMiss

/-- A memory cache whose answer is outside the contract of a backend: the status `Error`
with an error whose text ends in `not in cache`. -/
def memoryTextMiss : Lookup :=
  { CacheType := "memory"
    RetrieveReference := (.nil, .Error, some (.other "value for key [k] not in cache"))
    Retrieve := ([], .KeyMiss, some .ErrKNF)
    snappyDecode := fun _ => none
    UnmarshalMsg := fun _ => .error "not used" }

/-- A serialized cache whose answer is outside the contract of a backend: the status `Hit`
with `cache.ErrKNF`. -/
def redisStaleHit : Lookup :=
  { CacheType := "redis"
    RetrieveReference := (.nil, .KeyMiss, some .ErrKNF)
    Retrieve := ([], .Hit, some .ErrKNF)
    snappyDecode := fun _ => none
    UnmarshalMsg := fun _ => .error "not used" }

/-- A serialized cache that answers the key with `KeyMiss` and an error whose text ends in
`not in cache`. -/
def redisTextMiss : Lookup :=
  { CacheType := "redis"
    RetrieveReference := (.nil, .KeyMiss, some .ErrKNF)
    Retrieve := ([], .KeyMiss, some (.other "key not in cache"))
    snappyDecode := fun _ => none
    UnmarshalMsg := fun _ => .error "not used" }

/-- A complete document of two bytes of plain text. -/
def plainDocument : HTTPDocument :=
  { HTTPDocument.zero with
    StatusCode := 200, Status := "200 OK", Body := [104, 105], ContentLength := 2
    ContentType := "text/plain; charset=utf-8"
    Headers := [("Date", ["Wed, 04 Nov 2026 10:00:00 GMT"]), ("Content-Encoding", ["identity"])] }

/-- A toy compression: the length of the input, then the input. -/
def toyEncode (b : Bytes) : Bytes := b.length :: b

/-- The inverse of `toyEncode`; an input whose first byte is not the length of the rest is
rejected. -/
def toyDecode : Bytes → Option Bytes
  | [] => none
  | n :: rest => if n = rest.length then some rest else none

/-- A toy serialisation of a document: its status code, then its body. -/
def toyMarshal (d : HTTPDocument) : Bytes := d.StatusCode.toNat :: d.Body

/-- The inverse of `toyMarshal` on the documents it is used for here. -/
def toyUnmarshal : Bytes → Except String HTTPDocument
  | [] => .error "msgp: too few bytes left to read object"
  | code :: body =>
    .ok { HTTPDocument.zero with StatusCode := code, Body := body, ContentLength := body.length }

/-- A serialized cache that holds, on a hit, the byte `2` followed by the toy serialisation
of a document with status 200 and the body `[104, 105]`. -/
def unknownPrefix : Lookup :=
  { CacheType := "filesystem"
    RetrieveReference := (.nil, .KeyMiss, some .ErrKNF)
    Retrieve := ([2, 200, 104, 105], .Hit, none)
    snappyDecode := toyDecode
    UnmarshalMsg := toyUnmarshal }

/-- A backend of the given type that stores without error, with the toy encoders; the media
type of a content type is its text before the first `;`. -/
def toyStorage (cacheType : String) : Storage :=
  { CacheType := cacheType
    ParseMediaType := fun v =>
      if v = "" then none else some (String.mk (v.toList.takeWhile fun c => c ≠ ';'))
    MarshalMsg := toyMarshal
    snappyEncode := toyEncode
    ResetClientConditionals := fun cp => cp
    StoreReference := fun _ _ => none
    Store := fun _ _ => none }

/-- A serialized cache that holds what `WriteCache` stored for `plainDocument` with
compression of `text/plain`. -/
def storedPlain : Lookup :=
  { CacheType := "filesystem"
    RetrieveReference := (.nil, .KeyMiss, some .ErrKNF)
    Retrieve := ([1, 3, 200, 104, 105], .Hit, none)
    snappyDecode := toyDecode
    UnmarshalMsg := toyUnmarshal }

/-- The document `plainDocument` as a handler leaves it after a fulfillment: the transient
fields are set. -/
def loadedDocument : HTTPDocument :=
  { plainDocument with
    isFulfillment := true, isLoaded := true, rangePartsLoaded := true
    RangeParts := [({ Start := 0, End := 1 }, [104, 105])] }

end Engines

/-! ## The defaults of `config/defaults.go` -/

namespace Config

/-- The constant `defaultTimeseriesTTLSecs`. -/
def defaultTimeseriesTTLSecs : Int := 21600 * 4 * 30

/-- The constant `defaultFastForwardTTLSecs`. -/
def defaultFastForwardTTLSecs : Int := 15

/-- The constant `defaultMaxTTLSecs`. -/
def defaultMaxTTLSecs : Int := 86400

/-- The function `defaultCompressableTypes`. -/
def defaultCompressableTypes : List String :=
  ["text/html", "text/javascript", "text/css", "text/plain", "text/xml", "text/json",
   "application/json", "application/javascript", "application/xml"]

end Config

namespace Proxy

/-- The handler returns, and with it runs the deferred `locks.Release(key)`: no `wg.Wait()`
blocks, that is, every `wg.Add(1)` of the call has been matched by a `wg.Done()`. -/
def Outcome.releasesLock (o : Outcome) : Prop := o.done = o.added

instance (o : Outcome) : Decidable o.releasesLock := by
  unfold Outcome.releasesLock
  infer_instance

/-- A request for `[140, 260]` answered from a cache that holds `[100, 200]`: the sample at
250 seconds is fetched from the origin and merged. -/
def partialCall : Collaborators :=
  { ParseTimeRangeQuery :=
      some { Extent := { Start := Time.ofUnix 140, End := Time.ofUnix 260 }, Step := 50 }
    NormalizeExtent := fun trq => trq
    QueryCache := some { StatusCode := 200, Headers := [("Content-Type", "application/json")],
                         Body := hitBody }
    UnmarshalTimeseries := decodeSeries
    MarshalTimeseries := encodeSeries
    CalculateDeltas := fun _ _ => [{ Start := Time.ofUnix 250, End := Time.ofUnix 250 }]
    Fetch := fun _ => ([250, 250, 50, 250, 4], 200, [("Content-Type", "application/json")])
    MaxValueAgeSecs := 86400
    now := Time.ofUnix 300 }

/-- The request of `partialCall` with a client whose `MarshalTimeseries` fails. -/
def marshalFails : Collaborators := { partialCall with MarshalTimeseries := fun _ => none }

end Proxy

/-- The greatest multiple of `p` that is not above `x`, for `p > 0`: `floor(x / p) * p`. -/
def floorMultiple (x p : Int) : Int := x / p * p

/-- The extent `e` with both bounds at the greatest multiple of `p` seconds not above
them. -/
def alignedExtent (e : Extent) (p : Int) : Extent :=
  { Start := Time.ofUnix (floorMultiple e.Start.Unix p)
    End := Time.ofUnix (floorMultiple e.End.Unix p) }

/-! ### `DataPoint`: `MarshalJSON`, `UnmarshalJSON` -/

/-- The helpers of the data-point codec whose code lies outside the sources, each given by
what it answers.  As in `Value`, a `float64` is kept as an integer. -/
structure TimestampLibrary where
  /-- The function `formatTimestamp(t, true)` of the package. -/
  formatTimestamp : Time → Bool → String
  /-- The function `strconv.ParseFloat(s, 64)`; `none` is the error result. -/
  ParseFloat : String → Option Int
  /-- The function `strconv.FormatFloat(fv, 'f', 3, 64)`. -/
  FormatFloat : Int → String
  /-- The function `parseTimestamp` of the package; the error carries its text. -/
  parseTimestamp : String → Except String Time
  /-- The result of the conversion `uint32(fv)` for a number outside the range of `uint32`,
  which Go leaves to the implementation. -/
  uint32OutOfRange : Int → Nat

/-- The conversion `uint32(fv)` of a whole number `fv`: the number itself when it lies in
`[0, 2^32)`; outside that range the result is the one of the implementation, `outOfRange`.
The numbers of the model are whole (see `Value`), so the truncation of a fraction does not
occur. -/
def uint32 (outOfRange : Int → Nat) (fv : Int) : Nat :=
  if 0 ≤ fv ∧ fv < 2 ^ 32 then fv.toNat else outOfRange fv

/-- The method `DataPoint.MarshalJSON`, given by the array `v` it hands to `json.Marshal`:
the time as a number, the step unless it is zero, the value. -/
def DataPoint.MarshalJSON (lib : TimestampLibrary) (dp : DataPoint) : List Trickster.Value :=
  let tn : Int :=
    match lib.ParseFloat (lib.formatTimestamp dp.Time true) with
    | some fv => fv
    | none => 0
  let v := [Trickster.Value.num tn]
  let v := if dp.Step ≠ 0 then v ++ [Trickster.Value.num dp.Step] else v
  v ++ [dp.Value]

/-- The step of `UnmarshalJSON` that reads the time from the first element `v[0]` when it
is a number. -/
def DataPoint.readTime (lib : TimestampLibrary) (dp : DataPoint) :
    Trickster.Value → Except String DataPoint
  | .num fv =>
    match lib.parseTimestamp (lib.FormatFloat fv) with
    | .error text => .error text
    | .ok tv => .ok { dp with Time := tv }
  | _ => .ok dp

/-- The method `DataPoint.UnmarshalJSON` on the receiver `dp`, for a JSON text given by the
array `v` that `json.Unmarshal` decodes from it. -/
def DataPoint.UnmarshalJSON (lib : TimestampLibrary) (dp : DataPoint) :
    List Trickster.Value → Except String DataPoint
  | v0 :: v1 :: rest =>
    match dp.readTime lib v0 with
    | .error text => .error text
    | .ok dp =>
      match v1, rest with
      | .num fv, v2 :: _ =>
        .ok { dp with Step := uint32 lib.uint32OutOfRange fv, Value := v2 }
      | _, _ => .ok { dp with Value := v1 }
  | _ => .error "unable to unmarshal IRONdb data point"

/-- The number `tn` that `MarshalJSON` writes for the time `t`. -/
def TimestampLibrary.timeNumber (lib : TimestampLibrary) (t : Time) : Int :=
  match lib.ParseFloat (lib.formatTimestamp t true) with
  | some fv => fv
  | none => 0

/-- The timestamp helpers on the whole seconds 100 and 200, which they write as `100.000`
and `200.000`; other times are written as `0.000`. -/
def secondsLibrary : TimestampLibrary :=
  { formatTimestamp := fun t _ =>
      if t.Unix = 100 then "100.000" else if t.Unix = 200 then "200.000" else "0.000"
    ParseFloat := fun s =>
      if s = "100.000" then some 100 else if s = "200.000" then some 200
      else if s = "0.000" then some 0 else none
    FormatFloat := fun fv =>
      if fv = 100 then "100.000" else if fv = 200 then "200.000" else "0.000"
    parseTimestamp := fun s =>
      if s = "100.000" then .ok (Time.ofUnix 100) else if s = "200.000" then .ok (Time.ofUnix 200)
      else if s = "0.000" then .ok (Time.ofUnix 0) else .error "strconv.ParseInt: invalid syntax"
    uint32OutOfRange := fun _ => 0 }

/-! # Theorems -/

/-! ## Properties of the sparse envelope -/

theorem cropFold_eq_filter (p : DataPoint → Prop) [DecidablePred p] (l acc : DataPoints) :
    l.foldl (fun newData dv => if p dv then newData ++ [dv] else newData) acc =
      acc ++ l.filter (fun dv => decide (p dv)) := by
  induction l generalizing acc with
  | nil => simp
  | cons dv rest ih =>
    by_cases h : p dv
    · simp [List.foldl_cons, ih, h, List.filter_cons]
    · simp [List.foldl_cons, ih, h, List.filter_cons]

/-- C2: `SeriesEnvelope.CropToRange(e)` leaves in `Data` exactly the samples of the previous
`Data` whose `Time` lies in the closed interval `[e.Start, e.End]`, in their original
order. -/
theorem C2_cropToRange_keeps_closed_interval (se : SeriesEnvelope) (e : Extent) :
    (se.CropToRange e).Data =
      se.Data.filter (fun dv => decide (e.Start ≤ dv.Time ∧ dv.Time ≤ e.End)) := by
  unfold SeriesEnvelope.CropToRange
  simp only [cropFold_eq_filter, List.nil_append]
  apply List.filter_congr
  intro dv _
  simp only [Time.After, Time.Equal, Time.Before, decide_eq_decide]
  constructor
  · rintro ⟨h1, h2⟩
    exact ⟨h1.elim le_of_lt (fun h => le_of_eq h.symm), h2.elim le_of_lt le_of_eq⟩
  · rintro ⟨h1, h2⟩
    exact ⟨(lt_or_eq_of_le h1).imp id Eq.symm, lt_or_eq_of_le h2⟩

theorem mergeFold_spec (c : List (Option Timeseries)) (se : SeriesEnvelope) :
    (c.foldl SeriesEnvelope.mergeOne se).Data = se.Data ++ (c.map memberData).flatten ∧
    (c.foldl SeriesEnvelope.mergeOne se).ExtentList =
      se.ExtentList ++ (c.map memberExtents).flatten ∧
    (c.foldl SeriesEnvelope.mergeOne se).StepDuration = se.StepDuration := by
  induction c generalizing se with
  | nil => simp
  | cons ts rest ih =>
    rcases ts with _ | (se2 | d) <;>
      simp [List.foldl_cons, ih, SeriesEnvelope.mergeOne, memberData, memberExtents]

/-- C5: `se.Merge(false, c...)` appends to `se.Data` the `Data` of each non-nil
`SeriesEnvelope` member of `c` in collection order, so that `ValueCount` is the sum of the
inputs' counts, and sets `ExtentList` to `Compress(se.StepDuration)` of the old extent list
followed by the members' extent lists; nil members and members of another concrete type
contribute nothing. -/
theorem C5_merge_unsorted_appends (se : SeriesEnvelope) (c : List (Option Timeseries)) :
    (se.Merge false c).Data = se.Data ++ (c.map memberData).flatten ∧
    (se.Merge false c).ValueCount =
      se.ValueCount + (c.map fun ts => (memberData ts).length).sum ∧
    (se.Merge false c).ExtentList =
      ExtentList.Compress (se.ExtentList ++ (c.map memberExtents).flatten) se.StepDuration ∧
    (se.Merge false c).StepDuration = se.StepDuration := by
  obtain ⟨hd, he, hs⟩ := mergeFold_spec c se
  refine ⟨?_, ?_, ?_, ?_⟩
  · simp [SeriesEnvelope.Merge, hd]
  · simp [SeriesEnvelope.Merge, SeriesEnvelope.ValueCount, hd, List.length_flatten, Function.comp_def]
  · simp [SeriesEnvelope.Merge, he, hs]
  · simp [SeriesEnvelope.Merge, hs]

/-- C6: after `se.Merge(true, c...)` the `Data` is in non-decreasing order of `Time` and is
a permutation of the concatenation of the input sample lists. -/
theorem C6_merge_sorted_permutation (se : SeriesEnvelope) (c : List (Option Timeseries)) :
    (se.Merge true c).Data.Sorted (fun a b => a.Time ≤ b.Time) ∧
    (se.Merge true c).Data.Perm (se.Data ++ (c.map memberData).flatten) := by
  obtain ⟨hd, _, _⟩ := mergeFold_spec c se
  constructor
  · simpa [SeriesEnvelope.Merge, SeriesEnvelope.Sort] using
      List.sorted_insertionSort DataPoints.notAfter (c.foldl SeriesEnvelope.mergeOne se).Data
  · have := List.perm_insertionSort DataPoints.notAfter (c.foldl SeriesEnvelope.mergeOne se).Data
    rw [hd] at this
    simpa [SeriesEnvelope.Merge, SeriesEnvelope.Sort, hd] using this

/-- C7, as stated, fails: `[(10s, 1)]` and `[(10s, 2)]` each hold one sample at 10s, and
after `Merge(true, ...)` the result holds two samples at 10s, the overridden value 1 among
them. -/
theorem C7_counterexample_duplicates_kept :
    (dupBase.Data.map (fun dp => dp.Time)).Nodup ∧
    (dupFetched.Data.map (fun dp => dp.Time)).Nodup ∧
    (dupBase.Data.at (Time.ofUnix 10)).length = 1 ∧
    (dupFetched.Data.at (Time.ofUnix 10)).length = 1 ∧
    ((dupBase.Merge true [some (.series dupFetched)]).Data.at (Time.ofUnix 10)).length = 2 ∧
    ¬ ((dupBase.Merge true [some (.series dupFetched)]).Data.at (Time.ofUnix 10)).length = 1 ∧
    ({ Time := Time.ofUnix 10, Step := 0, Value := .num 1 } : DataPoint) ∈
      (dupBase.Merge true [some (.series dupFetched)]).Data := by
  decide

theorem length_at_flatten (t : Time) (ls : List DataPoints) :
    (ls.flatten.filter fun dp => decide (dp.Time = t)).length =
      (ls.map fun l => (DataPoints.at l t).length).sum := by
  induction ls with
  | nil => simp
  | cons l rest ih =>
    rw [List.flatten_cons, List.filter_append, List.length_append, ih]
    simp [DataPoints.at]

/-- C7, amended: `SeriesEnvelope.Merge(true, c...)` removes no duplicate.  At every instant
`t` the result holds as many samples as `se` and the merged-in series hold together, and
every input sample (with its own value) is in the result. -/
theorem C7_merge_keeps_every_sample (se : SeriesEnvelope) (c : List (Option Timeseries))
    (t : Time) :
    ((se.Merge true c).Data.at t).length =
      (se.Data.at t).length + (c.map fun ts => ((memberData ts).at t).length).sum ∧
    (∀ dp, dp ∈ (se.Merge true c).Data ↔ dp ∈ se.Data ∨ ∃ ts ∈ c, dp ∈ memberData ts) := by
  obtain ⟨hd, _, _⟩ := mergeFold_spec c se
  have hperm : (se.Merge true c).Data.Perm (se.Data ++ (c.map memberData).flatten) := by
    have := List.perm_insertionSort DataPoints.notAfter (c.foldl SeriesEnvelope.mergeOne se).Data
    rw [hd] at this
    simpa [SeriesEnvelope.Merge, SeriesEnvelope.Sort, hd] using this
  constructor
  · have h := (hperm.filter (fun dp => decide (dp.Time = t))).length_eq
    simp only [DataPoints.at]
    rw [h, List.filter_append, List.length_append]
    congr 1
    rw [length_at_flatten, List.map_map]
    rfl
  · intro dp
    rw [hperm.mem_iff]
    simp only [List.mem_append, List.mem_flatten, List.mem_map]
    constructor
    · rintro (h | ⟨l, ⟨ts, hts, rfl⟩, hdp⟩)
      · exact Or.inl h
      · exact Or.inr ⟨ts, hts, hdp⟩
    · rintro (h | ⟨ts, hts, hdp⟩)
      · exact Or.inl h
      · exact Or.inr ⟨_, ⟨ts, hts, rfl⟩, hdp⟩

/-! ## The full-hit path of the delta-proxy handler -/

namespace Proxy

/-- C1, the code at a full hit: the cache holds `[100, 200]` with samples at 100, 150 and
200, the request asks for `[140, 160]`, the unmarshal succeeds and the delta is empty.  The
handler responds with the whole cached body (three samples), while the marshalled crop to
the request extent holds the sample at 150 only. -/
theorem C1_full_hit_responds_uncropped :
    hitCall.CalculateDeltas { Extent := { Start := Time.ofUnix 140, End := Time.ofUnix 160 }, Step := 50 }
      [{ Start := Time.ofUnix 100, End := Time.ofUnix 200 }] = [] ∧
    DeltaProxyCacheRequest hitCall false =
      some { response := .responded 200 (some [("Content-Type", "application/json")]) (some hitBody)
             stored := none, added := 0, done := 0 } ∧
    ((hitCall.UnmarshalTimeseries hitBody).bind fun cts =>
      (cts.CropToRange { Start := Time.ofUnix 140, End := Time.ofUnix 160 }).bind
        hitCall.MarshalTimeseries) = some [140, 160, 50, 150, 2] ∧
    hitBody ≠ [140, 160, 50, 150, 2] := by
  decide

end Proxy

/-! ## Dense frames: the code at concrete inputs -/

/-- C3, the code at a concrete crop: the frame of period 10 over `[0, 100]` holds the value
5 at timestamp 50; cropped to `[20, 50]` (both bounds aligned, inside the extent) the
result has `Count = 3`, that is the slots 20, 30 and 40 only.  The slot of the closed end
50 is gone. -/
theorem C3_cropToRange_drops_end_slot :
    frame0to100.Head.Start + 5 * frame0to100.Head.Period = 50 ∧
    frame0to100.Data = [[.num 0, .num 1, .num 2, .num 3, .num 4, .num 5, .num 6, .num 7,
      .num 8, .num 9, .num 10]] ∧
    frame0to100.ExtentList.OutsideOf { Start := Time.ofUnix 20, End := Time.ofUnix 50 } = false ∧
    frame0to100.CropToRange { Start := Time.ofUnix 20, End := Time.ofUnix 50 } =
      some { Data := [[.num 2, .num 3, .num 4]]
             Meta := [[("label", .str "a")]]
             Ver := "DF4"
             Head := { Count := 3, Start := 20, Period := 10 }
             StepDuration := 10 * nanosPerSecond
             ExtentList := [{ Start := Time.ofUnix 20, End := Time.ofUnix 50 }] } := by
  decide

/-- C4, as stated, fails for `CropToRange`: on the frame over `[0, 100]` the frame end and
the end of the last extent are both 100; after `CropToRange([20, 150])` the extent list is
`[20, 100]`, non-empty, while the frame is rebuilt on the crop bounds and ends at 140. -/
theorem C4_counterexample_cropToRange :
    frame0to100.ExtentList.lastEndUnix = some frame0to100.Head.frameEnd ∧
    (∃ r, frame0to100.CropToRange { Start := Time.ofUnix 20, End := Time.ofUnix 150 } = some r ∧
      r.ExtentList = [{ Start := Time.ofUnix 20, End := Time.ofUnix 100 }] ∧
      r.ExtentList.lastEndUnix = some 100 ∧
      r.Head.frameEnd = 140 ∧
      r.ExtentList.lastEndUnix ≠ some r.Head.frameEnd) := by
  refine ⟨by decide, _, rfl, ?_⟩
  decide

/-! ## Dense frames: maps and loops -/

theorem DataMap.get_after_set (m : DataMap) (k ts : Int) (v : Value) :
    (m.set k v).get ts = if k = ts then v else m.get ts := rfl

theorem writeRow_get_other (s p : Int) (row : List Value) (j : Nat) (m : DataMap) (ts : Int)
    (h : ∀ i, i < row.length → ts ≠ s + ((j + i : Nat) : Int) * p) :
    (writeRow s p j row m).get ts = m.get ts := by
  induction row generalizing j m with
  | nil => rfl
  | cons dv rest ih =>
    rw [writeRow, ih]
    · rw [DataMap.get_after_set, if_neg]
      have := h 0 (by simp)
      simpa [eq_comm] using this
    · intro i hi
      have := h (i + 1) (by simpa using hi)
      rwa [show j + (i + 1) = j + 1 + i by omega] at this

theorem writeRow_get_slot (s p : Int) (hp : p ≠ 0) (row : List Value) (j : Nat) (m : DataMap)
    (i : Nat) (v : Value) (hi : row[i]? = some v) :
    (writeRow s p j row m).get (s + ((j + i : Nat) : Int) * p) = v := by
  induction row generalizing j m i with
  | nil => simp at hi
  | cons dv rest ih =>
    rw [writeRow]
    cases i with
    | zero =>
      simp only [List.getElem?_cons_zero, Option.some.injEq] at hi
      rw [writeRow_get_other, DataMap.get_after_set, if_pos (by simp)]
      · exact hi
      · intro i _ heq
        have h1 : ((j + 0 : Nat) : Int) * p = ((j + 1 + i : Nat) : Int) * p := by linarith
        have h2 := mul_right_cancel₀ hp h1
        omega
    | succ i =>
      simp only [List.getElem?_cons_succ] at hi
      have := ih (j + 1) (m.set (s + (j : Int) * p) dv) i hi
      rwa [show j + 1 + i = j + (i + 1) by omega] at this

theorem writeRow_get_cases (s p : Int) (row : List Value) (m : DataMap) (ts : Int) :
    (writeRow s p 0 row m).get ts = m.get ts ∨
      ∃ (i : Nat) (v : Value), row[i]? = some v ∧ ts = s + (i : Int) * p := by
  by_cases h : ∀ i, i < row.length → ts ≠ s + ((0 + i : Nat) : Int) * p
  · exact Or.inl (writeRow_get_other s p row 0 m ts h)
  · push_neg at h
    obtain ⟨i, hi, heq⟩ := h
    refine Or.inr ⟨i, row[i], List.getElem?_eq_getElem hi, ?_⟩
    simpa using heq

theorem buildRow_length (head : DF4Info) (data : DataMap) :
    (buildRow head data).length = head.Count.toNat := by
  simp [buildRow]

theorem buildRow_getElem? (head : DF4Info) (data : DataMap) (i : Nat) (v : Value)
    (h : (buildRow head data)[i]? = some v) :
    i < head.Count.toNat ∧ v = data.get (head.Start + (i : Int) * head.Period) := by
  have hi : i < (buildRow head data).length := by
    by_contra hc
    rw [List.getElem?_eq_none (by omega)] at h
    cases h
  rw [List.getElem?_eq_getElem hi] at h
  simp only [buildRow, List.getElem_map, List.getElem_range, Option.some.injEq] at h
  exact ⟨by simpa [buildRow_length] using hi, h.symm⟩

theorem Metrics.mem_set {ms : Metrics} {md x : metricData} (h : x ∈ Metrics.set ms md) :
    x = md ∨ x ∈ ms := by
  induction ms with
  | nil => simpa [Metrics.set] using h
  | cons y ys ih =>
    unfold Metrics.set at h
    split at h
    · rcases List.mem_cons.mp h with h | h
      · exact Or.inl h
      · exact Or.inr (List.mem_cons_of_mem _ h)
    · rcases List.mem_cons.mp h with h | h
      · exact Or.inr (h ▸ List.mem_cons_self _ _)
      · exact (ih h).imp id (List.mem_cons_of_mem _)

theorem Metrics.get_some {ms : Metrics} {name : String} {md : metricData}
    (h : Metrics.get ms name = some md) : md ∈ ms ∧ md.name = name := by
  induction ms with
  | nil => simp [Metrics.get] at h
  | cons y ys ih =>
    unfold Metrics.get at h
    split at h
    · cases h
      exact ⟨List.mem_cons_self _ _, by assumption⟩
    · exact ⟨List.mem_cons_of_mem _ (ih h).1, (ih h).2⟩

theorem mergeLoadBase_from (se se2 : DF4SeriesEnvelope) (metas : List MetaEntry) (i : Nat)
    (ms ms' : Metrics)
    (hidx : ∀ b mv, metas[b]? = some mv → se.Meta[i + b]? = some mv)
    (hinv : metricsFrom se se2 ms) (h : mergeLoadBase se metas i ms = some ms') :
    metricsFrom se se2 ms' := by
  induction metas generalizing i ms with
  | nil =>
    simp only [mergeLoadBase, Option.some.injEq] at h
    exact h ▸ hinv
  | cons mv rest ih =>
    have hrest : ∀ b mv', rest[b]? = some mv' → se.Meta[i + 1 + b]? = some mv' := by
      intro b mv' hb
      have := hidx (b + 1) mv' (by simpa using hb)
      rwa [show i + (b + 1) = i + 1 + b by omega] at this
    cases hl : mv.label with
    | none =>
      simp only [mergeLoadBase, hl] at h
      exact ih (i + 1) ms hrest hinv h
    | some name =>
      cases hrow : se.Data[i]? with
      | none => simp [mergeLoadBase, hl, hrow] at h
      | some row =>
        simp only [mergeLoadBase, hl, hrow] at h
        refine ih (i + 1) _ hrest ?_ h
        intro x hx
        rcases Metrics.mem_set hx with rfl | hx
        · refine ⟨hl, fun ts hts => Or.inl ?_⟩
          rcases writeRow_get_cases se.Head.Start se.Head.Period row [] ts with hget | ⟨j, v, hj, heq⟩
          · exact absurd hget hts
          · exact ⟨v, i, mv, row, j, hidx 0 mv (by simp), hl, hrow, hj, heq⟩
        · exact hinv x hx

theorem mergeLoadOther_from (se se2 : DF4SeriesEnvelope) (metas : List MetaEntry) (i : Nat)
    (ms ms' : Metrics)
    (hidx : ∀ b mv, metas[b]? = some mv → se2.Meta[i + b]? = some mv)
    (hinv : metricsFrom se se2 ms) (h : mergeLoadOther se2 metas i ms = some ms') :
    metricsFrom se se2 ms' := by
  induction metas generalizing i ms with
  | nil =>
    simp only [mergeLoadOther, Option.some.injEq] at h
    exact h ▸ hinv
  | cons mv rest ih =>
    have hrest : ∀ b mv', rest[b]? = some mv' → se2.Meta[i + 1 + b]? = some mv' := by
      intro b mv' hb
      have := hidx (b + 1) mv' (by simpa using hb)
      rwa [show i + (b + 1) = i + 1 + b by omega] at this
    cases hl : mv.label with
    | none =>
      simp only [mergeLoadOther, hl] at h
      exact ih (i + 1) ms hrest hinv h
    | some name =>
      cases hrow : se2.Data[i]? with
      | none => simp [mergeLoadOther, hl, hrow] at h
      | some row =>
        simp only [mergeLoadOther, hl, hrow] at h
        refine ih (i + 1) _ hrest ?_ h
        intro x hx
        rcases Metrics.mem_set hx with rfl | hx
        · cases hg : Metrics.get ms name with
          | none =>
            simp only [hg]
            refine ⟨hl, fun ts hts => Or.inr ?_⟩
            simp only [hg] at hts
            rcases writeRow_get_cases se2.Head.Start se2.Head.Period row [] ts with hget | ⟨j, v, hj, heq⟩
            · exact absurd hget hts
            · exact ⟨v, i, mv, row, j, hidx 0 mv (by simp), hl, hrow, hj, heq⟩
          | some md =>
            simp only [hg]
            obtain ⟨hmem, hname⟩ := Metrics.get_some hg
            refine ⟨(hinv md hmem).1, fun ts hts => ?_⟩
            simp only [hg] at hts
            rcases writeRow_get_cases se2.Head.Start se2.Head.Period row md.data ts with hget | ⟨j, v, hj, heq⟩
            · rw [hget] at hts
              exact (hinv md hmem).2 ts hts
            · exact Or.inr ⟨v, i, mv, row, j, hidx 0 mv (by simp), hname ▸ hl, hrow, hj, heq⟩
        · exact hinv x hx

theorem mergeLoadBase_total (se : DF4SeriesEnvelope) (metas : List MetaEntry) (i : Nat)
    (ms : Metrics) (h : i + metas.length ≤ se.Data.length) :
    ∃ ms', mergeLoadBase se metas i ms = some ms' := by
  induction metas generalizing i ms with
  | nil => exact ⟨ms, rfl⟩
  | cons mv rest ih =>
    have hlen : i < se.Data.length := by simp at h; omega
    have hrest : i + 1 + rest.length ≤ se.Data.length := by simp at h; omega
    cases hl : mv.label with
    | none =>
      simp only [mergeLoadBase, hl]
      exact ih (i + 1) ms hrest
    | some name =>
      simp only [mergeLoadBase, hl, List.getElem?_eq_getElem hlen]
      exact ih (i + 1) _ hrest

theorem mergeLoadOther_total (se2 : DF4SeriesEnvelope) (metas : List MetaEntry) (i : Nat)
    (ms : Metrics) (h : i + metas.length ≤ se2.Data.length) :
    ∃ ms', mergeLoadOther se2 metas i ms = some ms' := by
  induction metas generalizing i ms with
  | nil => exact ⟨ms, rfl⟩
  | cons mv rest ih =>
    have hlen : i < se2.Data.length := by simp at h; omega
    have hrest : i + 1 + rest.length ≤ se2.Data.length := by simp at h; omega
    cases hl : mv.label with
    | none =>
      simp only [mergeLoadOther, hl]
      exact ih (i + 1) ms hrest
    | some name =>
      simp only [mergeLoadOther, hl, List.getElem?_eq_getElem hlen]
      exact ih (i + 1) _ hrest

theorem merge_single_eq (se se2 : DF4SeriesEnvelope) (sort : Bool)
    (hstep : se2.StepDuration = se.StepDuration) :
    se.Merge sort [some (.df4 se2)] =
      (mergeLoadBase se se.Meta 0 []).bind fun ms0 =>
        (mergeLoadOther se2 se2.Meta 0 ms0).bind fun ms =>
          if se.Head.Period = 0 then none else some (mergedEnvelope se se2 ms) := by
  unfold DF4SeriesEnvelope.Merge DF4SeriesEnvelope.mergeAll DF4SeriesEnvelope.mergeOne
  simp only [hstep, if_true]
  cases h0 : mergeLoadBase se se.Meta 0 [] with
  | none => simp
  | some ms0 =>
    simp only [Option.some_bind]
    cases h1 : mergeLoadOther se2 se2.Meta 0 ms0 with
    | none => simp
    | some ms =>
      by_cases hp : se.Head.Period = 0
      · simp [hp]
      · cases sort <;>
          simp [hp, DF4SeriesEnvelope.mergeAll, DF4SeriesEnvelope.Sort, mergedEnvelope]

theorem merge_single_some (se se2 r : DF4SeriesEnvelope) (sort : Bool)
    (hstep : se2.StepDuration = se.StepDuration)
    (h : se.Merge sort [some (.df4 se2)] = some r) :
    ∃ ms0 ms, mergeLoadBase se se.Meta 0 [] = some ms0 ∧
      mergeLoadOther se2 se2.Meta 0 ms0 = some ms ∧ se.Head.Period ≠ 0 ∧
      r = mergedEnvelope se se2 ms := by
  rw [merge_single_eq se se2 sort hstep] at h
  cases h0 : mergeLoadBase se se.Meta 0 [] with
  | none => simp [h0] at h
  | some ms0 =>
    cases h1 : mergeLoadOther se2 se2.Meta 0 ms0 with
    | none => simp [h0, h1] at h
    | some ms =>
      by_cases hp : se.Head.Period = 0
      · simp [h0, h1, hp] at h
      · simp only [h0, h1, hp, Option.some_bind, if_false, Option.some.injEq] at h
        exact ⟨ms0, ms, rfl, h1, hp, h.symm⟩

theorem mergeHead_span (h h2 : DF4Info) (p : Int) (hp : 0 < p) (hp1 : h.Period = p)
    (hp2 : h2.Period = p) (hal : p ∣ h.Start - h2.Start) (hc : 1 ≤ h.Count ∨ 1 ≤ h2.Count) :
    ∃ q, 0 ≤ q ∧ max h.frameEnd h2.frameEnd - min h.Start h2.Start = p * q := by
  obtain ⟨k, hk⟩ := hal
  have hfe1 : h.frameEnd = h.Start + (h.Count - 1) * p := by rw [DF4Info.frameEnd, hp1]
  have hfe2 : h2.frameEnd = h2.Start + (h2.Count - 1) * p := by rw [DF4Info.frameEnd, hp2]
  have hnn : 0 ≤ max h.frameEnd h2.frameEnd - min h.Start h2.Start := by
    rcases hc with hc | hc
    · have ha : 0 ≤ (h.Count - 1) * p := mul_nonneg (by omega) hp.le
      have h1 : h.frameEnd ≤ max h.frameEnd h2.frameEnd := le_max_left _ _
      have h2 : min h.Start h2.Start ≤ h.Start := min_le_left _ _
      omega
    · have hb : 0 ≤ (h2.Count - 1) * p := mul_nonneg (by omega) hp.le
      have h1 : h2.frameEnd ≤ max h.frameEnd h2.frameEnd := le_max_right _ _
      have h2 : min h.Start h2.Start ≤ h2.Start := min_le_right _ _
      omega
  have key : ∃ q, max h.frameEnd h2.frameEnd - min h.Start h2.Start = p * q := by
    rcases max_choice h.frameEnd h2.frameEnd with hM | hM <;>
      rcases min_choice h.Start h2.Start with hm | hm <;> rw [hM, hm]
    · exact ⟨h.Count - 1, by rw [hfe1]; ring⟩
    · exact ⟨h.Count - 1 + k, by rw [hfe1]; linear_combination hk⟩
    · exact ⟨h2.Count - 1 - k, by rw [hfe2]; linear_combination -hk⟩
    · exact ⟨h2.Count - 1, by rw [hfe2]; ring⟩
  obtain ⟨q, hq⟩ := key
  exact ⟨q, nonneg_of_mul_nonneg_right (hq ▸ hnn) hp, hq⟩

theorem mergeHead_spec (h h2 : DF4Info) (p : Int) (hp : 0 < p) (hp1 : h.Period = p)
    (hp2 : h2.Period = p) (hal : p ∣ h.Start - h2.Start) (hc : 1 ≤ h.Count ∨ 1 ≤ h2.Count) :
    (mergeHead h h2).Start = min h.Start h2.Start ∧
    (mergeHead h h2).Period = p ∧
    (mergeHead h h2).Count =
      (max h.frameEnd h2.frameEnd - min h.Start h2.Start) / p + 1 ∧
    (mergeHead h h2).frameEnd = max h.frameEnd h2.frameEnd ∧
    1 ≤ (mergeHead h h2).Count := by
  obtain ⟨q, hq0, hq⟩ := mergeHead_span h h2 p hp hp1 hp2 hal hc
  have hmin : (if h2.Start < h.Start then h2.Start else h.Start) = min h.Start h2.Start := by
    split_ifs with hlt
    · exact (min_eq_right hlt.le).symm
    · exact (min_eq_left (not_lt.mp hlt)).symm
  have hmax : (if h2.frameEnd > h.frameEnd then h2.frameEnd else h.frameEnd) =
      max h.frameEnd h2.frameEnd := by
    split_ifs with hlt
    · exact (max_eq_right (le_of_lt hlt)).symm
    · exact (max_eq_left (not_lt.mp hlt)).symm
  have hcount : (mergeHead h h2).Count = q + 1 := by
    simp only [mergeHead, hmin, hmax, hq, hp1]
    rw [Int.mul_tdiv_cancel_left _ hp.ne']
  have hstart : (mergeHead h h2).Start = min h.Start h2.Start := by
    simp only [mergeHead, hmin]
  have hper : (mergeHead h h2).Period = p := by simp only [mergeHead, hp1]
  refine ⟨hstart, hper, ?_, ?_, ?_⟩
  · rw [hcount, hq, Int.mul_ediv_cancel_left _ hp.ne']
  · rw [DF4Info.frameEnd, hcount, hstart, hper]
    linear_combination (-1 : Int) * hq
  · omega

/-- C8: merging the dense frame `se2` into `se` (equal `Step`, equal `Head.Period = p > 0`,
starts congruent modulo `p`, both with `Head.Count ≥ 1`) returns whenever every `Meta`
entry has its data row, and the result has `Head.Start = min(se.Start, se2.Start)`,
`Head.Period = p`, `Head.Count = (max(end(se), end(se2)) - Head.Start) / p + 1` with
`end(x) = x.Start + (x.Count - 1) * p` (so the frame spans the union range), every data row
has exactly `Head.Count` slots, and a slot whose timestamp has a sample in neither input for
the row's metric holds nil. -/
theorem C8_merge_frame_on_union_range (se se2 : DF4SeriesEnvelope) (sort : Bool) (p : Int)
    (hstep : se2.StepDuration = se.StepDuration) (hp : 0 < p)
    (hp1 : se.Head.Period = p) (hp2 : se2.Head.Period = p)
    (hal : (se.Head.Start - se2.Head.Start) % p = 0)
    (hc1 : 1 ≤ se.Head.Count) (_hc2 : 1 ≤ se2.Head.Count) :
    (se.Meta.length ≤ se.Data.length → se2.Meta.length ≤ se2.Data.length →
      ∃ r, se.Merge sort [some (.df4 se2)] = some r) ∧
    ∀ r, se.Merge sort [some (.df4 se2)] = some r →
      r.Head.Start = min se.Head.Start se2.Head.Start ∧
      r.Head.Period = p ∧
      r.Head.Count = (max se.Head.frameEnd se2.Head.frameEnd - r.Head.Start) / p + 1 ∧
      r.Head.frameEnd = max se.Head.frameEnd se2.Head.frameEnd ∧
      r.Data.length = r.Meta.length ∧
      (∀ row ∈ r.Data, (row.length : Int) = r.Head.Count) ∧
      (∀ (k : Nat) (mv : MetaEntry) (row : List Value) (i : Nat) (x : Value),
        r.Meta[k]? = some mv → r.Data[k]? = some row → row[i]? = some x →
        ∃ name, mv.label = some name ∧
          ((∀ v, ¬ se.holds name (r.Head.Start + (i : Int) * p) v) →
           (∀ v, ¬ se2.holds name (r.Head.Start + (i : Int) * p) v) → x = Value.null)) := by
  have hdvd : p ∣ se.Head.Start - se2.Head.Start := Int.dvd_of_emod_eq_zero hal
  obtain ⟨hS, hP, hC, hE, _⟩ := mergeHead_spec se.Head se2.Head p hp hp1 hp2 hdvd (Or.inl hc1)
  constructor
  · intro hrows hrows2
    obtain ⟨ms0, h0⟩ := mergeLoadBase_total se se.Meta 0 [] (by simpa using hrows)
    obtain ⟨ms, h1⟩ := mergeLoadOther_total se2 se2.Meta 0 ms0 (by simpa using hrows2)
    refine ⟨mergedEnvelope se se2 ms, ?_⟩
    rw [merge_single_eq se se2 sort hstep, h0, Option.some_bind, h1, Option.some_bind,
      if_neg (by rw [hp1]; exact hp.ne')]
  · intro r hr
    obtain ⟨ms0, ms, h0, h1, _, rfl⟩ := merge_single_some se se2 r sort hstep hr
    have hinv0 : metricsFrom se se2 ms0 :=
      mergeLoadBase_from se se2 se.Meta 0 [] ms0 (fun b mv hb => by simpa using hb)
        (fun md hmd => by cases hmd) h0
    have hinv : metricsFrom se se2 ms :=
      mergeLoadOther_from se se2 se2.Meta 0 ms0 ms (fun b mv hb => by simpa using hb) hinv0 h1
    refine ⟨hS, hP, ?_, hE, ?_, ?_, ?_⟩
    · show (mergeHead se.Head se2.Head).Count = _
      rw [hC]
      show _ = (_ - (mergeHead se.Head se2.Head).Start) / p + 1
      rw [hS]
    · simp [mergedEnvelope]
    · intro row hrow
      simp only [mergedEnvelope, List.mem_map] at hrow
      obtain ⟨md, _, rfl⟩ := hrow
      rw [buildRow_length]
      show ((mergeHead se.Head se2.Head).Count.toNat : Int) = (mergeHead se.Head se2.Head).Count
      omega
    · intro k mv row i x hmv hrow hx
      simp only [mergedEnvelope, List.getElem?_map, Option.map_eq_some'] at hmv hrow
      obtain ⟨md, hmd, rfl⟩ := hmv
      obtain ⟨md', hmd', rfl⟩ := hrow
      obtain rfl : md = md' := Option.some.inj (hmd.symm.trans hmd')
      have hmem : md ∈ ms := List.getElem?_mem hmd
      obtain ⟨hlabel, hdata⟩ := hinv md hmem
      refine ⟨md.name, hlabel, fun hno hno2 => ?_⟩
      obtain ⟨_, rfl⟩ := buildRow_getElem? _ _ _ _ hx
      by_contra hne
      have hts := hdata _ hne
      rw [hP] at hts
      rcases hts with ⟨v, hv⟩ | ⟨v, hv⟩
      · exact hno v hv
      · exact hno2 v hv

theorem Metrics.get_set (ms : Metrics) (md : metricData) (n : String) :
    (Metrics.set ms md).get n = if md.name = n then some md else ms.get n := by
  induction ms with
  | nil => simp [Metrics.set, Metrics.get]
  | cons x xs ih =>
    unfold Metrics.set
    by_cases hx : x.name = md.name
    · rw [if_pos hx]
      by_cases hn : md.name = n
      · simp [Metrics.get, hn]
      · simp [Metrics.get, hn, hx]
    · rw [if_neg hx]
      by_cases hn : md.name = n
      · have hxn : x.name ≠ n := fun h => hx (h.trans hn.symm)
        simp only [Metrics.get, if_neg hxn, ih, if_pos hn]
      · by_cases hxn : x.name = n
        · simp [Metrics.get, hxn, hn]
        · simp only [Metrics.get, if_neg hxn, ih, if_neg hn]

theorem Metrics.names_set (ms : Metrics) (md : metricData) :
    (Metrics.set ms md).map (fun m => m.name) =
      if md.name ∈ ms.map (fun m => m.name) then ms.map (fun m => m.name)
      else ms.map (fun m => m.name) ++ [md.name] := by
  induction ms with
  | nil => simp [Metrics.set]
  | cons x xs ih =>
    unfold Metrics.set
    by_cases hx : x.name = md.name
    · simp [hx]
    · have hx' : ¬ md.name = x.name := fun h => hx h.symm
      rw [if_neg hx, List.map_cons, ih]
      by_cases hmem : md.name ∈ xs.map (fun m => m.name)
      · simp [hmem]
      · simp [hmem, hx']

theorem Metrics.nodup_set (ms : Metrics) (md : metricData)
    (h : (ms.map fun m => m.name).Nodup) : ((Metrics.set ms md).map fun m => m.name).Nodup := by
  rw [Metrics.names_set]
  split_ifs with hmem
  · exact h
  · exact List.Nodup.append h (List.nodup_singleton _) (by simpa using hmem)

theorem mergeLoadBase_preserves (P : Metrics → Prop) (hP : ∀ ms md, P ms → P (Metrics.set ms md))
    (se : DF4SeriesEnvelope) (metas : List MetaEntry) (i : Nat) (ms ms' : Metrics)
    (h0 : P ms) (h : mergeLoadBase se metas i ms = some ms') : P ms' := by
  induction metas generalizing i ms with
  | nil =>
    simp only [mergeLoadBase, Option.some.injEq] at h
    exact h ▸ h0
  | cons mv rest ih =>
    cases hl : mv.label with
    | none =>
      simp only [mergeLoadBase, hl] at h
      exact ih (i + 1) ms h0 h
    | some name =>
      cases hrow : se.Data[i]? with
      | none => simp [mergeLoadBase, hl, hrow] at h
      | some row =>
        simp only [mergeLoadBase, hl, hrow] at h
        exact ih (i + 1) _ (hP _ _ h0) h

theorem mergeLoadOther_preserves (P : Metrics → Prop) (hP : ∀ ms md, P ms → P (Metrics.set ms md))
    (se2 : DF4SeriesEnvelope) (metas : List MetaEntry) (i : Nat) (ms ms' : Metrics)
    (h0 : P ms) (h : mergeLoadOther se2 metas i ms = some ms') : P ms' := by
  induction metas generalizing i ms with
  | nil =>
    simp only [mergeLoadOther, Option.some.injEq] at h
    exact h ▸ h0
  | cons mv rest ih =>
    cases hl : mv.label with
    | none =>
      simp only [mergeLoadOther, hl] at h
      exact ih (i + 1) ms h0 h
    | some name =>
      cases hrow : se2.Data[i]? with
      | none => simp [mergeLoadOther, hl, hrow] at h
      | some row =>
        simp only [mergeLoadOther, hl, hrow] at h
        exact ih (i + 1) _ (hP _ _ h0) h

theorem mergeLoadBase_get (se : DF4SeriesEnvelope) (metas : List MetaEntry) (i : Nat)
    (ms ms' : Metrics) (hnd : (labels metas).Nodup)
    (h : mergeLoadBase se metas i ms = some ms') :
    (∀ (b : Nat) (mv : MetaEntry) (n : String), metas[b]? = some mv → mv.label = some n →
      ∃ row, se.Data[i + b]? = some row ∧
        Metrics.get ms' n = some { name := n, meta := mv,
                                   data := writeRow se.Head.Start se.Head.Period 0 row [] }) ∧
    (∀ n, n ∉ labels metas → Metrics.get ms' n = Metrics.get ms n) := by
  induction metas generalizing i ms with
  | nil =>
    simp only [mergeLoadBase, Option.some.injEq] at h
    subst h
    exact ⟨fun b mv n hb => by simp at hb, fun n _ => rfl⟩
  | cons mv rest ih =>
    cases hl : mv.label with
    | none =>
      have hlab : labels (mv :: rest) = labels rest := by simp [labels, List.filterMap_cons, hl]
      simp only [mergeLoadBase, hl] at h
      obtain ⟨ih1, ih2⟩ := ih (i + 1) ms (hlab ▸ hnd) h
      refine ⟨fun b mv' n hb hn => ?_, fun n hn => ih2 n (hlab ▸ hn)⟩
      cases b with
      | zero =>
        simp only [List.getElem?_cons_zero, Option.some.injEq] at hb
        subst hb
        rw [hl] at hn
        cases hn
      | succ b =>
        have := ih1 b mv' n (by simpa using hb) hn
        rwa [show i + 1 + b = i + (b + 1) by omega] at this
    | some name =>
      have hlab : labels (mv :: rest) = name :: labels rest := by
        simp [labels, List.filterMap_cons, hl]
      rw [hlab, List.nodup_cons] at hnd
      cases hrow : se.Data[i]? with
      | none => simp [mergeLoadBase, hl, hrow] at h
      | some row =>
        simp only [mergeLoadBase, hl, hrow] at h
        obtain ⟨ih1, ih2⟩ := ih (i + 1) _ hnd.2 h
        refine ⟨fun b mv' n hb hn => ?_, fun n hn => ?_⟩
        · cases b with
          | zero =>
            simp only [List.getElem?_cons_zero, Option.some.injEq] at hb
            subst hb
            rw [hl] at hn
            cases hn
            refine ⟨row, by simpa using hrow, ?_⟩
            rw [ih2 name hnd.1, Metrics.get_set, if_pos rfl]
          | succ b =>
            have := ih1 b mv' n (by simpa using hb) hn
            rwa [show i + 1 + b = i + (b + 1) by omega] at this
        · rw [hlab, List.mem_cons, not_or] at hn
          rw [ih2 n hn.2, Metrics.get_set, if_neg (fun h => hn.1 h.symm)]

theorem mergeLoadOther_get (se2 : DF4SeriesEnvelope) (metas : List MetaEntry) (i : Nat)
    (ms ms' : Metrics) (hnd : (labels metas).Nodup)
    (h : mergeLoadOther se2 metas i ms = some ms') :
    (∀ (b : Nat) (mv : MetaEntry) (n : String), metas[b]? = some mv → mv.label = some n →
      ∃ row, se2.Data[i + b]? = some row ∧
        Metrics.get ms' n = some (mergedMetric se2 n mv row (Metrics.get ms n))) ∧
    (∀ n, n ∉ labels metas → Metrics.get ms' n = Metrics.get ms n) := by
  induction metas generalizing i ms with
  | nil =>
    simp only [mergeLoadOther, Option.some.injEq] at h
    subst h
    exact ⟨fun b mv n hb => by simp at hb, fun n _ => rfl⟩
  | cons mv rest ih =>
    cases hl : mv.label with
    | none =>
      have hlab : labels (mv :: rest) = labels rest := by simp [labels, List.filterMap_cons, hl]
      simp only [mergeLoadOther, hl] at h
      obtain ⟨ih1, ih2⟩ := ih (i + 1) ms (hlab ▸ hnd) h
      refine ⟨fun b mv' n hb hn => ?_, fun n hn => ih2 n (hlab ▸ hn)⟩
      cases b with
      | zero =>
        simp only [List.getElem?_cons_zero, Option.some.injEq] at hb
        subst hb
        rw [hl] at hn
        cases hn
      | succ b =>
        have := ih1 b mv' n (by simpa using hb) hn
        rwa [show i + 1 + b = i + (b + 1) by omega] at this
    | some name =>
      have hlab : labels (mv :: rest) = name :: labels rest := by
        simp [labels, List.filterMap_cons, hl]
      rw [hlab, List.nodup_cons] at hnd
      cases hrow : se2.Data[i]? with
      | none => simp [mergeLoadOther, hl, hrow] at h
      | some row =>
        simp only [mergeLoadOther, hl, hrow] at h
        obtain ⟨ih1, ih2⟩ := ih (i + 1) _ hnd.2 h
        refine ⟨fun b mv' n hb hn => ?_, fun n hn => ?_⟩
        · cases b with
          | zero =>
            simp only [List.getElem?_cons_zero, Option.some.injEq] at hb
            subst hb
            rw [hl] at hn
            cases hn
            refine ⟨row, by simpa using hrow, ?_⟩
            rw [ih2 name hnd.1, Metrics.get_set]
            cases hg : Metrics.get ms name with
            | none => simp [mergedMetric]
            | some md => simp [mergedMetric, (Metrics.get_some hg).2]
          | succ b =>
            obtain ⟨row', hrow', hget⟩ := ih1 b mv' n (by simpa using hb) hn
            refine ⟨row', by rwa [show i + 1 + b = i + (b + 1) by omega] at hrow', ?_⟩
            rw [hget, Metrics.get_set]
            have hne : n ≠ name := by
              intro he
              subst he
              exact hnd.1 (List.mem_filterMap.mpr ⟨mv', List.getElem?_mem (by simpa using hb), hn⟩)
            have hne' : ¬ (match Metrics.get ms name with
                | some md => md
                | none => { name := name, meta := mv, data := [] } : metricData).name = n := by
              cases hg : Metrics.get ms name with
              | none => exact fun h => hne h.symm
              | some md => exact fun h => hne (h.symm.trans (Metrics.get_some hg).2)
            rw [if_neg hne']
        · rw [hlab, List.mem_cons, not_or] at hn
          rw [ih2 n hn.2, Metrics.get_set]
          have hne' : ¬ (match Metrics.get ms name with
              | some md => md
              | none => { name := name, meta := mv, data := [] } : metricData).name = n := by
            cases hg : Metrics.get ms name with
            | none => exact fun h => hn.1 h.symm
            | some md => exact fun h => hn.1 (h.symm.trans (Metrics.get_some hg).2)
          rw [if_neg hne']

theorem mem_labels_of_getElem? {metas : List MetaEntry} {b : Nat} {mv : MetaEntry} {n : String}
    (hb : metas[b]? = some mv) (hl : mv.label = some n) : n ∈ labels metas :=
  List.mem_filterMap.mpr ⟨mv, List.getElem?_mem hb, hl⟩

theorem getElem?_of_mem_labels {metas : List MetaEntry} {n : String} (h : n ∈ labels metas) :
    ∃ (b : Nat) (mv : MetaEntry), metas[b]? = some mv ∧ mv.label = some n := by
  obtain ⟨mv, hmem, hl⟩ := List.mem_filterMap.mp h
  obtain ⟨b, hb⟩ := List.mem_iff_getElem?.mp hmem
  exact ⟨b, mv, hb, hl⟩

theorem labels_index_unique (metas : List MetaEntry) (hnd : (labels metas).Nodup)
    {a b : Nat} {mv mv' : MetaEntry} {n : String}
    (ha : metas[a]? = some mv) (hla : mv.label = some n)
    (hb : metas[b]? = some mv') (hlb : mv'.label = some n) : a = b := by
  induction metas generalizing a b with
  | nil => simp at ha
  | cons m rest ih =>
    have hsub : (labels rest).Nodup := by
      cases hm : m.label with
      | none => simpa [labels, List.filterMap_cons, hm] using hnd
      | some x =>
        have : labels (m :: rest) = x :: labels rest := by simp [labels, List.filterMap_cons, hm]
        rw [this] at hnd
        exact (List.nodup_cons.mp hnd).2
    have hhead : ∀ {c : Nat} {mc : MetaEntry}, m.label = some n → rest[c]? = some mc →
        mc.label = some n → False := by
      intro c mc hm hc hlc
      have : labels (m :: rest) = n :: labels rest := by simp [labels, List.filterMap_cons, hm]
      rw [this] at hnd
      exact (List.nodup_cons.mp hnd).1 (mem_labels_of_getElem? hc hlc)
    cases a with
    | zero =>
      cases b with
      | zero => rfl
      | succ b =>
        simp only [List.getElem?_cons_zero, Option.some.injEq] at ha
        simp only [List.getElem?_cons_succ] at hb
        exact (hhead (ha ▸ hla) hb hlb).elim
    | succ a =>
      cases b with
      | zero =>
        simp only [List.getElem?_cons_zero, Option.some.injEq] at hb
        simp only [List.getElem?_cons_succ] at ha
        exact (hhead (hb ▸ hlb) ha hla).elim
      | succ b =>
        simp only [List.getElem?_cons_succ] at ha hb
        rw [ih hsub ha hb]

theorem holds_row_unique (se : DF4SeriesEnvelope) (hnd : (labels se.Meta).Nodup)
    {a : Nat} {mv : MetaEntry} {row : List Value} {n : String} {ts : Int} {v : Value}
    (ha : se.Meta[a]? = some mv) (hl : mv.label = some n) (hrow : se.Data[a]? = some row)
    (h : se.holds n ts v) :
    ∃ j : Nat, row[j]? = some v ∧ ts = se.Head.Start + (j : Int) * se.Head.Period := by
  obtain ⟨a', mv', row', j, ha', hl', hrow', hj, hts⟩ := h
  obtain rfl := labels_index_unique se.Meta hnd ha hl ha' hl'
  obtain rfl : row = row' := Option.some.inj (hrow.symm.trans hrow')
  exact ⟨j, hj, hts⟩

theorem holds_unique (se : DF4SeriesEnvelope) (hnd : (labels se.Meta).Nodup)
    (hp : se.Head.Period ≠ 0) {n : String} {ts : Int} {v v' : Value}
    (h : se.holds n ts v) (h' : se.holds n ts v') : v = v' := by
  obtain ⟨a, mv, row, j, ha, hl, hrow, hj, hts⟩ := h
  obtain ⟨j', hj', hts'⟩ := holds_row_unique se hnd ha hl hrow h'
  have h1 : (j : Int) * se.Head.Period = (j' : Int) * se.Head.Period := by linarith
  have h2 : (j : Int) = (j' : Int) := mul_right_cancel₀ hp h1
  have h3 : j = j' := by exact_mod_cast h2
  subst h3
  exact Option.some.inj (hj.symm.trans hj')

theorem not_holds_of_not_label (se : DF4SeriesEnvelope) {n : String} (hn : n ∉ labels se.Meta)
    (ts : Int) (v : Value) : ¬ se.holds n ts v := by
  rintro ⟨a, mv, row, j, ha, hl, _⟩
  exact hn (mem_labels_of_getElem? ha hl)

theorem writeRow_value (s p : Int) (hp : p ≠ 0) (row : List Value) (m : DataMap) (ts : Int) :
    (∃ (i : Nat) (v : Value), row[i]? = some v ∧ ts = s + (i : Int) * p ∧
        (writeRow s p 0 row m).get ts = v) ∨
      ((∀ (i : Nat) (v : Value), row[i]? = some v → ts ≠ s + (i : Int) * p) ∧
        (writeRow s p 0 row m).get ts = m.get ts) := by
  by_cases h : ∃ (i : Nat) (v : Value), row[i]? = some v ∧ ts = s + (i : Int) * p
  · obtain ⟨i, v, hi, hts⟩ := h
    refine Or.inl ⟨i, v, hi, hts, ?_⟩
    have := writeRow_get_slot s p hp row 0 m i v hi
    simpa [hts] using this
  · push_neg at h
    refine Or.inr ⟨h, writeRow_get_other s p row 0 m ts ?_⟩
    intro i hi
    simpa using h i row[i] (List.getElem?_eq_getElem hi)

theorem baseValue_of_row (se : DF4SeriesEnvelope) (hnd1 : (labels se.Meta).Nodup)
    (hp1 : se.Head.Period ≠ 0) (n : String) (ts : Int) (base : DataMap)
    (h1 : (∃ (a : Nat) (mv : MetaEntry) (row : List Value), se.Meta[a]? = some mv ∧
          mv.label = some n ∧ se.Data[a]? = some row ∧
          base = writeRow se.Head.Start se.Head.Period 0 row []) ∨
        (n ∉ labels se.Meta ∧ base = [])) :
    se.holds n ts (base.get ts) ∨ ((∀ v, ¬ se.holds n ts v) ∧ base.get ts = Value.null) := by
  rcases h1 with ⟨a, mv, row, ha, hl, hrow, rfl⟩ | ⟨hn, rfl⟩
  · rcases writeRow_value se.Head.Start se.Head.Period hp1 row [] ts with
      ⟨i, v, hi, hts, hget⟩ | ⟨hno, hget⟩
    · exact Or.inl ⟨a, mv, row, i, ha, hl, hrow, by simpa [hget] using hi, hts⟩
    · refine Or.inr ⟨fun v hv => ?_, hget⟩
      obtain ⟨j, hj, hts⟩ := holds_row_unique se hnd1 ha hl hrow hv
      exact hno j v hj hts
  · exact Or.inr ⟨fun v => not_holds_of_not_label se hn ts v, rfl⟩

/-- The data map of a metric after both loops of `Merge`: reading it at `ts` gives the
merged value, when `base` holds what `se` wrote for the label (or nothing) and `data` is
`base` overwritten with the row of `se2` for the label (or `base` itself). -/
theorem mergedValue_of_rows (se se2 : DF4SeriesEnvelope) (hnd1 : (labels se.Meta).Nodup)
    (hnd2 : (labels se2.Meta).Nodup) (hp1 : se.Head.Period ≠ 0) (hp2 : se2.Head.Period ≠ 0)
    (n : String) (ts : Int) (base data : DataMap)
    (h1 : (∃ (a : Nat) (mv : MetaEntry) (row : List Value), se.Meta[a]? = some mv ∧
          mv.label = some n ∧ se.Data[a]? = some row ∧
          base = writeRow se.Head.Start se.Head.Period 0 row []) ∨
        (n ∉ labels se.Meta ∧ base = []))
    (h2 : (∃ (a : Nat) (mv : MetaEntry) (row : List Value), se2.Meta[a]? = some mv ∧
          mv.label = some n ∧ se2.Data[a]? = some row ∧
          data = writeRow se2.Head.Start se2.Head.Period 0 row base) ∨
        (n ∉ labels se2.Meta ∧ data = base)) :
    mergedValue se se2 n ts (data.get ts) := by
  have hb := baseValue_of_row se hnd1 hp1 n ts base h1
  rcases h2 with ⟨a2, mv2, row2, ha2, hl2, hrow2, rfl⟩ | ⟨hn2, rfl⟩
  · rcases writeRow_value se2.Head.Start se2.Head.Period hp2 row2 base ts with
      ⟨i, v, hi, hts, hget⟩ | ⟨hno, hget⟩
    · exact Or.inl ⟨a2, mv2, row2, i, ha2, hl2, hrow2, by simpa [hget] using hi, hts⟩
    · have hno2 : ∀ v2, ¬ se2.holds n ts v2 := by
        intro v hv
        obtain ⟨j, hj, hts⟩ := holds_row_unique se2 hnd2 ha2 hl2 hrow2 hv
        exact hno j v hj hts
      rw [hget]
      rcases hb with h | ⟨h, hnull⟩
      · exact Or.inr (Or.inl ⟨hno2, h⟩)
      · exact Or.inr (Or.inr ⟨hno2, h, hnull⟩)
  · have hno2 : ∀ v2, ¬ se2.holds n ts v2 := fun v => not_holds_of_not_label se2 hn2 ts v
    rcases hb with h | ⟨h, hnull⟩
    · exact Or.inr (Or.inl ⟨hno2, h⟩)
    · exact Or.inr (Or.inr ⟨hno2, h, hnull⟩)

/-- The metric `Merge` ends with for a label `n`, from the two loops: its `Meta` entry is
the entry of `se` with the label if there is one, else the entry of `se2`; its data map is
the row of `se` overwritten with the row of `se2`. -/
theorem merged_metric_of_label (se se2 : DF4SeriesEnvelope) (hnd1 : (labels se.Meta).Nodup)
    (hnd2 : (labels se2.Meta).Nodup) (ms0 ms : Metrics)
    (h0 : mergeLoadBase se se.Meta 0 [] = some ms0)
    (h1 : mergeLoadOther se2 se2.Meta 0 ms0 = some ms) (n : String) :
    (n ∉ labels se.Meta ∧ n ∉ labels se2.Meta ∧ Metrics.get ms n = none) ∨
    ∃ md base, Metrics.get ms n = some md ∧ md.name = n ∧
      ((∃ (a : Nat) (mv : MetaEntry) (row : List Value), se.Meta[a]? = some mv ∧
          mv.label = some n ∧ se.Data[a]? = some row ∧ md.meta = mv ∧
          base = writeRow se.Head.Start se.Head.Period 0 row []) ∨
        (n ∉ labels se.Meta ∧ base = [] ∧
          ∃ (a : Nat), se2.Meta[a]? = some md.meta ∧ md.meta.label = some n)) ∧
      ((∃ (a : Nat) (mv : MetaEntry) (row : List Value), se2.Meta[a]? = some mv ∧
          mv.label = some n ∧ se2.Data[a]? = some row ∧
          md.data = writeRow se2.Head.Start se2.Head.Period 0 row base) ∨
        (n ∉ labels se2.Meta ∧ md.data = base)) := by
  obtain ⟨b1, b2⟩ := mergeLoadBase_get se se.Meta 0 [] ms0 hnd1 h0
  obtain ⟨o1, o2⟩ := mergeLoadOther_get se2 se2.Meta 0 ms0 ms hnd2 h1
  by_cases hn1 : n ∈ labels se.Meta
  · obtain ⟨a, mv, ha, hl⟩ := getElem?_of_mem_labels hn1
    obtain ⟨row, hrow, hget0⟩ := b1 a mv n ha hl
    rw [Nat.zero_add] at hrow
    by_cases hn2 : n ∈ labels se2.Meta
    · obtain ⟨a2, mv2, ha2, hl2⟩ := getElem?_of_mem_labels hn2
      obtain ⟨row2, hrow2, hget⟩ := o1 a2 mv2 n ha2 hl2
      rw [Nat.zero_add] at hrow2
      rw [hget0] at hget
      exact Or.inr ⟨_, _, hget, rfl, Or.inl ⟨a, mv, row, ha, hl, hrow, rfl, rfl⟩,
        Or.inl ⟨a2, mv2, row2, ha2, hl2, hrow2, rfl⟩⟩
    · have hget := o2 n hn2
      rw [hget0] at hget
      exact Or.inr ⟨_, _, hget, rfl, Or.inl ⟨a, mv, row, ha, hl, hrow, rfl, rfl⟩,
        Or.inr ⟨hn2, rfl⟩⟩
  · have hget0 : Metrics.get ms0 n = none := b2 n hn1
    by_cases hn2 : n ∈ labels se2.Meta
    · obtain ⟨a2, mv2, ha2, hl2⟩ := getElem?_of_mem_labels hn2
      obtain ⟨row2, hrow2, hget⟩ := o1 a2 mv2 n ha2 hl2
      rw [Nat.zero_add] at hrow2
      rw [hget0] at hget
      exact Or.inr ⟨_, [], hget, rfl, Or.inr ⟨hn1, rfl, a2, ha2, hl2⟩,
        Or.inl ⟨a2, mv2, row2, ha2, hl2, hrow2, rfl⟩⟩
    · exact Or.inl ⟨hn1, hn2, (o2 n hn2).trans hget0⟩

theorem Metrics.get_of_mem (ms : Metrics) (hnd : (ms.map fun m => m.name).Nodup)
    {md : metricData} (h : md ∈ ms) : Metrics.get ms md.name = some md := by
  induction ms with
  | nil => cases h
  | cons x xs ih =>
    rw [List.map_cons, List.nodup_cons] at hnd
    rcases List.mem_cons.mp h with rfl | hmem
    · simp [Metrics.get]
    · have hne : x.name ≠ md.name := by
        intro he
        exact hnd.1 (List.mem_map.mpr ⟨md, hmem, he.symm⟩)
      simp only [Metrics.get, if_neg hne]
      exact ih hnd.2 hmem

theorem labels_map_meta (ms : Metrics) (h : ∀ md ∈ ms, md.meta.label = some md.name) :
    labels (ms.map fun m => m.meta) = ms.map fun m => m.name := by
  induction ms with
  | nil => rfl
  | cons x xs ih =>
    have hx := h x (List.mem_cons_self _ _)
    have hxs := ih fun md hmd => h md (List.mem_cons_of_mem _ hmd)
    simp only [labels] at hxs ⊢
    simp only [List.map_cons, List.filterMap_cons, hx, hxs]

theorem slot_in_frame (head : DF4Info) (p : Int) (hp : 0 < p) (hP : head.Period = p) (ts : Int)
    (hlo : head.Start ≤ ts) (hhi : ts ≤ head.frameEnd) (hd : p ∣ ts - head.Start) :
    ∃ j : Nat, j < head.Count.toNat ∧ ts = head.Start + (j : Int) * head.Period := by
  obtain ⟨q, hq⟩ := hd
  have hq0 : 0 ≤ q := nonneg_of_mul_nonneg_right (by rw [← hq]; omega) hp
  have hle : p * q ≤ p * (head.Count - 1) := by
    rw [DF4Info.frameEnd, hP] at hhi
    linarith
  have hq1 : q ≤ head.Count - 1 := le_of_mul_le_mul_left hle hp
  refine ⟨q.toNat, by omega, ?_⟩
  rw [Int.toNat_of_nonneg hq0, hP]
  linarith

theorem buildRow_getElem?_lt (head : DF4Info) (data : DataMap) (j : Nat)
    (hj : j < head.Count.toNat) :
    (buildRow head data)[j]? = some (data.get (head.Start + (j : Int) * head.Period)) := by
  rw [List.getElem?_eq_getElem (by rw [buildRow_length]; exact hj)]
  simp [buildRow]

theorem slot_of_holds (se : DF4SeriesEnvelope) (head : DF4Info) (p : Int) (hp : 0 < p)
    (hp1 : se.Head.Period = p) (hP : head.Period = p)
    (hlo : head.Start ≤ se.Head.Start) (hhi : se.Head.frameEnd ≤ head.frameEnd)
    (hd : p ∣ se.Head.Start - head.Start)
    (hw : ∀ row ∈ se.Data, (row.length : Int) ≤ se.Head.Count)
    {n : String} {ts : Int} {v : Value} (h : se.holds n ts v) :
    ∃ j : Nat, j < head.Count.toNat ∧ ts = head.Start + (j : Int) * head.Period := by
  obtain ⟨a, mv, row, j, _, _, hrow, hj, hts⟩ := h
  have hjlt : j < row.length := by
    by_contra hc
    rw [List.getElem?_eq_none (by omega)] at hj
    cases hj
  have hlen := hw row (List.getElem?_mem hrow)
  rw [hp1] at hts
  have hjp : 0 ≤ (j : Int) * p := mul_nonneg (by omega) hp.le
  have hjc : (j : Int) * p ≤ (se.Head.Count - 1) * p :=
    mul_le_mul_of_nonneg_right (by omega) hp.le
  refine slot_in_frame head p hp hP ts (by omega) ?_ ?_
  · rw [DF4Info.frameEnd, hp1] at hhi
    linarith
  · have : ts - head.Start = (j : Int) * p + (se.Head.Start - head.Start) := by rw [hts]; ring
    rw [this]
    exact dvd_add (Dvd.intro_left _ rfl) hd

theorem count_pos_of_holds (se : DF4SeriesEnvelope)
    (hw : ∀ row ∈ se.Data, (row.length : Int) ≤ se.Head.Count)
    {n : String} {ts : Int} {v : Value} (h : se.holds n ts v) : 1 ≤ se.Head.Count := by
  obtain ⟨a, mv, row, j, _, _, hrow, hj, _⟩ := h
  have hjlt : j < row.length := by
    by_contra hc
    rw [List.getElem?_eq_none (by omega)] at hj
    cases hj
  have hlen := hw row (List.getElem?_mem hrow)
  omega

theorem holds_merged (se se2 : DF4SeriesEnvelope) (ms : Metrics) (md : metricData) (n : String)
    (ts : Int) (hmem : md ∈ ms) (hlab : md.meta.label = some n)
    (hslot : ∃ j : Nat, j < (mergeHead se.Head se2.Head).Count.toNat ∧
      ts = (mergeHead se.Head se2.Head).Start + (j : Int) * (mergeHead se.Head se2.Head).Period) :
    (mergedEnvelope se se2 ms).holds n ts (md.data.get ts) := by
  obtain ⟨k, hk⟩ := List.mem_iff_getElem?.mp hmem
  obtain ⟨j, hj, hts⟩ := hslot
  refine ⟨k, md.meta, buildRow (mergeHead se.Head se2.Head) md.data, j, ?_, hlab, ?_, ?_, hts⟩
  · simp [mergedEnvelope, hk]
  · simp [mergedEnvelope, hk]
  · rw [buildRow_getElem?_lt _ _ _ hj, ← hts]

theorem merged_invariants (se se2 : DF4SeriesEnvelope) (ms0 ms : Metrics)
    (h0 : mergeLoadBase se se.Meta 0 [] = some ms0)
    (h1 : mergeLoadOther se2 se2.Meta 0 ms0 = some ms) :
    metricsFrom se se2 ms ∧ (ms.map fun m => m.name).Nodup := by
  have hinv0 : metricsFrom se se2 ms0 :=
    mergeLoadBase_from se se2 se.Meta 0 [] ms0 (fun b mv hb => by simpa using hb)
      (fun md hmd => by cases hmd) h0
  have hinv : metricsFrom se se2 ms :=
    mergeLoadOther_from se se2 se2.Meta 0 ms0 ms (fun b mv hb => by simpa using hb) hinv0 h1
  have hnd0 : (ms0.map fun m => m.name).Nodup :=
    mergeLoadBase_preserves (fun ms => (ms.map fun m => m.name).Nodup)
      (fun ms md h => Metrics.nodup_set ms md h) se se.Meta 0 [] ms0 List.nodup_nil h0
  have hnd : (ms.map fun m => m.name).Nodup :=
    mergeLoadOther_preserves (fun ms => (ms.map fun m => m.name).Nodup)
      (fun ms md h => Metrics.nodup_set ms md h) se2 se2.Meta 0 ms0 ms hnd0 h1
  exact ⟨hinv, hnd⟩

theorem merged_value_at (se se2 : DF4SeriesEnvelope) (hnd1 : (labels se.Meta).Nodup)
    (hnd2 : (labels se2.Meta).Nodup) (hp1 : se.Head.Period ≠ 0) (hp2 : se2.Head.Period ≠ 0)
    (ms0 ms : Metrics) (h0 : mergeLoadBase se se.Meta 0 [] = some ms0)
    (h1 : mergeLoadOther se2 se2.Meta 0 ms0 = some ms) (md : metricData) (hmd : md ∈ ms)
    (ts : Int) : mergedValue se se2 md.name ts (md.data.get ts) := by
  obtain ⟨_, hnd⟩ := merged_invariants se se2 ms0 ms h0 h1
  have hget := Metrics.get_of_mem ms hnd hmd
  rcases merged_metric_of_label se se2 hnd1 hnd2 ms0 ms h0 h1 md.name with
    ⟨_, _, hnone⟩ | ⟨md', base, hget', _, hb, hd⟩
  · rw [hnone] at hget
    cases hget
  · obtain rfl : md' = md := Option.some.inj (hget'.symm.trans hget)
    refine mergedValue_of_rows se se2 hnd1 hnd2 hp1 hp2 md'.name ts base md'.data ?_ hd
    rcases hb with ⟨a, mv, row, ha, hl, hrow, _, hbase⟩ | ⟨hn, hbase, _⟩
    · exact Or.inl ⟨a, mv, row, ha, hl, hrow, hbase⟩
    · exact Or.inr ⟨hn, hbase⟩

/-! ## Dense frames: merge -/

/-- C9: merging the dense frame `se2` into `se` (equal steps, equal period `p > 0`, aligned
starts, rows of at most `Head.Count` slots, one row per label) returns
whenever every `Meta` entry has its row, and in the result `r`: wherever `se2` holds a
value for a label at a slot timestamp, `r` holds that value there (last writer wins, also
when `se` holds one too); wherever only `se` holds a value, `r` holds the value of `se`;
and `r` holds one value per label and timestamp. -/
theorem C9_merge_last_writer_wins (se se2 : DF4SeriesEnvelope) (sort : Bool) (p : Int)
    (hstep : se2.StepDuration = se.StepDuration) (hp : 0 < p)
    (hp1 : se.Head.Period = p) (hp2 : se2.Head.Period = p)
    (hal : (se.Head.Start - se2.Head.Start) % p = 0)
    (hnd1 : (labels se.Meta).Nodup) (hnd2 : (labels se2.Meta).Nodup)
    (hw1 : ∀ row ∈ se.Data, (row.length : Int) ≤ se.Head.Count)
    (hw2 : ∀ row ∈ se2.Data, (row.length : Int) ≤ se2.Head.Count) :
    (se.Meta.length ≤ se.Data.length → se2.Meta.length ≤ se2.Data.length →
      ∃ r, se.Merge sort [some (.df4 se2)] = some r) ∧
    ∀ r, se.Merge sort [some (.df4 se2)] = some r →
      (∀ name ts v2, se2.holds name ts v2 → r.holds name ts v2) ∧
      (∀ name ts v, se.holds name ts v → (∀ v2, ¬ se2.holds name ts v2) → r.holds name ts v) ∧
      (∀ name ts x y, r.holds name ts x → r.holds name ts y → x = y) := by
  have hdvd : p ∣ se.Head.Start - se2.Head.Start := Int.dvd_of_emod_eq_zero hal
  have hS : (mergeHead se.Head se2.Head).Start = min se.Head.Start se2.Head.Start := by
    simp only [mergeHead]
    split_ifs with hlt
    · exact (min_eq_right hlt.le).symm
    · exact (min_eq_left (not_lt.mp hlt)).symm
  have hP : (mergeHead se.Head se2.Head).Period = p := by simp only [mergeHead, hp1]
  have hne1 : se.Head.Period ≠ 0 := by rw [hp1]; exact hp.ne'
  have hne2 : se2.Head.Period ≠ 0 := by rw [hp2]; exact hp.ne'
  constructor
  · intro hrows hrows2
    obtain ⟨ms0, h0⟩ := mergeLoadBase_total se se.Meta 0 [] (by simpa using hrows)
    obtain ⟨ms, h1⟩ := mergeLoadOther_total se2 se2.Meta 0 ms0 (by simpa using hrows2)
    refine ⟨mergedEnvelope se se2 ms, ?_⟩
    rw [merge_single_eq se se2 sort hstep, h0, Option.some_bind, h1, Option.some_bind,
      if_neg hne1]
  · intro r hr
    obtain ⟨ms0, ms, h0, h1, _, rfl⟩ := merge_single_some se se2 r sort hstep hr
    obtain ⟨hinv, hnd⟩ := merged_invariants se se2 ms0 ms h0 h1
    have hslot1 : ∀ {n : String} {ts : Int} {v : Value}, se.holds n ts v →
        ∃ j : Nat, j < (mergeHead se.Head se2.Head).Count.toNat ∧
          ts = (mergeHead se.Head se2.Head).Start +
            (j : Int) * (mergeHead se.Head se2.Head).Period := by
      intro n ts v h
      obtain ⟨_, _, _, hE, _⟩ := mergeHead_spec se.Head se2.Head p hp hp1 hp2 hdvd
        (Or.inl (count_pos_of_holds se hw1 h))
      refine slot_of_holds se _ p hp hp1 hP (hS ▸ min_le_left _ _) (hE ▸ le_max_left _ _) ?_ hw1 h
      rw [hS]
      rcases min_choice se.Head.Start se2.Head.Start with hm | hm <;> rw [hm]
      · simp
      · exact hdvd
    have hslot2 : ∀ {n : String} {ts : Int} {v : Value}, se2.holds n ts v →
        ∃ j : Nat, j < (mergeHead se.Head se2.Head).Count.toNat ∧
          ts = (mergeHead se.Head se2.Head).Start +
            (j : Int) * (mergeHead se.Head se2.Head).Period := by
      intro n ts v h
      obtain ⟨_, _, _, hE, _⟩ := mergeHead_spec se.Head se2.Head p hp hp1 hp2 hdvd
        (Or.inr (count_pos_of_holds se2 hw2 h))
      refine slot_of_holds se2 _ p hp hp2 hP (hS ▸ min_le_right _ _) (hE ▸ le_max_right _ _) ?_ hw2 h
      rw [hS]
      rcases min_choice se.Head.Start se2.Head.Start with hm | hm <;> rw [hm]
      · exact (dvd_sub_comm).mp hdvd
      · simp
    have hmetric : ∀ n : String, (n ∈ labels se.Meta ∨ n ∈ labels se2.Meta) →
        ∃ md, md ∈ ms ∧ md.name = n ∧ md.meta.label = some n := by
      intro n hn
      rcases merged_metric_of_label se se2 hnd1 hnd2 ms0 ms h0 h1 n with
        ⟨hn1, hn2, _⟩ | ⟨md, _, hget, hname, _, _⟩
      · exact (hn.elim hn1 hn2).elim
      · have hmem := (Metrics.get_some hget).1
        exact ⟨md, hmem, hname, hname ▸ (hinv md hmem).1⟩
    refine ⟨?_, ?_, ?_⟩
    · intro n ts v2 h2
      obtain ⟨a, mv, row, j, ha, hl, _⟩ := id h2
      obtain ⟨md, hmem, hname, hlab⟩ := hmetric n (Or.inr (mem_labels_of_getElem? ha hl))
      have hval := merged_value_at se se2 hnd1 hnd2 hne1 hne2 ms0 ms h0 h1 md hmem ts
      rw [hname] at hval
      have hx : md.data.get ts = v2 := by
        rcases hval with h | ⟨hno, _⟩ | ⟨hno, _⟩
        · exact holds_unique se2 hnd2 hne2 h h2
        · exact (hno v2 h2).elim
        · exact (hno v2 h2).elim
      exact hx ▸ holds_merged se se2 ms md n ts hmem hlab (hslot2 h2)
    · intro n ts v h1' hno2
      obtain ⟨a, mv, row, j, ha, hl, _⟩ := id h1'
      obtain ⟨md, hmem, hname, hlab⟩ := hmetric n (Or.inl (mem_labels_of_getElem? ha hl))
      have hval := merged_value_at se se2 hnd1 hnd2 hne1 hne2 ms0 ms h0 h1 md hmem ts
      rw [hname] at hval
      have hx : md.data.get ts = v := by
        rcases hval with h | ⟨_, h⟩ | ⟨_, hno, _⟩
        · exact (hno2 _ h).elim
        · exact holds_unique se hnd1 hne1 h h1'
        · exact (hno v h1').elim
      exact hx ▸ holds_merged se se2 ms md n ts hmem hlab (hslot1 h1')
    · intro n ts x y hx hy
      have hlabels : (labels (mergedEnvelope se se2 ms).Meta).Nodup := by
        show (labels (ms.map fun m => m.meta)).Nodup
        rw [labels_map_meta ms fun md hmd => (hinv md hmd).1]
        exact hnd
      have hper : (mergedEnvelope se se2 ms).Head.Period ≠ 0 := by
        show (mergeHead se.Head se2.Head).Period ≠ 0
        rw [hP]
        exact hp.ne'
      exact holds_unique (mergedEnvelope se se2 ms) hlabels hper hx hy

/-- Witness of C9: merging the frame over `[50, 70]` into the frame over `[0, 100]`. -/
theorem C9_merge_last_writer_wins_witness :
    ∃ r, frame0to100.Merge true [some (.df4 frame50to70)] = some r ∧
      (∀ name ts v2, frame50to70.holds name ts v2 → r.holds name ts v2) ∧
      (∀ name ts v, frame0to100.holds name ts v → (∀ v2, ¬ frame50to70.holds name ts v2) →
        r.holds name ts v) := by
  have h := C9_merge_last_writer_wins frame0to100 frame50to70 true 10 (by decide) (by decide)
    (by decide) (by decide) (by decide) (by decide) (by decide) (by decide) (by decide)
  obtain ⟨r, hr⟩ := h.1 (by decide) (by decide)
  exact ⟨r, hr, (h.2 r hr).1, (h.2 r hr).2.1⟩

/-- Witness of C8: merging the frame over `[50, 70]` into the frame over `[0, 100]`. -/
theorem C8_merge_frame_on_union_range_witness :
    ∃ r, frame0to100.Merge true [some (.df4 frame50to70)] = some r ∧
      r.Head.Start = min frame0to100.Head.Start frame50to70.Head.Start ∧
      r.Head.Period = 10 ∧
      r.Head.frameEnd = max frame0to100.Head.frameEnd frame50to70.Head.frameEnd ∧
      (∀ row ∈ r.Data, (row.length : Int) = r.Head.Count) := by
  have h := C8_merge_frame_on_union_range frame0to100 frame50to70 true 10 (by decide)
    (by decide) (by decide) (by decide) (by decide) (by decide) (by decide)
  obtain ⟨r, hr⟩ := h.1 (by decide) (by decide)
  obtain ⟨h1, h2, _, h4, _, h6, _⟩ := h.2 r hr
  exact ⟨r, hr, h1, h2, h4, h6⟩

/-- C10, as stated, fails: the frame `frameUnlabelled` carries a `Meta` entry without a
string label, with the row `[14, 15, 16]`; after merging a frame of equal step into it the
merged `Meta` has the two labelled entries only, and no merged row holds a value of the
unlabelled row. -/
theorem C10_counterexample_unlabelled_entry_lost :
    frame50to70.StepDuration = frameUnlabelled.StepDuration ∧
    ([("kind", Value.str "numeric")] : MetaEntry) ∈ frameUnlabelled.Meta ∧
    frameUnlabelled.Data[1]? = some [.num 14, .num 15, .num 16] ∧
    ∃ r, frameUnlabelled.Merge true [some (.df4 frame50to70)] = some r ∧
      ([("kind", Value.str "numeric")] : MetaEntry) ∉ r.Meta ∧
      (∀ mv ∈ r.Meta, mv = [("label", Value.str "a")] ∨ mv = [("label", Value.str "b")]) ∧
      r.Meta.length = 2 ∧ r.Data.length = 2 ∧
      (∀ row ∈ r.Data, Value.num 14 ∉ row ∧ Value.num 15 ∉ row ∧ Value.num 16 ∉ row) := by
  refine ⟨by decide, by decide, by decide, _, rfl, ?_⟩
  decide

theorem merged_row_at (se se2 : DF4SeriesEnvelope) (hnd1 : (labels se.Meta).Nodup)
    (hnd2 : (labels se2.Meta).Nodup) (hp1 : se.Head.Period ≠ 0) (hp2 : se2.Head.Period ≠ 0)
    (ms0 ms : Metrics) (h0 : mergeLoadBase se se.Meta 0 [] = some ms0)
    (h1 : mergeLoadOther se2 se2.Meta 0 ms0 = some ms) (md : metricData) (hmd : md ∈ ms) :
    ∃ (k : Nat) (row : List Value), (mergedEnvelope se se2 ms).Meta[k]? = some md.meta ∧
      (mergedEnvelope se se2 ms).Data[k]? = some row ∧
      isMergedRow se se2 (mergedEnvelope se se2 ms) md.name row := by
  obtain ⟨k, hk⟩ := List.mem_iff_getElem?.mp hmd
  refine ⟨k, buildRow (mergeHead se.Head se2.Head) md.data, ?_, ?_, ?_, ?_⟩
  · simp [mergedEnvelope, hk]
  · simp [mergedEnvelope, hk]
  · rw [buildRow_length]
    rfl
  · intro i x hx
    obtain ⟨_, rfl⟩ := buildRow_getElem? _ _ _ _ hx
    exact merged_value_at se se2 hnd1 hnd2 hp1 hp2 ms0 ms h0 h1 md hmd _

/-- C10, amended: merging `se2` into `se` (equal steps, non-zero periods, one `Meta` entry
per label in each input) returns whenever every `Meta` entry has its row, and in the result
`len(Data) = len(Meta)`, every `Meta` entry carries a string label, and for every entry of
`se.Meta` and of `se2.Meta` that carries a string label there is an index `k` such that
the merged `Meta[k]` is that metric's metadata (the entry of `se` when `se` carries the
label) and the merged `Data[k]` is that metric's row. -/
theorem C10_merge_keeps_labelled_metadata (se se2 : DF4SeriesEnvelope) (sort : Bool)
    (hstep : se2.StepDuration = se.StepDuration)
    (hp1 : se.Head.Period ≠ 0) (hp2 : se2.Head.Period ≠ 0)
    (hnd1 : (labels se.Meta).Nodup) (hnd2 : (labels se2.Meta).Nodup) :
    (se.Meta.length ≤ se.Data.length → se2.Meta.length ≤ se2.Data.length →
      ∃ r, se.Merge sort [some (.df4 se2)] = some r) ∧
    ∀ r, se.Merge sort [some (.df4 se2)] = some r →
      r.Data.length = r.Meta.length ∧
      (∀ mv ∈ r.Meta, ∃ name, mv.label = some name) ∧
      (∀ mv ∈ se.Meta, ∀ name, mv.label = some name →
        ∃ (k : Nat) (row : List Value), r.Meta[k]? = some mv ∧ r.Data[k]? = some row ∧
          isMergedRow se se2 r name row) ∧
      (∀ mv2 ∈ se2.Meta, ∀ name, mv2.label = some name →
        ∃ (k : Nat) (mv : MetaEntry) (row : List Value),
          r.Meta[k]? = some mv ∧ mv.label = some name ∧
          (mv ∈ se.Meta ∨ (name ∉ labels se.Meta ∧ mv = mv2)) ∧
          r.Data[k]? = some row ∧ isMergedRow se se2 r name row) := by
  constructor
  · intro hrows hrows2
    obtain ⟨ms0, h0⟩ := mergeLoadBase_total se se.Meta 0 [] (by simpa using hrows)
    obtain ⟨ms, h1⟩ := mergeLoadOther_total se2 se2.Meta 0 ms0 (by simpa using hrows2)
    refine ⟨mergedEnvelope se se2 ms, ?_⟩
    rw [merge_single_eq se se2 sort hstep, h0, Option.some_bind, h1, Option.some_bind,
      if_neg hp1]
  · intro r hr
    obtain ⟨ms0, ms, h0, h1, _, rfl⟩ := merge_single_some se se2 r sort hstep hr
    obtain ⟨hinv, hnd⟩ := merged_invariants se se2 ms0 ms h0 h1
    refine ⟨by simp [mergedEnvelope], ?_, ?_, ?_⟩
    · intro mv hmv
      simp only [mergedEnvelope, List.mem_map] at hmv
      obtain ⟨md, hmd, rfl⟩ := hmv
      exact ⟨md.name, (hinv md hmd).1⟩
    · intro mv hmv name hl
      obtain ⟨a, ha⟩ := List.mem_iff_getElem?.mp hmv
      rcases merged_metric_of_label se se2 hnd1 hnd2 ms0 ms h0 h1 name with
        ⟨hn1, _, _⟩ | ⟨md, _, hget, hname, hb, _⟩
      · exact (hn1 (mem_labels_of_getElem? ha hl)).elim
      · have hmem := (Metrics.get_some hget).1
        have hmeta : md.meta = mv := by
          rcases hb with ⟨a', mv', _, ha', hl', _, hm, _⟩ | ⟨hn1, _⟩
          · obtain rfl := labels_index_unique se.Meta hnd1 ha hl ha' hl'
            rw [hm]
            exact Option.some.inj (ha'.symm.trans ha)
          · exact (hn1 (mem_labels_of_getElem? ha hl)).elim
        obtain ⟨k, row, hk, hrow, hisrow⟩ :=
          merged_row_at se se2 hnd1 hnd2 hp1 hp2 ms0 ms h0 h1 md hmem
        exact ⟨k, row, hmeta ▸ hk, hrow, hname ▸ hisrow⟩
    · intro mv2 hmv2 name hl2
      obtain ⟨a2, ha2⟩ := List.mem_iff_getElem?.mp hmv2
      rcases merged_metric_of_label se se2 hnd1 hnd2 ms0 ms h0 h1 name with
        ⟨_, hn2, _⟩ | ⟨md, _, hget, hname, hb, _⟩
      · exact (hn2 (mem_labels_of_getElem? ha2 hl2)).elim
      · have hmem := (Metrics.get_some hget).1
        obtain ⟨k, row, hk, hrow, hisrow⟩ :=
          merged_row_at se se2 hnd1 hnd2 hp1 hp2 ms0 ms h0 h1 md hmem
        refine ⟨k, md.meta, row, hk, hname ▸ (hinv md hmem).1, ?_, hrow, hname ▸ hisrow⟩
        rcases hb with ⟨a', mv', _, ha', _, _, hm, _⟩ | ⟨hn1, _, a', ha', hl'⟩
        · exact Or.inl (hm ▸ List.getElem?_mem ha')
        · refine Or.inr ⟨hn1, ?_⟩
          obtain rfl := labels_index_unique se2.Meta hnd2 ha2 hl2 ha' hl'
          exact Option.some.inj (ha'.symm.trans ha2)

/-- Witness of C10 (amended): merging the frame over `[50, 70]` into the frame with an
unlabelled entry. -/
theorem C10_merge_keeps_labelled_metadata_witness :
    ∃ r, frameUnlabelled.Merge true [some (.df4 frame50to70)] = some r ∧
      r.Data.length = r.Meta.length ∧
      (∀ mv ∈ frameUnlabelled.Meta, ∀ name, mv.label = some name →
        ∃ (k : Nat) (row : List Value), r.Meta[k]? = some mv ∧ r.Data[k]? = some row ∧
          isMergedRow frameUnlabelled frame50to70 r name row) := by
  have h := C10_merge_keeps_labelled_metadata frameUnlabelled frame50to70 true (by decide)
    (by decide) (by decide) (by decide) (by decide)
  obtain ⟨r, hr⟩ := h.1 (by decide) (by decide)
  exact ⟨r, hr, (h.2 r hr).1, (h.2 r hr).2.2.1⟩

/-! ## Dense frames: frame end and extent end -/

theorem Time.Unix_ofUnix (s : Int) : (Time.ofUnix s).Unix = s := by
  unfold Time.ofUnix Time.Unix nanosPerSecond
  exact Int.mul_ediv_cancel s (by decide)

theorem Time.Unix_mono {t u : Time} (h : t ≤ u) : t.Unix ≤ u.Unix := by
  unfold Time.Unix nanosPerSecond
  exact Int.ediv_le_ediv (by decide) h

theorem getLast?_cons_of_getLast? {α : Type} (a : α) (l : List α) (x : α)
    (h : l.getLast? = some x) : (a :: l).getLast? = some x := by
  cases l with
  | nil => simp at h
  | cons y ys => rw [List.getLast?_cons_cons]; exact h

theorem compressFold_lastEnd (step : Int) (hstep : 0 ≤ step) (rest : List Extent) (a : Extent)
    (hvalid : ∀ x ∈ a :: rest, x.Start ≤ x.End) (M : Time)
    (hM : ∀ x ∈ a :: rest, x.End ≤ M) (hex : ∃ x ∈ a :: rest, x.End = M) :
    ∃ l, (ExtentList.compressFold step a rest).getLast? = some l ∧ l.End = M := by
  induction rest generalizing a with
  | nil =>
    obtain ⟨x, hx, hxM⟩ := hex
    simp only [List.mem_singleton] at hx
    subst hx
    exact ⟨x, rfl, hxM⟩
  | cons b rest ih =>
    have haM := hM a (List.mem_cons_self _ _)
    have hbM := hM b (List.mem_cons_of_mem _ (List.mem_cons_self _ _))
    have hav := hvalid a (List.mem_cons_self _ _)
    have hbv := hvalid b (List.mem_cons_of_mem _ (List.mem_cons_self _ _))
    unfold ExtentList.compressFold
    split_ifs with hfold
    · apply ih
      · intro x hx
        rcases List.mem_cons.mp hx with rfl | hx
        · exact le_trans hav (le_max_left _ _)
        · exact hvalid x (List.mem_cons_of_mem _ (List.mem_cons_of_mem _ hx))
      · intro x hx
        rcases List.mem_cons.mp hx with rfl | hx
        · exact max_le haM hbM
        · exact hM x (List.mem_cons_of_mem _ (List.mem_cons_of_mem _ hx))
      · obtain ⟨x, hx, hxM⟩ := hex
        rcases List.mem_cons.mp hx with rfl | hx
        · exact ⟨_, List.mem_cons_self _ _, le_antisymm (max_le haM hbM) (hxM ▸ le_max_left _ _)⟩
        · rcases List.mem_cons.mp hx with rfl | hx
          · exact ⟨_, List.mem_cons_self _ _,
              le_antisymm (max_le haM hbM) (hxM ▸ le_max_right _ _)⟩
          · exact ⟨x, List.mem_cons_of_mem _ hx, hxM⟩
    · have hgt : a.End < b.End := by
        have h1 : a.End + step < b.Start := not_le.mp hfold
        have h2 : a.End ≤ a.End + step := le_add_of_nonneg_right hstep
        exact lt_of_le_of_lt h2 (lt_of_lt_of_le h1 hbv)
      obtain ⟨l, hl, hlM⟩ := ih b
        (fun x hx => hvalid x (List.mem_cons_of_mem _ hx))
        (fun x hx => hM x (List.mem_cons_of_mem _ hx))
        (by
          obtain ⟨x, hx, hxM⟩ := hex
          rcases List.mem_cons.mp hx with rfl | hx
          · exact absurd (hxM ▸ hbM) (not_le.mpr hgt)
          · exact ⟨x, hx, hxM⟩)
      exact ⟨l, getLast?_cons_of_getLast? _ _ _ hl, hlM⟩

theorem compress_lastEnd (el : ExtentList) (step : Int) (hstep : 0 ≤ step)
    (hvalid : ∀ x ∈ el, x.Start ≤ x.End) (M : Time)
    (hM : ∀ x ∈ el, x.End ≤ M) (hex : ∃ x ∈ el, x.End = M) :
    ∃ l, (el.Compress step).getLast? = some l ∧ l.End = M := by
  have hperm := List.perm_insertionSort (fun a b : Extent => a.Start ≤ b.Start) el
  unfold ExtentList.Compress
  cases hs : el.insertionSort (fun a b => a.Start ≤ b.Start) with
  | nil =>
    obtain ⟨x, hx, _⟩ := hex
    rw [hs] at hperm
    exact absurd (hperm.symm.mem_iff.mp hx) (List.not_mem_nil _)
  | cons a rest =>
    rw [hs] at hperm
    exact compressFold_lastEnd step hstep rest a
      (fun x hx => hvalid x (hperm.mem_iff.mp hx)) M
      (fun x hx => hM x (hperm.mem_iff.mp hx))
      (by
        obtain ⟨x, hx, hxM⟩ := hex
        exact ⟨x, hperm.symm.mem_iff.mp hx, hxM⟩)

theorem sliceAll_total (rc : Int) (data : List (List Value)) (h0 : 0 ≤ rc)
    (h : ∀ row ∈ data, rc ≤ row.length) : ∃ newData, sliceAll rc data = some newData := by
  induction data with
  | nil => exact ⟨[], rfl⟩
  | cons row rest ih =>
    obtain ⟨nd, hnd⟩ := ih fun r hr => h r (List.mem_cons_of_mem _ hr)
    have hrow := h row (List.mem_cons_self _ _)
    exact ⟨row.drop rc.toNat :: nd, by simp [sliceAll, sliceFrom, h0, hrow, hnd]⟩

/-- C4, amended: let the frame end `Head.Start + (Head.Count - 1) * Head.Period` of `se`
equal the Unix end of the last extent of its list.  The equality holds again (1) after
`se.Merge(sort, se2)` for frames of equal step `≥ 0` and period `p > 0`, with starts
congruent modulo `p`, `Count ≥ 1` and a row for every `Meta` entry, whose extents satisfy
`Start ≤ End` and whose last extent ends latest, the equality holding for `se2` too; and
(2) after `se.CropToSize(sz, t, lur)` with `sz ≥ 0` and rows of `Head.Count` slots, when the
last extent does not end after `t`.  In both cases the call returns and the extent list is
non-empty. -/
theorem C4_frame_end_matches_last_extent (se : DF4SeriesEnvelope) (l1 : Extent)
    (hlast : se.ExtentList.getLast? = some l1) (heq : l1.End.Unix = se.Head.frameEnd) :
    (∀ (se2 : DF4SeriesEnvelope) (sort : Bool) (p : Int) (l2 : Extent),
      se2.StepDuration = se.StepDuration → 0 ≤ se.StepDuration → 0 < p →
      se.Head.Period = p → se2.Head.Period = p →
      (se.Head.Start - se2.Head.Start) % p = 0 →
      1 ≤ se.Head.Count → 1 ≤ se2.Head.Count →
      se.Meta.length ≤ se.Data.length → se2.Meta.length ≤ se2.Data.length →
      se2.ExtentList.getLast? = some l2 → l2.End.Unix = se2.Head.frameEnd →
      (∀ x ∈ se.ExtentList, x.Start ≤ x.End ∧ x.End ≤ l1.End) →
      (∀ x ∈ se2.ExtentList, x.Start ≤ x.End ∧ x.End ≤ l2.End) →
      ∃ r, se.Merge sort [some (.df4 se2)] = some r ∧
        r.ExtentList.lastEndUnix = some r.Head.frameEnd) ∧
    (∀ (sz : Int) (t : Time) (lur : Extent),
      0 ≤ sz → (∀ row ∈ se.Data, (row.length : Int) = se.Head.Count) →
      ¬ Time.After l1.End t →
      ∃ r, se.CropToSize sz t lur = some r ∧
        r.ExtentList.lastEndUnix = some r.Head.frameEnd) := by
  constructor
  · intro se2 sort p l2 hstep hstep0 hp hp1 hp2 hal hc1 hc2 hrows hrows2 hlast2 heq2 hv1 hv2
    have hdvd : p ∣ se.Head.Start - se2.Head.Start := Int.dvd_of_emod_eq_zero hal
    obtain ⟨_, _, _, hE, _⟩ := mergeHead_spec se.Head se2.Head p hp hp1 hp2 hdvd (Or.inl hc1)
    obtain ⟨ms0, h0⟩ := mergeLoadBase_total se se.Meta 0 [] (by simpa using hrows)
    obtain ⟨ms, h1⟩ := mergeLoadOther_total se2 se2.Meta 0 ms0 (by simpa using hrows2)
    refine ⟨mergedEnvelope se se2 ms, ?_, ?_⟩
    · rw [merge_single_eq se se2 sort hstep, h0, Option.some_bind, h1, Option.some_bind,
        if_neg (by rw [hp1]; exact hp.ne')]
    · have hl1 : l1 ∈ se.ExtentList := List.mem_of_mem_getLast? (Option.mem_def.mpr hlast)
      have hl2 : l2 ∈ se2.ExtentList := List.mem_of_mem_getLast? (Option.mem_def.mpr hlast2)
      obtain ⟨l, hl, hlM⟩ := compress_lastEnd (se.ExtentList ++ se2.ExtentList)
        se.StepDuration hstep0
        (fun x hx => (List.mem_append.mp hx).elim (fun h => (hv1 x h).1) (fun h => (hv2 x h).1))
        (max l1.End l2.End)
        (fun x hx => (List.mem_append.mp hx).elim
          (fun h => le_trans (hv1 x h).2 (le_max_left _ _))
          (fun h => le_trans (hv2 x h).2 (le_max_right _ _)))
        (by
          rcases max_choice l1.End l2.End with hm | hm
          · exact ⟨l1, List.mem_append_left _ hl1, hm.symm⟩
          · exact ⟨l2, List.mem_append_right _ hl2, hm.symm⟩)
      show ((se.ExtentList ++ se2.ExtentList).Compress se.StepDuration).lastEndUnix =
        some (mergeHead se.Head se2.Head).frameEnd
      rw [ExtentList.lastEndUnix, hl, Option.map_some', hlM, hE, ← heq, ← heq2]
      congr 1
      rcases le_total l1.End l2.End with hle | hle
      · rw [max_eq_right hle, max_eq_right (Time.Unix_mono hle)]
      · rw [max_eq_left hle, max_eq_left (Time.Unix_mono hle)]
  · intro sz t lur hsz hrows hafter
    obtain ⟨first, hfirst⟩ : ∃ first, se.ExtentList.head? = some first := by
      cases hel : se.ExtentList with
      | nil => rw [hel] at hlast; cases hlast
      | cons x xs => exact ⟨x, rfl⟩
    unfold DF4SeriesEnvelope.CropToSize
    simp only [hlast, hfirst, if_neg hafter]
    by_cases hkeep : se.Data.length = 0 ∨ se.TimestampCount ≤ sz
    · refine ⟨se, by rw [if_pos hkeep], ?_⟩
      rw [ExtentList.lastEndUnix, hlast, Option.map_some', heq]
    · rw [if_neg hkeep]
      have hlt : sz < se.Head.Count := by
        have := (not_or.mp hkeep).2
        simpa [DF4SeriesEnvelope.TimestampCount] using this
      obtain ⟨newData, hnew⟩ := sliceAll_total (se.TimestampCount - sz) se.Data
        (by simp only [DF4SeriesEnvelope.TimestampCount]; omega)
        (fun row hrow => by
          have := hrows row hrow
          simp only [DF4SeriesEnvelope.TimestampCount]
          omega)
      simp only [hnew]
      refine ⟨_, rfl, ?_⟩
      simp [ExtentList.lastEndUnix, Time.Unix_ofUnix]

/-- Witness of C4 (amended): the frame over `[0, 100]`, merged with the frame over
`[50, 70]` and cropped to three timestamps. -/
theorem C4_frame_end_matches_last_extent_witness :
    (∃ r, frame0to100.Merge true [some (.df4 frame50to70)] = some r ∧
      r.ExtentList.lastEndUnix = some r.Head.frameEnd) ∧
    (∃ r, frame0to100.CropToSize 3 (Time.ofUnix 200) { Start := 0, End := 0 } = some r ∧
      r.ExtentList.lastEndUnix = some r.Head.frameEnd) := by
  have h := C4_frame_end_matches_last_extent frame0to100
    { Start := Time.ofUnix 0, End := Time.ofUnix 100 } (by decide) (by decide)
  exact ⟨h.1 frame50to70 true 10 { Start := Time.ofUnix 50, End := Time.ofUnix 70 }
      (by decide) (by decide) (by decide) (by decide) (by decide) (by decide) (by decide)
      (by decide) (by decide) (by decide) (by decide) (by decide) (by decide) (by decide),
    h.2 3 (Time.ofUnix 200) { Start := 0, End := 0 } (by decide) (by decide) (by decide)⟩

/-! ## Sparse envelopes: `CropToSize` -/

theorem mem_insertKey {ts : List Int} {k x : Int} : x ∈ insertKey ts k ↔ x ∈ ts ∨ x = k := by
  unfold insertKey
  split_ifs with h
  · constructor
    · exact Or.inl
    · rintro (h1 | rfl)
      · exact h1
      · exact h
  · simp

theorem nodup_insertKey {ts : List Int} (k : Int) (h : ts.Nodup) : (insertKey ts k).Nodup := by
  unfold insertKey
  split_ifs with hk
  · exact h
  · exact List.Nodup.append h (List.nodup_singleton _) (by simpa using hk)

theorem timestampFold_spec (dps : DataPoints) (acc : List Int) (hacc : acc.Nodup) :
    (dps.foldl (fun ts dp => insertKey ts dp.Time.Unix) acc).Nodup ∧
    ∀ x, x ∈ dps.foldl (fun ts dp => insertKey ts dp.Time.Unix) acc ↔
      x ∈ acc ∨ ∃ dp ∈ dps, dp.Time.Unix = x := by
  induction dps generalizing acc with
  | nil => simpa using hacc
  | cons dp rest ih =>
    obtain ⟨h1, h2⟩ := ih (insertKey acc dp.Time.Unix) (nodup_insertKey _ hacc)
    refine ⟨h1, fun x => ?_⟩
    rw [List.foldl_cons, h2, mem_insertKey]
    constructor
    · rintro ((h | rfl) | ⟨d, hd, rfl⟩)
      · exact Or.inl h
      · exact Or.inr ⟨dp, List.mem_cons_self _ _, rfl⟩
      · exact Or.inr ⟨d, List.mem_cons_of_mem _ hd, rfl⟩
    · rintro (h | ⟨d, hd, rfl⟩)
      · exact Or.inl (Or.inl h)
      · rcases List.mem_cons.mp hd with rfl | hd
        · exact Or.inl (Or.inr rfl)
        · exact Or.inr ⟨d, hd, rfl⟩

theorem nodup_timestampSet (dps : DataPoints) : (timestampSet dps).Nodup :=
  (timestampFold_spec dps [] List.nodup_nil).1

theorem mem_timestampSet (dps : DataPoints) (x : Int) :
    x ∈ timestampSet dps ↔ ∃ dp ∈ dps, dp.Time.Unix = x := by
  have := (timestampFold_spec dps [] List.nodup_nil).2 x
  simpa [timestampSet] using this

theorem timestampSet_perm_dedup (dps : DataPoints) :
    (timestampSet dps).Perm (dps.map fun dp => dp.Time.Unix).dedup := by
  rw [List.perm_ext_iff_of_nodup (nodup_timestampSet dps) (List.nodup_dedup _)]
  intro x
  rw [mem_timestampSet, List.mem_dedup, List.mem_map]

theorem retainLoop_fst (tsm : List Int) (dps : DataPoints) (acc : DataPoints × Int × Int) :
    (retainLoop tsm dps acc).1 = acc.1 ++ dps.filter fun dp => decide (dp.Time.Unix ∈ tsm) := by
  induction dps generalizing acc with
  | nil => simp [retainLoop]
  | cons dp rest ih =>
    obtain ⟨newData, mn, mx⟩ := acc
    by_cases h : dp.Time.Unix ∈ tsm
    · simp [retainLoop, h, ih, List.filter_cons]
    · simp [retainLoop, h, ih, List.filter_cons]

theorem mem_drop_sorted_iff (l : List Int) (hs : l.Sorted (fun a b => a < b)) (k : Nat)
    (x : Int) (hx : x ∈ l) :
    x ∈ l.drop k ↔ (l.filter fun u => decide (x < u)).length < l.length - k := by
  have hsplit : l.take k ++ l.drop k = l := List.take_append_drop k l
  have hpw : (l.take k ++ l.drop k).Pairwise (fun a b => a < b) := by rw [hsplit]; exact hs
  obtain ⟨_, _, hcross⟩ := List.pairwise_append.mp hpw
  have hlen : (l.drop k).length = l.length - k := List.length_drop k l
  have hfil : (l.filter fun u => decide (x < u)).length =
      ((l.take k).filter fun u => decide (x < u)).length +
        ((l.drop k).filter fun u => decide (x < u)).length := by
    conv_lhs => rw [← hsplit]
    rw [List.filter_append, List.length_append]
  constructor
  · intro hmem
    have h1 : (l.take k).filter (fun u => decide (x < u)) = [] := by
      rw [List.filter_eq_nil_iff]
      intro y hy
      have := hcross y hy x hmem
      simpa using this.le
    have h2 : ((l.drop k).filter fun u => decide (x < u)).length < (l.drop k).length := by
      rw [List.length_filter_lt_length_iff_exists]
      exact ⟨x, hmem, by simp⟩
    rw [hfil, h1, List.length_nil, Nat.zero_add, ← hlen]
    exact h2
  · intro hlt
    by_contra hmem
    have hxa : x ∈ l.take k := by
      have : x ∈ l.take k ++ l.drop k := by rw [hsplit]; exact hx
      rcases List.mem_append.mp this with h | h
      · exact h
      · exact absurd h hmem
    have h2 : (l.drop k).filter (fun u => decide (x < u)) = l.drop k := by
      rw [List.filter_eq_self]
      intro y hy
      simpa using hcross x hxa y hy
    rw [hfil, h2, hlen] at hlt
    omega

theorem sortedSeconds_spec (dps : DataPoints) :
    ((timestampSet dps).insertionSort fun a b => a ≤ b).Sorted (fun a b => a < b) ∧
    ((timestampSet dps).insertionSort fun a b => a ≤ b).Perm
      (dps.map fun dp => dp.Time.Unix).dedup ∧
    ((timestampSet dps).insertionSort fun a b => a ≤ b).length = distinctSeconds dps := by
  have hperm := List.perm_insertionSort (fun a b : Int => a ≤ b) (timestampSet dps)
  have hsorted := List.sorted_insertionSort (fun a b : Int => a ≤ b) (timestampSet dps)
  have hnd : ((timestampSet dps).insertionSort fun a b => a ≤ b).Nodup :=
    hperm.nodup_iff.mpr (nodup_timestampSet dps)
  have hp2 := hperm.trans (timestampSet_perm_dedup dps)
  exact ⟨List.Sorted.lt_of_le hsorted hnd, hp2, hp2.length_eq⟩

/-- C11: for a `SeriesEnvelope` with a non-empty extent list and `n ≥ 0`,
`CropToSize(n, t, lur)` returns.  With `c` the number of distinct Unix-second timestamps of
the samples after the backfill crop: if `c > n`, the result keeps exactly the samples with
fewer than `n` distinct newer timestamps (those carrying one of the `n` newest distinct
timestamps) and drops the others (those carrying the `c - n` oldest), so that
`TimestampCount() = n`; if `c ≤ n` no sample is removed. -/
theorem C11_cropToSize_keeps_newest (se : SeriesEnvelope) (n : Int) (t : Time) (lur : Extent)
    (now : Time) (hn : 0 ≤ n) (hne : se.ExtentList ≠ []) :
    ∃ r, se.CropToSize n t lur now = some r ∧
      (n < distinctSeconds (se.backfillCrop t).Data →
        r.Data.Perm
          ((se.backfillCrop t).Data.filter fun dp =>
            decide ((newerSeconds (se.backfillCrop t).Data dp.Time.Unix : Int) < n)) ∧
        (r.TimestampCount : Int) = n) ∧
      (distinctSeconds (se.backfillCrop t).Data ≤ n → r.Data = (se.backfillCrop t).Data) := by
  have hlen1 : ¬ se.ExtentList.length < 1 := by
    cases hel : se.ExtentList with
    | nil => exact absurd hel hne
    | cons x xs => simp
  unfold SeriesEnvelope.CropToSize
  rw [if_neg hlen1]
  generalize se.backfillCrop t = cropped
  obtain ⟨hsorted, hperm, hlen⟩ := sortedSeconds_spec cropped.Data
  have htslen : (timestampSet cropped.Data).length = distinctSeconds cropped.Data :=
    (timestampSet_perm_dedup cropped.Data).length_eq
  simp only []
  by_cases hkeep : cropped.Data.length = 0 ∨ ((timestampSet cropped.Data).length : Int) ≤ n
  · rw [if_pos hkeep]
    refine ⟨cropped, rfl, fun hlt => ?_, fun _ => rfl⟩
    exfalso
    rcases hkeep with h0 | hle
    · have : cropped.Data = [] := List.length_eq_zero.mp h0
      rw [this] at hlt
      simp [distinctSeconds] at hlt
      omega
    · rw [htslen] at hle
      omega
  · rw [if_neg hkeep]
    obtain ⟨_, hgt⟩ := not_or.mp hkeep
    rw [htslen] at hgt
    have hrc : ((timestampSet cropped.Data).length : Int) - n ≤
        (((timestampSet cropped.Data).insertionSort fun a b => a ≤ b).length : Nat) := by
      rw [hlen, htslen]
      omega
    rw [if_pos hrc]
    refine ⟨_, rfl, fun _ => ⟨?_, ?_⟩, fun hle => ?_⟩
    · simp only [SeriesEnvelope.Sort, retainLoop_fst, List.nil_append]
      refine (List.perm_insertionSort _ _).trans (List.Perm.of_eq ?_)
      apply List.filter_congr
      intro dp hdp
      have hmem : dp.Time.Unix ∈ (timestampSet cropped.Data).insertionSort fun a b => a ≤ b :=
        (List.perm_insertionSort _ _).mem_iff.mpr
          ((mem_timestampSet _ _).mpr ⟨dp, hdp, rfl⟩)
      rw [decide_eq_decide, mem_drop_sorted_iff _ hsorted _ _ hmem, hlen, htslen,
        (hperm.filter _).length_eq]
      simp only [newerSeconds]
      omega
    · simp only [SeriesEnvelope.TimestampCount, SeriesEnvelope.Sort, retainLoop_fst,
        List.nil_append]
      have hp : (timestampSet (List.insertionSort DataPoints.notAfter
          (cropped.Data.filter fun dp => decide (dp.Time.Unix ∈
            List.drop ((timestampSet cropped.Data).length - n : Int).toNat
              ((timestampSet cropped.Data).insertionSort fun a b => a ≤ b))))).Perm
          (List.drop ((timestampSet cropped.Data).length - n : Int).toNat
            ((timestampSet cropped.Data).insertionSort fun a b => a ≤ b)) := by
        rw [List.perm_ext_iff_of_nodup (nodup_timestampSet _)
          ((List.drop_sublist _ _).nodup hsorted.nodup)]
        intro x
        rw [mem_timestampSet]
        constructor
        · rintro ⟨dp, hdp, rfl⟩
          have := (List.perm_insertionSort _ _).mem_iff.mp hdp
          simpa using (List.mem_filter.mp this).2
        · intro hx
          have hx' := (List.perm_insertionSort _ _).mem_iff.mp (List.mem_of_mem_drop hx)
          obtain ⟨dp, hdp, rfl⟩ := (mem_timestampSet _ _).mp hx'
          exact ⟨dp, (List.perm_insertionSort _ _).mem_iff.mpr
            (List.mem_filter.mpr ⟨hdp, by simpa using hx⟩), rfl⟩
      rw [hp.length_eq, List.length_drop, hlen, htslen]
      omega
    · omega

/-- Witness of C11: the envelope with four samples on three distinct seconds, cropped to
two timestamps. -/
theorem C11_cropToSize_keeps_newest_witness :
    ∃ r, sparse100to300.CropToSize 2 (Time.ofUnix 400) Extent.zero (Time.ofUnix 1000) = some r ∧
      (r.TimestampCount : Int) = 2 := by
  obtain ⟨r, hr, h1, _⟩ := C11_cropToSize_keeps_newest sparse100to300 2 (Time.ofUnix 400)
    Extent.zero (Time.ofUnix 1000) (by decide) (by decide)
  exact ⟨r, hr, (h1 (by decide)).2⟩

/-- C12, the code at two wall clocks: the envelope holds samples on the seconds 100, 200
and 300; `CropToSize(2, 400 s, lur)` removes the second 100 and retains 200 and 300.  Called
when the wall clock reads 1000 s the extent list becomes `[200 s, 300 s]`; called when it
reads 50 s the extent list becomes `[50 s, 300 s]`, whose start is the wall clock and not
the smallest retained timestamp. -/
theorem C12_cropToSize_extent_follows_wall_clock :
    sparse100to300.CropToSize 2 (Time.ofUnix 400) Extent.zero (Time.ofUnix 1000) =
      some { Data := [{ Time := Time.ofUnix 200, Step := 0, Value := .num 2 },
                      { Time := Time.ofUnix 300, Step := 0, Value := .num 3 },
                      { Time := Time.ofUnix 300 + 5, Step := 0, Value := .num 4 }]
             ExtentList := [{ Start := Time.ofUnix 200, End := Time.ofUnix 300 }]
             StepDuration := 100 * nanosPerSecond } ∧
    sparse100to300.CropToSize 2 (Time.ofUnix 400) Extent.zero (Time.ofUnix 50) =
      some { Data := [{ Time := Time.ofUnix 200, Step := 0, Value := .num 2 },
                      { Time := Time.ofUnix 300, Step := 0, Value := .num 3 },
                      { Time := Time.ofUnix 300 + 5, Step := 0, Value := .num 4 }]
             ExtentList := [{ Start := Time.ofUnix 50, End := Time.ofUnix 300 }]
             StepDuration := 100 * nanosPerSecond } := by
  decide

/-- C13, the code at two inputs.  `CropToSize` crops to `t` only when the last extent ends
after `t`.  The envelope with a sample at 100 s and the extent `[0 s, 50 s]` keeps that
sample under `CropToSize(5, 60 s, lur)`, although it is newer than `t = 60 s`.  The same
happens on an envelope that `CropToSize` itself produces: `CropToSize(2, 400 s, lur)` on
the samples at 300 s, 100 s, 200 s and 300.000000005 s writes the extent `[200 s, 300 s]`
and keeps the sample at 300.000000005 s; a following `CropToSize(5, 300 s, lur)` returns
that envelope unchanged, with its sample newer than `t = 300 s`. -/
theorem C13_cropToSize_keeps_sample_after_t :
    (∃ r, sparseBeyondExtent.CropToSize 5 (Time.ofUnix 60) Extent.zero (Time.ofUnix 1000) =
        some r ∧
      r.Data = [{ Time := Time.ofUnix 100, Step := 0, Value := .num 1 }] ∧
      ∃ dp ∈ r.Data, Time.After dp.Time (Time.ofUnix 60)) ∧
    (∃ r1 r, sparse100to300.CropToSize 2 (Time.ofUnix 400) Extent.zero (Time.ofUnix 1000) =
        some r1 ∧
      r1.ExtentList = [{ Start := Time.ofUnix 200, End := Time.ofUnix 300 }] ∧
      r1.CropToSize 5 (Time.ofUnix 300) Extent.zero (Time.ofUnix 1000) = some r ∧
      r = r1 ∧
      { Time := Time.ofUnix 300 + 5, Step := 0, Value := .num 4 } ∈ r.Data ∧
      ∃ dp ∈ r.Data, Time.After dp.Time (Time.ofUnix 300)) := by
  refine ⟨⟨_, rfl, by decide, by decide⟩, ?_⟩
  have h1 : sparse100to300.CropToSize 2 (Time.ofUnix 400) Extent.zero (Time.ofUnix 1000) =
      some { Data := [{ Time := Time.ofUnix 200, Step := 0, Value := .num 2 },
                      { Time := Time.ofUnix 300, Step := 0, Value := .num 3 },
                      { Time := Time.ofUnix 300 + 5, Step := 0, Value := .num 4 }]
             ExtentList := [{ Start := Time.ofUnix 200, End := Time.ofUnix 300 }]
             StepDuration := 100 * nanosPerSecond } := by
    decide
  exact ⟨_, _, h1, rfl, by decide, rfl, by decide, by decide⟩

theorem mem_cropToRange_data {se : SeriesEnvelope} {e : Extent} {dp : DataPoint}
    (h : dp ∈ (se.CropToRange e).Data) : dp ∈ se.Data ∧ e.Start ≤ dp.Time ∧ dp.Time ≤ e.End := by
  unfold SeriesEnvelope.CropToRange at h
  simp only [cropFold_eq_filter, List.nil_append] at h
  obtain ⟨hmem, hp⟩ := List.mem_filter.mp h
  simp only [Time.After, Time.Equal, Time.Before, decide_eq_true_eq] at hp
  exact ⟨hmem, hp.1.elim le_of_lt (fun h => le_of_eq h.symm), hp.2.elim le_of_lt le_of_eq⟩

theorem cropToSize_subset (se : SeriesEnvelope) (sz : Int) (t : Time) (lur : Extent)
    (now : Time) (hsz : 0 ≤ sz) (hne : se.ExtentList ≠ []) :
    ∃ r, se.CropToSize sz t lur now = some r ∧ ∀ dp ∈ r.Data, dp ∈ (se.backfillCrop t).Data := by
  have hlen1 : ¬ se.ExtentList.length < 1 := by
    cases hel : se.ExtentList with
    | nil => exact absurd hel hne
    | cons x xs => simp
  unfold SeriesEnvelope.CropToSize
  rw [if_neg hlen1]
  generalize se.backfillCrop t = cropped
  simp only []
  by_cases hkeep : cropped.Data.length = 0 ∨ ((timestampSet cropped.Data).length : Int) ≤ sz
  · rw [if_pos hkeep]
    exact ⟨cropped, rfl, fun dp hdp => hdp⟩
  · rw [if_neg hkeep]
    have hrc : ((timestampSet cropped.Data).length : Int) - sz ≤
        (((timestampSet cropped.Data).insertionSort fun a b => a ≤ b).length : Nat) := by
      rw [List.length_insertionSort]
      omega
    rw [if_pos hrc]
    refine ⟨_, rfl, fun dp hdp => ?_⟩
    simp only [SeriesEnvelope.Sort, retainLoop_fst, List.nil_append] at hdp
    exact (List.mem_filter.mp ((List.perm_insertionSort _ _).mem_iff.mp hdp)).1

/-- Where the removal of the samples newer than `t` does work: for a `SeriesEnvelope` none
of whose samples is later than the end of its last extent, and `sz ≥ 0`,
`CropToSize(sz, t, lur)` returns and no remaining sample has a timestamp after `t`. -/
theorem cropToSize_no_sample_after_t (se : SeriesEnvelope) (sz : Int) (t : Time)
    (lur : Extent) (now : Time) (hsz : 0 ≤ sz)
    (hwithin : ∀ last, se.ExtentList.getLast? = some last → ∀ dp ∈ se.Data, dp.Time ≤ last.End) :
    ∃ r, se.CropToSize sz t lur now = some r ∧ ∀ dp ∈ r.Data, ¬ Time.After dp.Time t := by
  by_cases hne : se.ExtentList = []
  · refine ⟨{ se with Data := [], ExtentList := [] }, ?_, fun dp hdp => by cases hdp⟩
    unfold SeriesEnvelope.CropToSize
    rw [if_pos (by simp [hne])]
  · obtain ⟨r, hr, hsub⟩ := cropToSize_subset se sz t lur now hsz hne
    refine ⟨r, hr, fun dp hdp => ?_⟩
    have hmem := hsub dp hdp
    show ¬ t < dp.Time
    rw [not_lt]
    unfold SeriesEnvelope.backfillCrop at hmem
    cases hlast : se.ExtentList.getLast? with
    | none => exact absurd (List.getLast?_eq_none_iff.mp hlast) hne
    | some last =>
      cases hfirst : se.ExtentList.head? with
      | none =>
        rw [hlast, hfirst] at hmem
        exact absurd (List.head?_eq_none_iff.mp hfirst) hne
      | some first =>
        rw [hlast, hfirst] at hmem
        by_cases hafter : Time.After last.End t
        · simp only [if_pos hafter] at hmem
          exact (mem_cropToRange_data hmem).2.2
        · simp only [if_neg hafter] at hmem
          exact le_trans (hwithin last hlast dp hmem) (not_lt.mp hafter)

/-- An instance of `cropToSize_no_sample_after_t`: the envelope over `[100 s, 301 s]`
cropped at `t = 250 s`. -/
theorem cropToSize_no_sample_after_t_example :
    ∃ r, sparse100to300.CropToSize 1 (Time.ofUnix 250) Extent.zero (Time.ofUnix 1000) = some r ∧
      ∀ dp ∈ r.Data, ¬ Time.After dp.Time (Time.ofUnix 250) := by
  exact cropToSize_no_sample_after_t sparse100to300 1 (Time.ofUnix 250) Extent.zero
    (Time.ofUnix 1000) (by decide) (by
      intro last hlast
      have : last = { Start := Time.ofUnix 100, End := Time.ofUnix 301 } := by
        simpa [sparse100to300] using hlast.symm
      subst this
      decide)

/-- C14, the code at `sz = 0`: `SeriesEnvelope.CropToSize(0, 400 s, lur)` called when the
wall clock reads 1000 s removes every sample and writes the extent `[1000 s, 0 s]`;
`DF4SeriesEnvelope.CropToSize(0, 200 s, lur)` on the frame over `[0, 100]` writes the
extent `[110 s, 100 s]`.  Both have `Start > End`. -/
theorem C14_cropToSize_zero_writes_inverted_extent :
    (∃ r, sparse100to300.CropToSize 0 (Time.ofUnix 400) Extent.zero (Time.ofUnix 1000) = some r ∧
      r.Data = [] ∧
      r.ExtentList = [{ Start := Time.ofUnix 1000, End := Time.ofUnix 0 }] ∧
      ∃ x ∈ r.ExtentList, ¬ x.Start ≤ x.End) ∧
    (∃ r, frame0to100.CropToSize 0 (Time.ofUnix 200) Extent.zero = some r ∧
      r.Head = { Count := 0, Start := 110, Period := 10 } ∧
      r.ExtentList = [{ Start := Time.ofUnix 110, End := Time.ofUnix 100 }] ∧
      ∃ x ∈ r.ExtentList, ¬ x.Start ≤ x.End) := by
  refine ⟨⟨_, rfl, ?_⟩, ⟨_, rfl, ?_⟩⟩
  · decide
  · decide

/-- C15, as stated, fails: the frame `frameNoRows` has a non-empty extent list ending at
40 s, before `t = 100 s`, and no row (so every row has `Head.Count = 5` slots); with
`sz = 2 < 5`, `CropToSize` returns it unchanged: `Head.Start` has not advanced and
`TimestampCount()` is still 5. -/
theorem C15_counterexample_no_rows_unchanged :
    frameNoRows.ExtentList.lastEndUnix = some 40 ∧
    (∀ row ∈ frameNoRows.Data, (row.length : Int) = frameNoRows.Head.Count) ∧
    frameNoRows.CropToSize 2 (Time.ofUnix 100) Extent.zero = some frameNoRows ∧
    frameNoRows.TimestampCount = 5 ∧
    frameNoRows.Head.Start ≠
      frameNoRows.Head.Start + (frameNoRows.Head.Count - 2) * frameNoRows.Head.Period := by
  decide

theorem sliceAll_eq_map_drop (rc : Int) (data : List (List Value)) (h0 : 0 ≤ rc)
    (h : ∀ row ∈ data, rc ≤ row.length) :
    sliceAll rc data = some (data.map fun row => row.drop rc.toNat) := by
  induction data with
  | nil => rfl
  | cons row rest ih =>
    have hrow := h row (List.mem_cons_self _ _)
    simp [sliceAll, sliceFrom, h0, hrow, ih fun r hr => h r (List.mem_cons_of_mem _ hr)]

/-- C15, amended: for a `DF4SeriesEnvelope` with at least one data row, rows that all have
`Head.Count` slots and a non-empty extent list whose last extent does not end after `t`:
after `CropToSize(sz, t, lur)` with `0 ≤ sz < Head.Count` every row has lost exactly its
first `Head.Count - sz` slots and keeps the rest in order, `Head.Start` has advanced by
`(Head.Count - sz) * Head.Period` and `TimestampCount() = sz`; with `sz ≥ Head.Count` the
envelope is unchanged. -/
theorem C15_cropToSize_drops_oldest_slots (se : DF4SeriesEnvelope) (sz : Int) (t : Time)
    (lur : Extent) (last : Extent) (hlast : se.ExtentList.getLast? = some last)
    (hend : ¬ Time.After last.End t)
    (hrows : ∀ row ∈ se.Data, (row.length : Int) = se.Head.Count)
    (hdata : se.Data ≠ []) :
    (0 ≤ sz → sz < se.Head.Count →
      ∃ r, se.CropToSize sz t lur = some r ∧
        r.Data = se.Data.map (fun row => row.drop (se.Head.Count - sz).toNat) ∧
        (∀ row ∈ r.Data, (row.length : Int) = sz) ∧
        r.Meta = se.Meta ∧
        r.Head.Start = se.Head.Start + (se.Head.Count - sz) * se.Head.Period ∧
        r.Head.Period = se.Head.Period ∧
        r.TimestampCount = sz) ∧
    (se.Head.Count ≤ sz → se.CropToSize sz t lur = some se) := by
  obtain ⟨first, hfirst⟩ : ∃ first, se.ExtentList.head? = some first := by
    cases hel : se.ExtentList with
    | nil => rw [hel] at hlast; cases hlast
    | cons x xs => exact ⟨x, rfl⟩
  have hlen : se.Data.length ≠ 0 := fun h => hdata (List.length_eq_zero.mp h)
  constructor
  · intro h0 hlt
    unfold DF4SeriesEnvelope.CropToSize
    simp only [hlast, hfirst, if_neg hend]
    have hkeep : ¬ (se.Data.length = 0 ∨ se.TimestampCount ≤ sz) := by
      simp only [DF4SeriesEnvelope.TimestampCount]
      exact not_or.mpr ⟨hlen, not_le.mpr hlt⟩
    rw [if_neg hkeep]
    have hslice := sliceAll_eq_map_drop (se.TimestampCount - sz) se.Data
      (by simp only [DF4SeriesEnvelope.TimestampCount]; omega)
      (fun row hrow => by
        have := hrows row hrow
        simp only [DF4SeriesEnvelope.TimestampCount]
        omega)
    simp only [hslice]
    refine ⟨_, rfl, rfl, ?_, rfl, rfl, rfl, ?_⟩
    · intro row hrow
      simp only [List.mem_map] at hrow
      obtain ⟨row0, hrow0, rfl⟩ := hrow
      have := hrows row0 hrow0
      simp only [List.length_drop, DF4SeriesEnvelope.TimestampCount]
      omega
    · simp only [DF4SeriesEnvelope.TimestampCount]
      omega
  · intro hge
    unfold DF4SeriesEnvelope.CropToSize
    simp only [hlast, hfirst, if_neg hend]
    rw [if_pos (Or.inr (by simpa [DF4SeriesEnvelope.TimestampCount] using hge))]

/-- Witness of C15 (amended): the frame over `[0, 100]` cropped to three timestamps. -/
theorem C15_cropToSize_drops_oldest_slots_witness :
    (∃ r, frame0to100.CropToSize 3 (Time.ofUnix 200) Extent.zero = some r ∧
      r.Data = [[.num 8, .num 9, .num 10]] ∧ r.Head.Start = 80 ∧ r.TimestampCount = 3) ∧
    frame0to100.CropToSize 11 (Time.ofUnix 200) Extent.zero = some frame0to100 := by
  have h := C15_cropToSize_drops_oldest_slots frame0to100 3 (Time.ofUnix 200) Extent.zero
    { Start := Time.ofUnix 0, End := Time.ofUnix 100 } (by decide) (by decide) (by decide)
    (by decide)
  have h' := C15_cropToSize_drops_oldest_slots frame0to100 11 (Time.ofUnix 200) Extent.zero
    { Start := Time.ofUnix 0, End := Time.ofUnix 100 } (by decide) (by decide) (by decide)
    (by decide)
  obtain ⟨r, hr, hd, _, _, hs, _, hc⟩ := h.1 (by decide) (by decide)
  exact ⟨⟨r, hr, hd.trans (by decide), hs.trans (by decide), hc⟩, h'.2 (by decide)⟩

/-! ## Sparse envelopes: `Clone` -/

theorem goCopy_nil_dst {α : Type} (src : List α) : goCopy ([] : List α) src = [] := by
  simp [goCopy]

theorem goCopy_replicate {α : Type} (z : α) (src : List α) :
    goCopy (List.replicate src.length z) src = src := by
  simp [goCopy]

/-- C16, the code: `Clone` copies `Data` and `StepDuration`, but its `ExtentList` is made
with length 0, so `copy` transfers no extent and the clone's extent list is empty, for
instance for the envelope with the extent `[100 s, 301 s]`. -/
theorem C16_clone_drops_extent_list :
    (∀ se : SeriesEnvelope, se.Clone.Data = se.Data ∧ se.Clone.StepDuration = se.StepDuration ∧
      se.Clone.ExtentList = []) ∧
    sparse100to300.ExtentList = [{ Start := Time.ofUnix 100, End := Time.ofUnix 301 }] ∧
    sparse100to300.Clone.ExtentList = [] ∧
    sparse100to300.Clone.ExtentList ≠ sparse100to300.ExtentList := by
  refine ⟨fun se => ?_, by decide, by decide, by decide⟩
  unfold SeriesEnvelope.Clone
  by_cases h : se.Data.length > 0
  · simp only [if_pos h, goCopy_replicate, goCopy_nil_dst, List.replicate_zero, and_self]
  · have h0 : se.Data = [] := List.length_eq_zero.mp (by omega)
    simp [h0, goCopy]

/-! ## Sparse envelopes: JSON round trip -/

/-- C17, the code on an envelope with a non-empty extent list and step 0: `MarshalJSON`
writes the object with `data` and `extents` and omits `step`; `UnmarshalJSON` takes the
object branch, reads the empty step string and returns the error of
`time.ParseDuration("")`, whatever the library answers elsewhere and whatever the receiver
held. -/
theorem C17_unmarshal_rejects_stepless_extents (lib : JSONLibrary) (recv : SeriesEnvelope) :
    sparseStepless.StepDuration = 0 ∧ sparseStepless.ExtentList ≠ [] ∧
    sparseStepless.MarshalJSON lib = sparseSteplessJSON ∧
    recv.UnmarshalJSON lib (sparseStepless.MarshalJSON lib) = none := by
  have hm : sparseStepless.MarshalJSON lib = sparseSteplessJSON := by
    simp [SeriesEnvelope.MarshalJSON, sparseStepless, sparseSteplessJSON]
  refine ⟨rfl, by decide, hm, ?_⟩
  rw [hm]
  unfold SeriesEnvelope.UnmarshalJSON
  have hmen : sparseSteplessJSON.mentions "data" = true ∧
      sparseSteplessJSON.mentions "extents" = true := by decide
  rw [if_pos ⟨hmen.1, Or.inl hmen.2⟩]
  simp only [sparseSteplessJSON, JSONLibrary.ParseDuration, if_true]
  cases lib.decodeSamples sparseStepless.Data <;>
    cases lib.decodeExtents sparseStepless.ExtentList <;> rfl

/-! ## The object-proxy cache lookup -/

namespace Engines

theorem queryCache_of_hit (l : Lookup) (d : HTTPDocument) (ranges : Ranges)
    (h : loadsOnHit l d) : QueryCache l ranges = some (deltaResult d .Hit ranges) := by
  unfold QueryCache
  rcases h with ⟨hmem, href⟩ | ⟨hser, hret, hdec⟩
  · simp [hmem, href, normalizeError]
  · rw [if_neg hser]
    simp [hret, normalizeError, hdec]

theorem deltaResult_spec (d : HTTPDocument) (st : LookupStatus) (ranges : Ranges) :
    (deltaResult d st ranges).err = none ∧
    (deltaResult d st ranges).document =
      { d with isFulfillment := decide (d.Ranges ≠ [] ∧ ranges = []) } ∧
    (deltaResult d st ranges).ranges =
      (if effectiveRanges d ranges ≠ [] ∧ d.Ranges ≠ [] then
        Ranges.CalculateDelta (effectiveRanges d ranges) d.Ranges d.ContentLength
      else []) ∧
    (deltaResult d st ranges).status =
      (if effectiveRanges d ranges ≠ [] ∧ d.Ranges ≠ [] ∧
          Ranges.CalculateDelta (effectiveRanges d ranges) d.Ranges d.ContentLength ≠ [] then
        if Ranges.CalculateDelta (effectiveRanges d ranges) d.Ranges d.ContentLength =
            effectiveRanges d ranges then LookupStatus.RangeMiss
        else LookupStatus.PartialHit
      else st) := by
  cases hR : d.Ranges with
  | nil =>
    cases ranges with
    | nil => simp [deltaResult, effectiveRanges, hR]
    | cons r rs => simp [deltaResult, effectiveRanges, hR]
  | cons x xs =>
    cases ranges with
    | nil =>
      simp only [deltaResult, effectiveRanges, hR, Ranges.Equal]
      cases hdl : Ranges.CalculateDelta [{ Start := 0, End := d.ContentLength - 1 }] (x :: xs)
          d.ContentLength with
      | nil => simp [hdl]
      | cons y ys => simp [hdl]
    | cons r rs =>
      simp only [deltaResult, effectiveRanges, hR, Ranges.Equal]
      cases hdl : Ranges.CalculateDelta (r :: rs) (x :: xs) d.ContentLength with
      | nil => simp [hdl]
      | cons y ys => simp [hdl]

/-- C18: once `QueryCache` has loaded the document `d` on a backend hit, it returns without
error the document with `isFulfillment` set iff `d` stores at least one byte range and the
request carries none, the other fields unchanged.  On a fulfillment the returned delta is
`CalculateDelta` of the single range `[0, ContentLength - 1]` against the stored ranges
(stored `[0, 99]` of 500 bytes: effective range `[0, 499]`, delta `[100, 499]`); otherwise
the delta is computed from the request ranges as they are. -/
theorem C18_fulfillment_rewrites_request_range (l : Lookup) (d : HTTPDocument) (ranges : Ranges)
    (h : loadsOnHit l d) :
    ∃ res, QueryCache l ranges = some res ∧ res.err = none ∧
      (res.document.isFulfillment = true ↔ (d.Ranges ≠ [] ∧ ranges = [])) ∧
      res.document = { d with isFulfillment := res.document.isFulfillment } ∧
      (d.Ranges ≠ [] ∧ ranges = [] →
        res.ranges =
          Ranges.CalculateDelta [{ Start := 0, End := d.ContentLength - 1 }] d.Ranges
            d.ContentLength) ∧
      (¬ (d.Ranges ≠ [] ∧ ranges = []) →
        res.document.isFulfillment = false ∧
        res.ranges =
          if ranges ≠ [] ∧ d.Ranges ≠ [] then
            Ranges.CalculateDelta ranges d.Ranges d.ContentLength
          else []) ∧
      Ranges.CalculateDelta [{ Start := 0, End := 500 - 1 }] [{ Start := 0, End := 99 }] 500 =
        [{ Start := 100, End := 499 }] := by
  obtain ⟨herr, hdoc, hranges, _⟩ := deltaResult_spec d .Hit ranges
  refine ⟨_, queryCache_of_hit l d ranges h, herr, ?_, ?_, ?_, ?_, by decide⟩
  · rw [hdoc]
    simp
  · rw [hdoc]
  · intro hf
    rw [hranges]
    simp [effectiveRanges, hf]
  · intro hf
    constructor
    · rw [hdoc]
      simpa using hf
    · rw [hranges]
      simp only [effectiveRanges, if_neg hf]

/-- Witness of C18: a request without ranges for the 500-byte document of which `[0, 99]`
is stored in a memory cache. -/
theorem C18_fulfillment_rewrites_request_range_witness :
    ∃ res, QueryCache memoryHit [] = some res ∧ res.document.isFulfillment = true ∧
      res.ranges = [{ Start := 100, End := 499 }] := by
  obtain ⟨res, hres, _, hf, _, hd, _, _⟩ :=
    C18_fulfillment_rewrites_request_range memoryHit partialDocument []
      (Or.inl ⟨rfl, rfl⟩)
  exact ⟨res, hres, hf.mpr (by decide), (hd (by decide)).trans (by decide)⟩

/-- C19, as stated, fails: the memory cache reports a hit for the document that stores
`[0, 99]`, the request asks for `[10, 20]`, the delta is empty, and the returned lookup
status is `Hit`, not `PartialHit`. -/
theorem C19_counterexample_empty_delta_is_hit :
    memoryHit.RetrieveReference.2.1 = .Hit ∧
    partialDocument.Ranges ≠ [] ∧
    Ranges.CalculateDelta [{ Start := 10, End := 20 }] partialDocument.Ranges
      partialDocument.ContentLength = [] ∧
    ∃ res, QueryCache memoryHit [{ Start := 10, End := 20 }] = some res ∧
      res.status = .Hit ∧ res.status ≠ .PartialHit ∧ res.ranges = [] := by
  refine ⟨rfl, by decide, by decide, _, rfl, ?_⟩
  decide

/-- C19, amended: when the backend reports a hit, the request carries byte ranges, the
loaded document stores byte ranges and the computed delta is empty, `QueryCache` returns
the lookup status `Hit` of the backend unchanged, with no range to fetch and no error. -/
theorem C19_empty_delta_keeps_hit (l : Lookup) (d : HTTPDocument) (ranges : Ranges)
    (h : loadsOnHit l d) (hr : ranges ≠ []) (_hd : d.Ranges ≠ [])
    (hdelta : Ranges.CalculateDelta ranges d.Ranges d.ContentLength = []) :
    ∃ res, QueryCache l ranges = some res ∧ res.status = .Hit ∧ res.ranges = [] ∧
      res.err = none ∧ res.document.isFulfillment = false := by
  obtain ⟨herr, hdoc, hranges, hstatus⟩ := deltaResult_spec d .Hit ranges
  have heff : effectiveRanges d ranges = ranges := by simp [effectiveRanges, hr]
  refine ⟨_, queryCache_of_hit l d ranges h, ?_, ?_, herr, ?_⟩
  · rw [hstatus, heff, hdelta]
    simp
  · rw [hranges, heff, hdelta]
    simp
  · rw [hdoc]
    simp [hr]

/-- Witness of C19 (amended): the request `[10, 20]` against the stored range `[0, 99]`. -/
theorem C19_empty_delta_keeps_hit_witness :
    ∃ res, QueryCache memoryHit [{ Start := 10, End := 20 }] = some res ∧ res.status = .Hit ∧
      res.ranges = [] :=
  let ⟨res, h1, h2, h3, _⟩ := C19_empty_delta_keeps_hit memoryHit partialDocument
    [{ Start := 10, End := 20 }] (Or.inl ⟨rfl, rfl⟩) (by decide) (by decide) (by decide)
  ⟨res, h1, h2, h3⟩

/-- C20: when `QueryCache` has loaded the document `d` on a backend hit, the effective
request ranges and the stored ranges are non-empty and the computed delta is non-empty,
the returned lookup status is `RangeMiss` if the delta equals the effective request ranges
and `PartialHit` otherwise, and the returned ranges are the computed delta. -/
theorem C20_delta_decides_status (l : Lookup) (d : HTTPDocument) (ranges : Ranges)
    (h : loadsOnHit l d) (hr : effectiveRanges d ranges ≠ []) (hd : d.Ranges ≠ [])
    (hdelta : Ranges.CalculateDelta (effectiveRanges d ranges) d.Ranges d.ContentLength ≠ []) :
    ∃ res, QueryCache l ranges = some res ∧ res.err = none ∧
      res.ranges = Ranges.CalculateDelta (effectiveRanges d ranges) d.Ranges d.ContentLength ∧
      (res.status = .RangeMiss ↔ res.ranges = effectiveRanges d ranges) ∧
      (res.status = .PartialHit ↔ res.ranges ≠ effectiveRanges d ranges) := by
  obtain ⟨herr, _, hranges, hstatus⟩ := deltaResult_spec d .Hit ranges
  have hr1 : (deltaResult d .Hit ranges).ranges =
      Ranges.CalculateDelta (effectiveRanges d ranges) d.Ranges d.ContentLength := by
    rw [hranges, if_pos ⟨hr, hd⟩]
  refine ⟨_, queryCache_of_hit l d ranges h, herr, hr1, ?_, ?_⟩
  · rw [hstatus, if_pos ⟨hr, hd, hdelta⟩, hr1]
    by_cases he : Ranges.CalculateDelta (effectiveRanges d ranges) d.Ranges d.ContentLength =
        effectiveRanges d ranges
    · simp [he]
    · simp [he]
  · rw [hstatus, if_pos ⟨hr, hd, hdelta⟩, hr1]
    by_cases he : Ranges.CalculateDelta (effectiveRanges d ranges) d.Ranges d.ContentLength =
        effectiveRanges d ranges
    · simp [he]
    · simp [he]

/-- Witness of C20: the request `[50, 149]` against the stored range `[0, 99]`. -/
theorem C20_delta_decides_status_witness :
    ∃ res, QueryCache memoryHit [{ Start := 50, End := 149 }] = some res ∧
      res.ranges = [{ Start := 100, End := 149 }] ∧ res.status = .PartialHit := by
  obtain ⟨res, h1, _, h3, _, h5⟩ := C20_delta_decides_status memoryHit partialDocument
    [{ Start := 50, End := 149 }] (Or.inl ⟨rfl, rfl⟩) (by decide) (by decide) (by decide)
  have hranges : res.ranges = [{ Start := 100, End := 149 }] := h3.trans (by decide)
  exact ⟨res, h1, hranges, h5.mpr (by rw [hranges]; decide)⟩

end Engines

/-! ## The error and the status of `QueryCache` -/

namespace Engines

/-- The pairing of `cache.ErrKNF` with `KeyMiss` is the backend's: on an answer outside the
contract of a backend (the status `Error` with a text ending in `not in cache`, the status
`Hit` with `cache.ErrKNF`) `QueryCache` returns `cache.ErrKNF` with the status it was
given. -/
theorem queryCache_passes_status_on :
    QueryCache memoryTextMiss [] =
      some { document := HTTPDocument.zero, status := .Error, ranges := [],
             err := some .ErrKNF } ∧
    QueryCache redisStaleHit [] =
      some { document := HTTPDocument.zero, status := .Hit, ranges := [],
             err := some .ErrKNF } := by
  decide

/-- Whenever `QueryCache` returns `cache.ErrKNF`, the backend reported that error or one
whose text ends in `not in cache`, and the lookup status returned is the status the backend
reported: no path on which `QueryCache` sets the status itself returns `cache.ErrKNF`. -/
theorem queryCache_knf_backend_status (l : Lookup) (ranges : Ranges) (res : QueryResult)
    (h : QueryCache l ranges = some res) (hknf : res.err = some .ErrKNF) :
    res.status = l.backendStatus ∧
    (l.backendError = some .ErrKNF ∨
      ∃ text, l.backendError = some (.other text) ∧
        "not in cache".toList.isSuffixOf text.toList = true) ∧
    (res.status = .KeyMiss ↔ l.backendStatus = .KeyMiss) := by
  have hnorm : ∀ e : Option CacheError, normalizeError e = some .ErrKNF →
      e = some .ErrKNF ∨ ∃ text, e = some (.other text) ∧
        "not in cache".toList.isSuffixOf text.toList = true := by
    intro e he
    cases e with
    | none => simp [normalizeError] at he
    | some c =>
      cases c with
      | ErrKNF => exact Or.inl rfl
      | other text =>
        right
        refine ⟨text, rfl, ?_⟩
        by_cases hs : "not in cache".toList.isSuffixOf text.toList = true
        · exact hs
        · rw [normalizeError, if_neg hs] at he
          cases he
  have key : res.status = l.backendStatus ∧ normalizeError l.backendError = some .ErrKNF := by
    unfold QueryCache at h
    by_cases hm : l.CacheType = "memory"
    · simp only [hm, if_true] at h
      by_cases hc : normalizeError l.RetrieveReference.2.2 ≠ none ∨
          l.RetrieveReference.2.1 ≠ .Hit
      · rw [if_pos hc] at h
        cases h
        simp only [missResult] at hknf
        exact ⟨by simp [missResult, Lookup.backendStatus, hm],
          by simpa [Lookup.backendError, hm] using hknf⟩
      · rw [if_neg hc] at h
        have hnone : normalizeError l.RetrieveReference.2.2 = none := by
          by_contra hne
          exact hc (Or.inl hne)
        cases hifc : l.RetrieveReference.1 with
        | nil =>
          rw [hifc] at h
          cases h
          simp [hnone] at hknf
        | document d =>
          rw [hifc] at h
          cases h
          rw [(deltaResult_spec d _ ranges).1] at hknf
          cases hknf
        | other =>
          rw [hifc] at h
          cases h
    · simp only [hm, if_false] at h
      by_cases hc : normalizeError l.Retrieve.2.2 ≠ none ∨ l.Retrieve.2.1 ≠ .Hit
      · rw [if_pos hc] at h
        cases h
        simp only [missResult] at hknf
        exact ⟨by simp [missResult, Lookup.backendStatus, hm],
          by simpa [Lookup.backendError, hm] using hknf⟩
      · rw [if_neg hc] at h
        cases hu : l.UnmarshalMsg (inflateStored l l.Retrieve.1) with
        | error text =>
          rw [hu] at h
          cases h
          cases hknf
        | ok d =>
          rw [hu] at h
          cases h
          rw [(deltaResult_spec d _ ranges).1] at hknf
          cases hknf
  exact ⟨key.1, hnorm _ key.2, by rw [key.1]⟩

/-- C21: for a backend that keeps its contract (an error of kind `KeyNotFound`, the
sentinel or a text ending in `not in cache`, comes with the status `KeyMiss`), memory or
serialized, whenever `QueryCache` returns `cache.ErrKNF` the lookup status it returns is
`KeyMiss`; the backend then reported `cache.ErrKNF` or an error that was normalised to
it. -/
theorem C21_knf_returned_with_key_miss (l : Lookup) (ranges : Ranges) (res : QueryResult)
    (hcontract : l.keepsContract) (h : QueryCache l ranges = some res)
    (hknf : res.err = some .ErrKNF) :
    res.status = .KeyMiss ∧ isKeyNotFound l.backendError = true := by
  obtain ⟨hstatus, hkind, _⟩ := queryCache_knf_backend_status l ranges res h hknf
  have hk : isKeyNotFound l.backendError = true := by
    rcases hkind with he | ⟨text, he, hs⟩
    · rw [he]
      rfl
    · rw [he]
      exact hs
  exact ⟨hstatus.trans (hcontract hk), hk⟩

/-- Witness of C21: a serialized cache that answers `KeyMiss` with an error whose text ends
in `not in cache`; `QueryCache` returns `cache.ErrKNF` with `KeyMiss` and the request
ranges. -/
theorem C21_knf_returned_with_key_miss_witness :
    redisTextMiss.keepsContract ∧
    ∃ res, QueryCache redisTextMiss [{ Start := 0, End := 9 }] = some res ∧
      res.err = some .ErrKNF ∧ res.status = .KeyMiss :=
  have hc : redisTextMiss.keepsContract := fun _ => by decide
  have hq : QueryCache redisTextMiss [{ Start := 0, End := 9 }] =
      some { document := HTTPDocument.zero, status := .KeyMiss,
             ranges := [{ Start := 0, End := 9 }], err := some .ErrKNF } := by decide
  ⟨hc, _, hq, rfl,
    (C21_knf_returned_with_key_miss redisTextMiss [{ Start := 0, End := 9 }] _ hc hq rfl).1⟩

end Engines

/-! ## The compression byte of a stored value -/

namespace Engines

/-- The bytes `QueryCache` decodes when the stored value does not start with `1`: the value
without its first byte, not decompressed. -/
theorem inflateStored_of_ne_one (l : Lookup) (x : Nat) (rest : Bytes) (hx : x ≠ 1) :
    inflateStored l (x :: rest) = rest := by
  simp [inflateStored, hx]

/-- The bytes `QueryCache` decodes when the stored value starts with `1` and the rest is
decompressed to `b`. -/
theorem inflateStored_of_one (l : Lookup) (rest b : Bytes) (h : l.snappyDecode rest = some b) :
    inflateStored l (1 :: rest) = b := by
  simp [inflateStored, h]

/-- The result of `QueryCache` on a serialized backend that reports a hit without error. -/
theorem queryCache_serialized_hit (l : Lookup) (ranges : Ranges) (stored : Bytes)
    (hser : l.CacheType ≠ "memory") (hret : l.Retrieve = (stored, .Hit, none)) :
    (∀ d, l.UnmarshalMsg (inflateStored l stored) = .ok d →
      QueryCache l ranges = some (deltaResult d .Hit ranges)) ∧
    (∀ text, l.UnmarshalMsg (inflateStored l stored) = .error text →
      QueryCache l ranges =
        some { document := HTTPDocument.zero, status := .KeyMiss, ranges := ranges,
               err := some (.other text) }) := by
  constructor
  · intro d hd
    simp [QueryCache, hser, hret, normalizeError, hd]
  · intro text hd
    simp [QueryCache, hser, hret, normalizeError, hd]

/-- C22, where it fails: the stored value `[2, 200, 104, 105]` starts with the byte `2`.
`QueryCache` strips that byte, decodes the rest and returns the decoded document with the
status `Hit` and no error. -/
theorem C22_counterexample_unknown_byte_accepted :
    unknownPrefix.CacheType ≠ "memory" ∧
    unknownPrefix.Retrieve.1.head? = some 2 ∧
    QueryCache unknownPrefix [] =
      some { document := { HTTPDocument.zero with
                           StatusCode := 200, Body := [104, 105], ContentLength := 2 }
             status := .Hit, ranges := [], err := none } := by
  decide

/-- C22 (amended): on a serialized backend that reports a hit, a stored value whose first
byte is not `0x01` is handled like one that starts with `0x00`: `QueryCache` drops the first
byte and decodes the remaining bytes as they are.  The entry is rejected, with the status
`KeyMiss` and the error of the decoder, only when the decoder fails on those bytes. -/
theorem C22_unknown_byte_read_as_uncompressed (l : Lookup) (ranges : Ranges) (x : Nat)
    (rest : Bytes) (hser : l.CacheType ≠ "memory") (hret : l.Retrieve = (x :: rest, .Hit, none))
    (hx : x ≠ 1) :
    (∀ d, l.UnmarshalMsg rest = .ok d →
      QueryCache l ranges = some (deltaResult d .Hit ranges)) ∧
    (∀ text, l.UnmarshalMsg rest = .error text →
      QueryCache l ranges =
        some { document := HTTPDocument.zero, status := .KeyMiss, ranges := ranges,
               err := some (.other text) }) := by
  have h := queryCache_serialized_hit l ranges (x :: rest) hser hret
  rw [inflateStored_of_ne_one l x rest hx] at h
  exact h

/-- Witness of C22: the stored value `[2, 200, 104, 105]`. -/
theorem C22_unknown_byte_read_as_uncompressed_witness :
    QueryCache unknownPrefix [] =
      some (deltaResult { HTTPDocument.zero with
                          StatusCode := 200, Body := [104, 105], ContentLength := 2 } .Hit []) :=
  (C22_unknown_byte_read_as_uncompressed unknownPrefix [] 2 [200, 104, 105] (by decide) rfl
    (by decide)).1 _ rfl

/-- C23: when `snappy.Decode` inverts `snappy.Encode`, the stripping and inflating step of
`QueryCache` maps both `1 :: snappy(b)` and `0 :: b` to `b`.  Hence, for the value that
`WriteCache` stores on a serialized backend, on either compression branch, that step gives
back the serialised document, and `QueryCache` on a hit with that value returns what the
decoder makes of the serialised document. -/
theorem C23_strip_and_inflate_inverts_wrapper (l : Lookup) (s : Storage)
    (hsnappy : ∀ b, l.snappyDecode (s.snappyEncode b) = some b) (b : Bytes)
    (d : HTTPDocument) (ttl : Int) (compressTypes : List (String × Bool))
    (hser : s.CacheType ≠ "memory") :
    inflateStored l (1 :: s.snappyEncode b) = b ∧
    inflateStored l (0 :: b) = b ∧
    ∃ stored, (WriteCache s d ttl compressTypes).call = .bytes stored ttl ∧
      inflateStored l stored = s.MarshalMsg (WriteCache s d ttl compressTypes).document ∧
      ∀ ranges d2, l.CacheType ≠ "memory" → l.Retrieve = (stored, .Hit, none) →
        l.UnmarshalMsg (s.MarshalMsg (WriteCache s d ttl compressTypes).document) = .ok d2 →
        QueryCache l ranges = some (deltaResult d2 .Hit ranges) := by
  have h1 : ∀ b, inflateStored l (1 :: s.snappyEncode b) = b := fun b =>
    inflateStored_of_one l _ b (hsnappy b)
  have h0 : ∀ b, inflateStored l (0 :: b) = b := fun b =>
    inflateStored_of_ne_one l 0 b (by decide)
  refine ⟨h1 b, h0 b, ?_⟩
  have key : ∀ stored doc, inflateStored l stored = s.MarshalMsg doc →
      ∀ ranges d2, l.CacheType ≠ "memory" → l.Retrieve = (stored, .Hit, none) →
        l.UnmarshalMsg (s.MarshalMsg doc) = .ok d2 →
        QueryCache l ranges = some (deltaResult d2 .Hit ranges) := by
    intro stored doc hst ranges d2 hl hret hd
    exact (queryCache_serialized_hit l ranges stored hl hret).1 d2 (by rw [hst]; exact hd)
  simp only [WriteCache, if_neg hser]
  split
  · exact ⟨_, rfl, h1 _, key _ _ (h1 _)⟩
  · exact ⟨_, rfl, h0 _, key _ _ (h0 _)⟩

/-- Witness of C23: the toy compression, and `plainDocument` stored compressed. -/
theorem C23_strip_and_inflate_inverts_wrapper_witness :
    inflateStored storedPlain (1 :: toyEncode [200, 104, 105]) = [200, 104, 105] ∧
    inflateStored storedPlain (0 :: [200, 104, 105]) = [200, 104, 105] ∧
    (WriteCache (toyStorage "filesystem") plainDocument 60 [("text/plain", true)]).call =
      .bytes [1, 3, 200, 104, 105] 60 := by
  obtain ⟨h1, h0, _⟩ := C23_strip_and_inflate_inverts_wrapper storedPlain
    (toyStorage "filesystem") (fun b => by simp [storedPlain, toyStorage, toyEncode, toyDecode])
    [200, 104, 105] plainDocument 60 [("text/plain", true)] (by decide)
  exact ⟨h1, h0, by decide⟩

end Engines

/-! ## What `WriteCache` hands to the backend -/

namespace Engines

/-- Deleting a header leaves the value of every other header. -/
theorem Header.get_del (h : Header) (key other : String) (hne : other ≠ key) :
    Header.Get (Header.Del h key) other = Header.Get h other := by
  have hl : (Header.Del h key).lookup other = h.lookup other := by
    induction h with
    | nil => rfl
    | cons kv rest ih =>
      obtain ⟨k, v⟩ := kv
      by_cases hk : k = key
      · have : Header.Del ((k, v) :: rest) key = Header.Del rest key := by
          simp [Header.Del, hk]
        rw [this, ih]
        have hb : (other == k) = false := by
          simp [hk, hne]
        simp [List.lookup, hb]
      · have : Header.Del ((k, v) :: rest) key = (k, v) :: Header.Del rest key := by
          simp [Header.Del, hk]
        rw [this]
        by_cases ho : other = k
        · simp [List.lookup, ho]
        · have hb : (other == k) = false := by simp [ho]
          simp only [List.lookup, hb]
          exact ih
  simp only [Header.Get, hl]

/-- A key that `lookup` finds in an association list is paired with the value found. -/
theorem mem_of_lookup {β : Type} (l : List (String × β)) (k : String) (v : β)
    (h : l.lookup k = some v) : (k, v) ∈ l := by
  induction l with
  | nil => cases h
  | cons kv rest ih =>
    obtain ⟨k2, v2⟩ := kv
    by_cases hk : k = k2
    · subst hk
      simp [List.lookup] at h
      subst h
      exact List.mem_cons_self _ _
    · have hb : (k == k2) = false := by simp [hk]
      simp only [List.lookup, hb] at h
      exact List.mem_cons_of_mem _ (ih h)

/-- The document `WriteCache` works on after it has deleted the four headers: the decision
to compress is the one taken on the document as passed. -/
theorem compressible_iff (s : Storage) (d : HTTPDocument) (h : Header)
    (compressTypes : List (String × Bool))
    (hce : Header.Get h NameContentEncoding = Header.Get d.Headers NameContentEncoding) :
    compressible s { d with Headers := h } compressTypes = true ↔
      compressionCondition s d compressTypes := by
  unfold compressible compressionCondition
  simp only [hce]
  constructor
  · intro hc
    split at hc
    · rename_i hcond
      obtain ⟨h1, h2⟩ := hcond
      refine ⟨h1, ?_, ?_⟩
      · cases hcp : d.CachingPolicy with
        | none => exact Or.inl rfl
        | some cp =>
          right
          refine ⟨cp, rfl, ?_⟩
          simp only [hcp] at h2
          simpa using h2
      · cases hmt : s.ParseMediaType d.ContentType with
        | none => simp [hmt] at hc
        | some mt =>
          refine ⟨mt, rfl, ?_⟩
          simp only [hmt] at hc
          cases hlk : compressTypes.lookup mt with
          | none => simp [hlk] at hc
          | some v =>
            exact List.mem_map.mpr ⟨(mt, v), mem_of_lookup compressTypes mt v hlk, rfl⟩
    · cases hc
  · rintro ⟨h1, h2, mt, hmt, hmem⟩
    have hpol : (match d.CachingPolicy with
        | none => true
        | some cp => !cp.NoTransform) = true := by
      rcases h2 with h2 | ⟨cp, hcp, hnt⟩
      · simp [h2]
      · simp [hcp, hnt]
    rw [if_pos ⟨h1, hpol⟩]
    simp only [hmt]
    obtain ⟨⟨k, v⟩, hkv, hk⟩ := List.mem_map.mp hmem
    simp only at hk
    subst hk
    cases hlk : compressTypes.lookup k with
    | some v2 => rfl
    | none =>
      have := List.lookup_eq_none_iff.mp hlk (k, v) hkv
      simp at this

end Engines

namespace Engines

/-- C24: on a serialized backend `WriteCache` stores the byte `1` followed by the snappy
encoding of the serialised document when the `Content-Encoding` header is empty or
`identity`, the caching policy is absent or does not set `NoTransform`, and the media type
parsed from `ContentType` is a key of `compressTypes`; in every other case it stores the
byte `0` followed by the serialised document.  The document serialised is `d` without the
headers `Date`, `Transfer-Encoding`, `Content-Range` and the proxy-result header. -/
theorem C24_compression_prefix (s : Storage) (d : HTTPDocument) (ttl : Int)
    (compressTypes : List (String × Bool)) (hser : s.CacheType ≠ "memory") :
    ∃ stored doc, (WriteCache s d ttl compressTypes).call = .bytes stored ttl ∧
      doc = { d with Headers := Header.Del (Header.Del (Header.Del (Header.Del d.Headers
        NameDate) NameTransferEncoding) NameContentRange) NameTricksterResult } ∧
      (compressionCondition s d compressTypes →
        stored = 1 :: s.snappyEncode (s.MarshalMsg doc)) ∧
      (¬ compressionCondition s d compressTypes → stored = 0 :: s.MarshalMsg doc) ∧
      (stored.head? = some 1 ↔ compressionCondition s d compressTypes) := by
  have hce : Header.Get (Header.Del (Header.Del (Header.Del (Header.Del d.Headers
      NameDate) NameTransferEncoding) NameContentRange) NameTricksterResult)
      NameContentEncoding = Header.Get d.Headers NameContentEncoding := by
    rw [Header.get_del _ _ _ (by decide), Header.get_del _ _ _ (by decide),
      Header.get_del _ _ _ (by decide), Header.get_del _ _ _ (by decide)]
  have hiff := compressible_iff s d _ compressTypes hce
  simp only [WriteCache, if_neg hser]
  by_cases hc : compressionCondition s d compressTypes
  · rw [if_pos (hiff.mpr hc)]
    exact ⟨_, _, rfl, rfl, fun _ => rfl, fun hn => absurd hc hn, by simp [hc]⟩
  · rw [if_neg (fun h => hc (hiff.mp h))]
    exact ⟨_, _, rfl, rfl, fun h => absurd h hc, fun _ => rfl, by simp [hc]⟩

/-- Witness of C24: `plainDocument`, of content type `text/plain; charset=utf-8` and
content encoding `identity`, with `text/plain` among the types to compress. -/
theorem C24_compression_prefix_witness :
    ∃ stored, (WriteCache (toyStorage "filesystem") plainDocument 60
        [("text/plain", true)]).call = .bytes stored 60 ∧ stored.head? = some 1 := by
  obtain ⟨stored, doc, h1, _, _, _, h5⟩ := C24_compression_prefix (toyStorage "filesystem")
    plainDocument 60 [("text/plain", true)] (by decide)
  refine ⟨stored, h1, h5.mpr ⟨Or.inr (by decide), Or.inl rfl, "text/plain", by decide,
    by decide⟩⟩

/-- C25: after `WriteCache` to a memory backend, the document handed to `StoreReference`
has `isFulfillment`, `isLoaded` and `rangePartsLoaded` false, whatever they were, and the
status code, body, stored ranges, content length and content type of the document
passed. -/
theorem C25_memory_store_resets_transients (s : Storage) (d : HTTPDocument) (ttl : Int)
    (compressTypes : List (String × Bool)) (hmem : s.CacheType = "memory") :
    ∃ doc, (WriteCache s d ttl compressTypes).call = .reference doc ttl ∧
      doc.isFulfillment = false ∧ doc.isLoaded = false ∧ doc.rangePartsLoaded = false ∧
      doc.StatusCode = d.StatusCode ∧ doc.Body = d.Body ∧ doc.Ranges = d.Ranges ∧
      doc.ContentLength = d.ContentLength ∧ doc.ContentType = d.ContentType := by
  simp only [WriteCache, if_pos hmem]
  exact ⟨_, rfl, rfl, rfl, rfl, rfl, rfl, rfl, rfl, rfl⟩

/-- Witness of C25: a document whose three transient fields are set. -/
theorem C25_memory_store_resets_transients_witness :
    loadedDocument.isFulfillment = true ∧ loadedDocument.isLoaded = true ∧
    loadedDocument.rangePartsLoaded = true ∧
    ∃ doc, (WriteCache (toyStorage "memory") loadedDocument 60 []).call = .reference doc 60 ∧
      doc.isFulfillment = false ∧ doc.isLoaded = false ∧ doc.rangePartsLoaded = false ∧
      doc.Body = [104, 105] := by
  obtain ⟨doc, h1, h2, h3, h4, _, h6, _⟩ := C25_memory_store_resets_transients
    (toyStorage "memory") loadedDocument 60 [] rfl
  exact ⟨rfl, rfl, rfl, doc, h1, h2, h3, h4, h6⟩

/-- C26, where it fails: called with the default timeseries TTL of 2592000 seconds,
`WriteCache` hands that TTL to `StoreReference` of a memory backend and to `Store` of a
serialized one; it is above the default maximum TTL of 86400 seconds. -/
theorem C26_counterexample_ttl_above_maximum :
    (WriteCache (toyStorage "memory") plainDocument
      (Config.defaultTimeseriesTTLSecs * nanosPerSecond) []).call.ttl =
        2592000 * nanosPerSecond ∧
    (WriteCache (toyStorage "filesystem") plainDocument
      (Config.defaultTimeseriesTTLSecs * nanosPerSecond) []).call.ttl =
        2592000 * nanosPerSecond ∧
    Config.defaultMaxTTLSecs * nanosPerSecond < 2592000 * nanosPerSecond := by
  decide

/-- C26 (amended): for every call of `WriteCache`, the TTL handed to the backend, by `Store`
or by `StoreReference`, is the `ttl` the caller passes, unchanged. -/
theorem C26_ttl_passed_unchanged (s : Storage) (d : HTTPDocument) (ttl : Int)
    (compressTypes : List (String × Bool)) :
    (WriteCache s d ttl compressTypes).call.ttl = ttl := by
  unfold WriteCache
  by_cases hmem : s.CacheType = "memory"
  · simp only [if_pos hmem, Stored.ttl]
  · simp only [if_neg hmem, Stored.ttl]

end Engines

/-! ## The wait group of `DeltaProxyCacheRequest` -/

namespace Proxy

/-- C27, the code where marshalling the write-back fails: the request `[140, 260]` against
the cached `[100, 200]` fetches one range, so the handler calls `wg.Add(1)` three times (one
fetch, the write-back, the response).  The write-back goroutine returns on the marshal error
before its `wg.Done()`, so only two calls of `wg.Done()` happen: the final `wg.Wait()` does
not return and the deferred `locks.Release(key)` does not run.  With a client that marshals,
the same request gives three of each. -/
theorem C27_marshal_failure_skips_done :
    DeltaProxyCacheRequest marshalFails false =
      some { response := .responded 200 (some [("Content-Type", "application/json")]) none
             stored := none, added := 3, done := 2 } ∧
    (∀ o, DeltaProxyCacheRequest marshalFails false = some o → ¬ o.releasesLock) ∧
    DeltaProxyCacheRequest partialCall false =
      some { response := .responded 200 (some [("Content-Type", "application/json")])
               (some [140, 250, 50, 150, 2, 200, 3, 250, 4])
             stored := some [140, 250, 50, 150, 2, 200, 3, 250, 4], added := 3, done := 3 } := by
  have h1 : DeltaProxyCacheRequest marshalFails false =
      some { response := .responded 200 (some [("Content-Type", "application/json")]) none
             stored := none, added := 3, done := 2 } := by decide
  refine ⟨h1, ?_, by decide⟩
  intro o ho
  rw [h1] at ho
  cases ho
  decide

end Proxy

/-! ## Dense frames: the alignment of the crop bounds -/

/-- The alignment of `CropToRange` rounds a non-negative Unix second down to a multiple of a
positive period. -/
theorem alignDown_eq (t : Time) (p : Int) (hp : 0 < p) (ht : 0 ≤ t.Unix) :
    alignDown t p = Time.ofUnix (floorMultiple t.Unix p) := by
  unfold alignDown floorMultiple
  rw [Int.tmod_eq_emod ht (le_of_lt hp), Int.emod_def]
  congr 1
  ring

/-- The multiple `floorMultiple x p` lies in `(x - p, x]`. -/
theorem floorMultiple_bounds (x p : Int) (hp : 0 < p) :
    p ∣ floorMultiple x p ∧ x - p < floorMultiple x p ∧ floorMultiple x p ≤ x := by
  unfold floorMultiple
  refine ⟨Dvd.intro_left _ rfl, ?_, Int.ediv_mul_le x (ne_of_gt hp)⟩
  have := Int.lt_ediv_add_one_mul_self x hp
  linarith

/-- Every timestamp that the row loop of `CropToRange` stores lies within `[lo, hi]`. -/
theorem writeRowWithin_keys (s p lo hi : Int) (row : List Value) (j : Nat) (m : DataMap)
    (hm : ∀ kv ∈ m, lo ≤ kv.1 ∧ kv.1 ≤ hi) :
    ∀ kv ∈ writeRowWithin s p lo hi j row m, lo ≤ kv.1 ∧ kv.1 ≤ hi := by
  induction row generalizing j m with
  | nil => simpa [writeRowWithin] using hm
  | cons dv rest ih =>
    simp only [writeRowWithin]
    apply ih
    intro kv hkv
    split at hkv
    · rename_i hc
      rcases List.mem_cons.mp hkv with h | h
      · subst h
        exact ⟨hc.1, hc.2⟩
      · exact hm kv h
    · exact hm kv hkv

/-- Every timestamp in the metrics map that `CropToRange` fills lies within `[lo, hi]`. -/
theorem cropLoad_keys (se : DF4SeriesEnvelope) (lo hi : Int) (metas : List MetaEntry) (i : Nat)
    (ms metrics : Metrics) (h : cropLoad se lo hi metas i ms = some metrics)
    (hms : ∀ m ∈ ms, ∀ kv ∈ m.data, lo ≤ kv.1 ∧ kv.1 ≤ hi) :
    ∀ m ∈ metrics, ∀ kv ∈ m.data, lo ≤ kv.1 ∧ kv.1 ≤ hi := by
  induction metas generalizing i ms with
  | nil =>
    simp only [cropLoad] at h
    cases h
    exact hms
  | cons mv rest ih =>
    simp only [cropLoad] at h
    cases hl : mv.label with
    | none =>
      simp only [hl] at h
      exact ih (i + 1) ms h hms
    | some name =>
      simp only [hl] at h
      cases hrow : se.Data[i]? with
      | none => simp [hrow] at h
      | some row =>
        simp only [hrow] at h
        refine ih (i + 1) _ h ?_
        intro m hm
        rcases Metrics.mem_set hm with h1 | h1
        · subst h1
          exact writeRowWithin_keys _ _ lo hi row 0 [] (by simp)
        · exact hms m h1

/-- C28: for a period `p > 0` and crop bounds at non-negative Unix seconds, `CropToRange`
works on the bounds rounded down to multiples of `p`.  On the empty branch and on the
non-empty branch the resulting `Head.Start` is `floor(e.Start / p) * p`, a multiple of `p`
in `(e.Start - p, e.Start]`; on the non-empty branch the rows are loaded with the bounds
`floor(e.Start / p) * p` and `floor(e.End / p) * p`, and every timestamp loaded lies between
them. -/
theorem C28_cropToRange_aligns_bounds (se : DF4SeriesEnvelope) (e : Extent)
    (hp : 0 < se.Head.Period) (hs : 0 ≤ e.Start.Unix) (he : 0 ≤ e.End.Unix) :
    (∀ r, se.CropToRange e = some r →
      r.Head.Start = floorMultiple e.Start.Unix se.Head.Period ∧
      se.Head.Period ∣ r.Head.Start ∧
      e.Start.Unix - se.Head.Period < r.Head.Start ∧ r.Head.Start ≤ e.Start.Unix) ∧
    (se.ExtentList.length < 1 ∨
        se.ExtentList.OutsideOf (alignedExtent e se.Head.Period) = true →
      se.CropToRange e =
        some { se with
          Data := [], Meta := [], ExtentList := []
          Head := { se.Head with
            Start := floorMultiple e.Start.Unix se.Head.Period, Count := 0 } }) ∧
    (¬ (se.ExtentList.length < 1 ∨
        se.ExtentList.OutsideOf (alignedExtent e se.Head.Period) = true) →
      se.CropToRange e =
        (cropLoad se (floorMultiple e.Start.Unix se.Head.Period)
          (floorMultiple e.End.Unix se.Head.Period) se.Meta 0 []).map fun metrics =>
          { se with
            Data := metrics.map fun m => buildRow
              { Count := Int.tdiv (floorMultiple e.End.Unix se.Head.Period -
                  floorMultiple e.Start.Unix se.Head.Period) se.Head.Period
                Start := floorMultiple e.Start.Unix se.Head.Period
                Period := se.Head.Period } m.data
            Meta := metrics.map fun m => m.meta
            Head :=
              { Count := Int.tdiv (floorMultiple e.End.Unix se.Head.Period -
                  floorMultiple e.Start.Unix se.Head.Period) se.Head.Period
                Start := floorMultiple e.Start.Unix se.Head.Period
                Period := se.Head.Period }
            ExtentList := se.ExtentList.Crop (alignedExtent e se.Head.Period) }) ∧
    (∀ metrics, cropLoad se (floorMultiple e.Start.Unix se.Head.Period)
        (floorMultiple e.End.Unix se.Head.Period) se.Meta 0 [] = some metrics →
      ∀ m ∈ metrics, ∀ kv ∈ m.data,
        floorMultiple e.Start.Unix se.Head.Period ≤ kv.1 ∧
        kv.1 ≤ floorMultiple e.End.Unix se.Head.Period) := by
  have hne : se.Head.Period ≠ 0 := ne_of_gt hp
  have hS := alignDown_eq e.Start _ hp hs
  have hE := alignDown_eq e.End _ hp he
  have hb := floorMultiple_bounds e.Start.Unix _ hp
  have hempty : se.ExtentList.length < 1 ∨
        se.ExtentList.OutsideOf (alignedExtent e se.Head.Period) = true →
      se.CropToRange e =
        some { se with
          Data := [], Meta := [], ExtentList := []
          Head := { se.Head with
            Start := floorMultiple e.Start.Unix se.Head.Period, Count := 0 } } := by
    intro hc
    simp only [alignedExtent] at hc ⊢
    unfold DF4SeriesEnvelope.CropToRange
    rw [if_neg hne]
    simp only [hS, hE, Time.Unix_ofUnix]
    rw [if_pos hc]
  have hfull : ¬ (se.ExtentList.length < 1 ∨
        se.ExtentList.OutsideOf (alignedExtent e se.Head.Period) = true) →
      se.CropToRange e =
        (cropLoad se (floorMultiple e.Start.Unix se.Head.Period)
          (floorMultiple e.End.Unix se.Head.Period) se.Meta 0 []).map fun metrics =>
          { se with
            Data := metrics.map fun m => buildRow
              { Count := Int.tdiv (floorMultiple e.End.Unix se.Head.Period -
                  floorMultiple e.Start.Unix se.Head.Period) se.Head.Period
                Start := floorMultiple e.Start.Unix se.Head.Period
                Period := se.Head.Period } m.data
            Meta := metrics.map fun m => m.meta
            Head :=
              { Count := Int.tdiv (floorMultiple e.End.Unix se.Head.Period -
                  floorMultiple e.Start.Unix se.Head.Period) se.Head.Period
                Start := floorMultiple e.Start.Unix se.Head.Period
                Period := se.Head.Period }
            ExtentList := se.ExtentList.Crop (alignedExtent e se.Head.Period) } := by
    intro hc
    simp only [alignedExtent] at hc ⊢
    unfold DF4SeriesEnvelope.CropToRange
    rw [if_neg hne]
    simp only [hS, hE, Time.Unix_ofUnix]
    rw [if_neg hc]
    cases cropLoad se (floorMultiple e.Start.Unix se.Head.Period)
      (floorMultiple e.End.Unix se.Head.Period) se.Meta 0 [] <;> rfl
  refine ⟨?_, hempty, hfull, fun metrics hm => cropLoad_keys se _ _ se.Meta 0 [] metrics hm
    (by simp)⟩
  intro r hr
  have hstart : r.Head.Start = floorMultiple e.Start.Unix se.Head.Period := by
    by_cases hc : se.ExtentList.length < 1 ∨
        se.ExtentList.OutsideOf (alignedExtent e se.Head.Period) = true
    · rw [hempty hc] at hr
      cases hr
      rfl
    · rw [hfull hc] at hr
      cases hl : cropLoad se (floorMultiple e.Start.Unix se.Head.Period)
        (floorMultiple e.End.Unix se.Head.Period) se.Meta 0 [] with
      | none => simp [hl] at hr
      | some metrics =>
        simp only [hl, Option.map_some'] at hr
        cases hr
        rfl
  rw [hstart]
  exact ⟨rfl, hb.1, hb.2.1, hb.2.2⟩

/-- Witness of C28: the frame of period 10 over `[0, 100]` cropped to `[25, 57]`: the bounds
become 20 and 50. -/
theorem C28_cropToRange_aligns_bounds_witness :
    ∃ r, frame0to100.CropToRange { Start := Time.ofUnix 25, End := Time.ofUnix 57 } = some r ∧
      r.Head.Start = 20 ∧
      r.ExtentList = [{ Start := Time.ofUnix 20, End := Time.ofUnix 50 }] := by
  have h := C28_cropToRange_aligns_bounds frame0to100
    { Start := Time.ofUnix 25, End := Time.ofUnix 57 } (by decide) (by decide) (by decide)
  have hr : frame0to100.CropToRange { Start := Time.ofUnix 25, End := Time.ofUnix 57 } =
      some { Data := [[.num 2, .num 3, .num 4]]
             Meta := [[("label", .str "a")]]
             Ver := "DF4"
             Head := { Count := 3, Start := 20, Period := 10 }
             StepDuration := 10 * nanosPerSecond
             ExtentList := [{ Start := Time.ofUnix 20, End := Time.ofUnix 50 }] } := by
    decide
  exact ⟨_, hr, (h.1 _ hr).1.trans (by decide), rfl⟩

/-! ## The JSON array of a data point -/

/-- C30: the array `MarshalJSON` writes is `[time, v]` when the step is 0 and
`[time, s, v]` otherwise.  When `parseTimestamp` accepts the written time,
`UnmarshalJSON` on that array gives the value `v` and, for the step, `s` when `s ≠ 0` and
the step of the receiver when `s = 0`; decoding into a fresh data point (step 0) therefore
gives back the step and the value.  The decoder reads `[t, n, x, ...]` with a whole number
`n` in the range `[0, 2^32)` of `uint32` as step `n` and value `x`, reads `[t, x]` as value
`x` with the receiver's step, and rejects an array with fewer than two elements. -/
theorem C30_data_point_round_trip (lib : TimestampLibrary) (dp recv : DataPoint) (tv : Time)
    (hstep : dp.Step < 2 ^ 32)
    (htime : lib.parseTimestamp (lib.FormatFloat (lib.timeNumber dp.Time)) = .ok tv) :
    dp.MarshalJSON lib =
      (if dp.Step = 0 then [.num (lib.timeNumber dp.Time), dp.Value]
       else [.num (lib.timeNumber dp.Time), .num dp.Step, dp.Value]) ∧
    recv.UnmarshalJSON lib (dp.MarshalJSON lib) =
      .ok { Time := tv, Step := if dp.Step = 0 then recv.Step else dp.Step, Value := dp.Value } ∧
    DataPoint.zero.UnmarshalJSON lib (dp.MarshalJSON lib) =
      .ok { Time := tv, Step := dp.Step, Value := dp.Value } ∧
    (∀ (t : Value) (n : Int) (x : Value) (more : List Value) (timed : DataPoint),
      0 ≤ n → n < 2 ^ 32 → recv.readTime lib t = .ok timed →
      recv.UnmarshalJSON lib (t :: .num n :: x :: more) =
        .ok { timed with Step := n.toNat, Value := x }) ∧
    (∀ (t x : Value) (timed : DataPoint), recv.readTime lib t = .ok timed →
      recv.UnmarshalJSON lib [t, x] = .ok { timed with Value := x }) ∧
    (∀ v : List Value, v.length < 2 →
      recv.UnmarshalJSON lib v = .error "unable to unmarshal IRONdb data point") := by
  have hmarshal : dp.MarshalJSON lib =
      (if dp.Step = 0 then [.num (lib.timeNumber dp.Time), dp.Value]
       else [.num (lib.timeNumber dp.Time), .num dp.Step, dp.Value]) := by
    unfold DataPoint.MarshalJSON TimestampLibrary.timeNumber
    by_cases h0 : dp.Step = 0
    · simp [h0]
    · simp [h0]
  have hread : ∀ r : DataPoint, r.readTime lib (.num (lib.timeNumber dp.Time)) =
      .ok { r with Time := tv } := by
    intro r
    simp only [DataPoint.readTime, htime]
  have hin : ∀ n : Int, 0 ≤ n → n < 2 ^ 32 → uint32 lib.uint32OutOfRange n = n.toNat := by
    intro n h0 h1
    unfold uint32
    rw [if_pos ⟨h0, h1⟩]
  have hu : uint32 lib.uint32OutOfRange (dp.Step : Int) = dp.Step := by
    rw [hin _ (Int.natCast_nonneg _) (by exact_mod_cast hstep)]
    exact Int.toNat_natCast _
  have hdecode : ∀ r : DataPoint, r.UnmarshalJSON lib (dp.MarshalJSON lib) =
      .ok { Time := tv, Step := if dp.Step = 0 then r.Step else dp.Step, Value := dp.Value } := by
    intro r
    rw [hmarshal]
    by_cases h0 : dp.Step = 0
    · rw [if_pos h0, if_pos h0]
      simp only [DataPoint.UnmarshalJSON, hread]
      cases dp.Value <;> rfl
    · rw [if_neg h0, if_neg h0]
      simp only [DataPoint.UnmarshalJSON, hread, hu]
  refine ⟨hmarshal, hdecode recv, ?_, ?_, ?_, ?_⟩
  · rw [hdecode DataPoint.zero]
    by_cases h0 : dp.Step = 0
    · simp [h0, DataPoint.zero]
    · simp [h0]
  · intro t n x more timed h0 h1 ht
    simp only [DataPoint.UnmarshalJSON, ht, hin n h0 h1]
  · intro t x timed ht
    simp only [DataPoint.UnmarshalJSON, ht]
  · intro v hv
    match v, hv with
    | [], _ => rfl
    | [_], _ => rfl
    | _ :: _ :: _, hv =>
      simp only [List.length_cons] at hv
      omega

/-- Witness of C30: a data point at 100 seconds with step 60 and value 7, decoded into a
fresh data point. -/
theorem C30_data_point_round_trip_witness :
    DataPoint.MarshalJSON secondsLibrary { Time := Time.ofUnix 100, Step := 60, Value := .num 7 } =
      [.num 100, .num 60, .num 7] ∧
    DataPoint.zero.UnmarshalJSON secondsLibrary [.num 100, .num 60, .num 7] =
      .ok { Time := Time.ofUnix 100, Step := 60, Value := .num 7 } := by
  have h := C30_data_point_round_trip secondsLibrary
    { Time := Time.ofUnix 100, Step := 60, Value := .num 7 } DataPoint.zero (Time.ofUnix 100)
    (by decide) rfl
  have hm : DataPoint.MarshalJSON secondsLibrary
      { Time := Time.ofUnix 100, Step := 60, Value := .num 7 } =
      [.num 100, .num 60, .num 7] := by decide
  refine ⟨hm, ?_⟩
  rw [← hm]
  exact h.2.2.1

/-! ## Dense frames: `CropToRange` and `Merge` do not panic -/

/-- The row loop of `CropToRange` finds every row it indexes when there are at least as
many rows as entries of `Meta` left. -/
theorem cropLoad_total (se : DF4SeriesEnvelope) (lo hi : Int) (metas : List MetaEntry) (i : Nat)
    (ms : Metrics) (h : i + metas.length ≤ se.Data.length) :
    ∃ ms', cropLoad se lo hi metas i ms = some ms' := by
  induction metas generalizing i ms with
  | nil => exact ⟨ms, rfl⟩
  | cons mv rest ih =>
    have hlen : i < se.Data.length := by simp at h; omega
    have hrest : i + 1 + rest.length ≤ se.Data.length := by simp at h; omega
    cases hl : mv.label with
    | none =>
      simp only [cropLoad, hl]
      exact ih (i + 1) ms hrest
    | some name =>
      simp only [cropLoad, hl, List.getElem?_eq_getElem hlen]
      exact ih (i + 1) _ hrest

/-- With a period other than zero and a row for every entry of `Meta`, `CropToRange`
returns, and its result has the same period and again a row for every entry of `Meta`. -/
theorem cropToRange_total (se : DF4SeriesEnvelope) (e : Extent) (hp : se.Head.Period ≠ 0)
    (hrows : se.Meta.length ≤ se.Data.length) :
    ∃ r, se.CropToRange e = some r ∧ r.Head.Period = se.Head.Period ∧
      r.Meta.length ≤ r.Data.length := by
  unfold DF4SeriesEnvelope.CropToRange
  rw [if_neg hp]
  simp only
  split
  · exact ⟨_, rfl, rfl, le_refl _⟩
  · obtain ⟨ms, hms⟩ := cropLoad_total se
      (alignDown e.Start se.Head.Period).Unix (alignDown e.End se.Head.Period).Unix
      se.Meta 0 [] (by simpa using hrows)
    rw [hms]
    exact ⟨_, rfl, rfl, by simp⟩

/-- One round of the loop of `Merge` returns when the base has a period other than zero and
both envelopes have a row for every entry of `Meta`; the base keeps these two properties
and its step. -/
theorem mergeOne_total (se : DF4SeriesEnvelope) (ts : Option Timeseries)
    (hp : se.Head.Period ≠ 0) (hrows : se.Meta.length ≤ se.Data.length)
    (hts : ∀ se2, ts = some (.df4 se2) → se2.Meta.length ≤ se2.Data.length) :
    ∃ r, se.mergeOne ts = some r ∧ r.Head.Period = se.Head.Period ∧
      r.Meta.length ≤ r.Data.length := by
  cases ts with
  | none => exact ⟨se, rfl, rfl, hrows⟩
  | some t =>
    cases t with
    | series s => exact ⟨se, rfl, rfl, hrows⟩
    | df4 se2 =>
      simp only [DF4SeriesEnvelope.mergeOne]
      by_cases hstep : se2.StepDuration = se.StepDuration
      · rw [if_pos hstep]
        obtain ⟨ms0, h0⟩ := mergeLoadBase_total se se.Meta 0 [] (by simpa using hrows)
        obtain ⟨ms, h1⟩ := mergeLoadOther_total se2 se2.Meta 0 ms0
          (by simpa using hts se2 rfl)
        rw [h0]
        simp only
        rw [h1]
        simp only
        rw [if_neg hp]
        exact ⟨_, rfl, rfl, by simp⟩
      · rw [if_neg hstep]
        exact ⟨se, rfl, rfl, hrows⟩

/-- The loop of `Merge` over the whole collection returns under the same conditions. -/
theorem mergeAll_total (collection : List (Option Timeseries)) (se : DF4SeriesEnvelope)
    (hp : se.Head.Period ≠ 0) (hrows : se.Meta.length ≤ se.Data.length)
    (hcoll : ∀ se2, some (Timeseries.df4 se2) ∈ collection →
      se2.Meta.length ≤ se2.Data.length) :
    ∃ r, se.mergeAll collection = some r ∧ r.Head.Period = se.Head.Period ∧
      r.Meta.length ≤ r.Data.length := by
  induction collection generalizing se with
  | nil => exact ⟨se, rfl, rfl, hrows⟩
  | cons ts rest ih =>
    obtain ⟨r1, h1, hp1, hrows1⟩ := mergeOne_total se ts hp hrows
      (fun se2 h => hcoll se2 (by rw [h]; exact List.mem_cons_self _ _))
    obtain ⟨r, h2, hp2, hrows2⟩ := ih r1 (by rw [hp1]; exact hp) hrows1
      (fun se2 h => hcoll se2 (List.mem_cons_of_mem _ h))
    refine ⟨r, ?_, hp2.trans hp1, hrows2⟩
    simp only [DF4SeriesEnvelope.mergeAll, h1]
    exact h2

/-- C31: for a dense frame with `Head.Period ≠ 0` and at least as many rows as entries of
`Meta`, `CropToRange` returns for every extent, and `Merge` returns for every collection
whose dense frames have at least as many rows as entries of `Meta` each: no division or
remainder by zero and no row index out of range happens.  Both results keep the period and
have a row for every entry of `Meta`.  With `Head.Period = 0` the call of `CropToRange`
panics on the remainder of its alignment step, whatever the frame and the extent. -/
theorem C31_crop_and_merge_total (se : DF4SeriesEnvelope) (e : Extent) (sort : Bool)
    (collection : List (Option Timeseries)) (hp : se.Head.Period ≠ 0)
    (hrows : se.Meta.length ≤ se.Data.length)
    (hcoll : ∀ se2, some (Timeseries.df4 se2) ∈ collection →
      se2.Meta.length ≤ se2.Data.length) :
    (∃ r, se.CropToRange e = some r ∧ r.Head.Period = se.Head.Period ∧
      r.Meta.length ≤ r.Data.length) ∧
    (∃ r, se.Merge sort collection = some r ∧ r.Head.Period = se.Head.Period ∧
      r.Meta.length ≤ r.Data.length) ∧
    (∀ (se0 : DF4SeriesEnvelope) (e0 : Extent), se0.Head.Period = 0 →
      se0.CropToRange e0 = none) := by
  refine ⟨cropToRange_total se e hp hrows, ?_, ?_⟩
  · obtain ⟨r, h, hp1, hrows1⟩ := mergeAll_total collection se hp hrows hcoll
    unfold DF4SeriesEnvelope.Merge
    rw [h]
    cases sort
    · exact ⟨_, rfl, hp1, hrows1⟩
    · exact ⟨_, rfl, hp1, hrows1⟩
  · intro se0 e0 h0
    unfold DF4SeriesEnvelope.CropToRange
    rw [if_pos h0]

/-- Witness of C31: the frame over `[0, 100]` cropped to `[25, 57]`, and merged with the
frame over `[50, 70]`, a sparse envelope and a nil member. -/
theorem C31_crop_and_merge_total_witness :
    (∃ r, frame0to100.CropToRange { Start := Time.ofUnix 25, End := Time.ofUnix 57 } = some r) ∧
    (∃ r, frame0to100.Merge true [some (.df4 frame50to70), some (.series dupBase), none] =
      some r ∧ r.Head.Period = 10) := by
  have h := C31_crop_and_merge_total frame0to100
    { Start := Time.ofUnix 25, End := Time.ofUnix 57 } true
    [some (.df4 frame50to70), some (.series dupBase), none] (by decide) (by decide)
    (by
      intro se2 hmem
      have h2 : se2 = frame50to70 := by
        simpa using hmem
      rw [h2]
      decide)
  obtain ⟨⟨r1, h1, _⟩, ⟨r2, h2, hp2, _⟩, _⟩ := h
  exact ⟨⟨r1, h1⟩, r2, h2, hp2⟩

end Trickster
